import Mathlib

/-!
# ros_type_introspection: schema parser, flattening decoder, substitution engine

A shallow embedding of `src/ros-type-parser.cpp` and the properties of its three
parts: `parseRosTypeDescription`, `buildRosFlatType` and `applyNameTransform`.

Modelling choices:

* `std::string` and `boost::string_ref` are lists of characters (`Str`); a C `char`
  is a `Char`, the terminating NUL of a C string is `NUL`.
* `std::map<std::string, V>` is an association list kept in ascending key order
  (`SMap V`): `mapFind` is `find`, `mapInsert` is `operator[]` followed by an
  assignment, `mapModify` is an update through the iterator returned by `find`, and
  iteration is list traversal.
* The byte buffer behind `uint8_t** buffer_ptr` is the list of the bytes that have
  not been read yet (little-endian words); reads are checked and fail with
  `Err.outOfBuffer` when they would pass the end of the buffer.
* A `double` is its IEEE-754 binary64 bit pattern (`Double`); `ros::Time::toSec`
  belongs to the ROS library and is a parameter `toSec` of the decoder.
* The recursion of `buildRosFlatType` is bounded by a fuel argument that is
  decremented on every recursive call.
* In `applyNameTransform` the keys that pass through the `char[256]` buffers are cut
  at their first NUL (`cstr`), a key of more than 255 characters fails with
  `Err.overflow`, and `boost::string_ref::at` past the end fails with
  `Err.outOfRange`.
-/

namespace RosTypeParser

/-! ## Strings -/

/-- A `std::string` / `boost::string_ref`: the sequence of its characters. -/
abbrev Str := List Char

/-- The constant `VECTOR_SYMBOL("[]")`. -/
def VECTOR_SYMBOL : Str := "[]".toList

/-- The constant `SEPARATOR(".")`. -/
def SEPARATOR : Str := ".".toList

/-- The method `boost::string_ref::ends_with`. -/
def ends_with (s x : Str) : Bool :=
  decide (x.length ≤ s.length) && (s.drop (s.length - x.length) == x)

/-- The method `boost::string_ref::remove_suffix(n)` (only called with `n ≤ length`). -/
def remove_suffix (s : Str) (n : Nat) : Str := s.take (s.length - n)

/-- The call `boost::lexical_cast<std::string>(v)` for a non-negative `int`. -/
def lexical_cast (v : Nat) : Str := Nat.toDigits 10 v

/-- The type name literal `"float64"`. -/
def FLOAT64 : Str := "float64".toList

/-- The type name literal `"uint32"`. -/
def UINT32 : Str := "uint32".toList

/-- The type name literal `"time"`. -/
def TIME : Str := "time".toList

/-- The type name literal `"string"`. -/
def STRING : Str := "string".toList

/-- The literal `"["` that opens an array index. -/
def LBRACKET : Str := "[".toList

/-- The literal `"]"` that closes an array index. -/
def RBRACKET : Str := "]".toList

/-! ## Ordered maps -/

/-- A `std::map<std::string, V>`: its entries in iteration order. -/
abbrev SMap (V : Type) := List (Str × V)

/-- The method `std::map::find`: the value stored under `k`, if any. -/
def mapFind {V : Type} (k : Str) : SMap V → Option V
  | [] => none
  | (k', v) :: rest => if k = k' then some v else mapFind k rest

/-- The statement `m[k] = v`: overwrite the entry of `k`, or insert it in key order. -/
def mapInsert {V : Type} (k : Str) (v : V) : SMap V → SMap V
  | [] => [(k, v)]
  | (k', v') :: rest =>
    if k = k' then (k, v) :: rest
    else if k < k' then (k, v) :: (k', v') :: rest
    else (k', v') :: mapInsert k v rest

/-- In-place update of the value found under `k` (`find(k)->second = f(...)`); the
map is left alone when `k` is absent. -/
def mapModify {V : Type} (k : Str) (f : V → V) : SMap V → SMap V
  | [] => []
  | (k', v') :: rest =>
    if k = k' then (k', f v') :: rest else (k', v') :: mapModify k f rest

/-- The invariant of a `std::map`: strictly ascending keys. -/
def mapSorted {V : Type} (m : SMap V) : Prop := (m.map Prod.fst).Pairwise (· < ·)

/-! ## Data model -/

/-- Modelled from the spec: the struct `RosTypeField` of the header
`ros-type-parser.h`, a field `(type_name, field_name)` of two strings. -/
structure RosTypeField where
  type_name : Str
  field_name : Str
deriving DecidableEq, Repr

/-- Modelled from the spec: the struct `RosType` of the header `ros-type-parser.h`,
the full name as authored and the ordered field list; the constructor
`RosType(name)` is `⟨name, []⟩`. -/
structure RosType where
  full_name : Str
  fields : List RosTypeField
deriving DecidableEq, Repr

/-- The type `RosTypeMap`: `std::map<std::string, RosType>`. -/
abbrev RosTypeMap := SMap RosType

/-- A `double`, given by its IEEE-754 binary64 bit pattern. -/
structure Double where
  bits : Nat
deriving DecidableEq, Repr

/-- Modelled from the spec: the struct `RosTypeFlat` of the header
`ros-type-parser.h`, the three maps of the flat table. -/
structure RosTypeFlat where
  value : SMap Double
  name_id : SMap Str
  value_renamed : SMap Double
deriving DecidableEq, Repr

/-- How a call can fail to complete. -/
inductive Err where
  /-- a read would pass the end of the byte buffer -/
  | outOfBuffer
  /-- a negative length is handed to `std::string::reserve` (`std::length_error`) -/
  | lengthError
  /-- the recursion bound of the model is exhausted -/
  | fuel
  /-- `boost::string_ref::at` is called with an index that is not inside the string -/
  | outOfRange
  /-- more than 255 characters are written into a `char[256]` buffer -/
  | overflow
deriving DecidableEq, Repr

/-- The result of a call: it completes with a value, or it fails. -/
inductive Outcome (α : Type) where
  | ok (a : α)
  | error (e : Err)
deriving DecidableEq, Repr

/-! ## Reading from the buffer -/

/-- The value of a little-endian byte sequence (each byte taken modulo 256). -/
def leNat : List Nat → Nat
  | [] => 0
  | b :: rest => b % 256 + 256 * leNat rest

/-- The template `ReadFromBufferAndMoveForward<T>` for a `T` of `n` bytes: the
unsigned value of the next `n` bytes and the buffer after them. -/
def ReadFromBufferAndMoveForward (n : Nat) (buf : List Nat) : Outcome (Nat × List Nat) :=
  if n ≤ buf.length then .ok (leNat (buf.take n), buf.drop n) else .error .outOfBuffer

/-- Reinterpretation of an unsigned 32-bit value as `int32_t`. -/
def toInt32 (u : Nat) : Int := if u < 2 ^ 31 then (u : Int) else (u : Int) - 2 ^ 32

/-- The conversion `(double) n` of a `uint32_t`, which is exact. -/
def doubleOfUInt32 (n : Nat) : Double :=
  if n = 0 then ⟨0⟩
  else ⟨(1023 + Nat.log2 n) * 2 ^ 52 + (n - 2 ^ Nat.log2 n) * 2 ^ (52 - Nat.log2 n)⟩

/-- The number denoted by a binary64 bit pattern (IEEE 754: sign bit, 11 exponent bits,
52 fraction bits); `none` for the infinities and NaN. -/
def Double.toRat (d : Double) : Option ℚ :=
  if d.bits / 2 ^ 52 % 2 ^ 11 = 2047 then none
  else if d.bits / 2 ^ 52 % 2 ^ 11 = 0 then
    some ((if d.bits / 2 ^ 63 % 2 = 1 then -1 else 1) * ((d.bits % 2 ^ 52 : Nat) : ℚ)
      / 2 ^ 1074)
  else
    some ((if d.bits / 2 ^ 63 % 2 = 1 then -1 else 1)
      * (((2 ^ 52 + d.bits % 2 ^ 52) * 2 ^ (d.bits / 2 ^ 52 % 2 ^ 11) : Nat) : ℚ) / 2 ^ 1075)

/-- A `for (int v = 0; v < count; v++)` loop whose body can fail: `loopFrom body k v s`
runs the body for the `k` indices starting at `v`. -/
def loopFrom {σ : Type} (body : Nat → σ → Outcome σ) : Nat → Nat → σ → Outcome σ
  | 0, _, s => .ok s
  | k + 1, v, s =>
    match body v s with
    | .ok s' => loopFrom body k (v + 1) s'
    | .error e => .error e

/-- A `for` loop over the elements of a vector whose body can fail. -/
def forEach {α σ : Type} (body : α → σ → Outcome σ) : List α → σ → Outcome σ
  | [], s => .ok s
  | a :: rest, s =>
    match body a s with
    | .ok s' => forEach body rest s'
    | .error e => .error e

/-! ## The flattening decoder -/

/-- The state threaded through a decode: the unread bytes and the flat table. -/
abbrev DecodeState := List Nat × RosTypeFlat

/-- The body of the `for (v ...)` loop of `buildRosFlatType` for an element whose type
is one of the four built-in ones; `none` when `type` is not built in. `toSec` is
`ros::Time::toSec` of the ROS library, applied to the `sec` and `nsec` words. -/
def readBuiltin (toSec : Nat → Nat → Double) (type key : Str) (st : DecodeState) :
    Option (Outcome DecodeState) :=
  if type = FLOAT64 then
    some (match ReadFromBufferAndMoveForward 8 st.1 with
      | .ok (x, buf) => .ok (buf, { st.2 with value := mapInsert key ⟨x⟩ st.2.value })
      | .error e => .error e)
  else if type = UINT32 then
    some (match ReadFromBufferAndMoveForward 4 st.1 with
      | .ok (x, buf) =>
        .ok (buf, { st.2 with value := mapInsert key (doubleOfUInt32 x) st.2.value })
      | .error e => .error e)
  else if type = TIME then
    some (match ReadFromBufferAndMoveForward 8 st.1 with
      | .ok (x, buf) =>
        .ok (buf, { st.2 with
          value := mapInsert key (toSec (x % 2 ^ 32) (x / 2 ^ 32)) st.2.value })
      | .error e => .error e)
  else if type = STRING then
    some (match ReadFromBufferAndMoveForward 4 st.1 with
      | .ok (n, buf) =>
        if toInt32 n < 0 then .error .lengthError
        else if n ≤ buf.length then
          .ok (buf.drop n, { st.2 with
            name_id := mapInsert key ((buf.take n).map (fun b => Char.ofNat (b % 256)))
              st.2.name_id })
        else .error .outOfBuffer
      | .error e => .error e)
  else none

/-- The body of the `for (v ...)` loop of `buildRosFlatType` for one element of type
`type` written under `key` (`prefix + suffix`); `recurse` is the recursive call. -/
def decodeElement (toSec : Nat → Nat → Double) (type_map : RosTypeMap)
    (recurse : Str → Str → DecodeState → Outcome DecodeState)
    (type key : Str) (st : DecodeState) : Outcome DecodeState :=
  match readBuiltin toSec type key st with
  | some r => r
  | none =>
    match mapFind type type_map with
    | some t =>
      forEach (fun (f : RosTypeField) st =>
        recurse f.type_name (key ++ SEPARATOR ++ f.field_name) st) t.fields st
    | none => .ok st

/-- The suffix appended to the path of element `v`: empty for a scalar. -/
def elementSuffix (is_vector : Bool) (v : Nat) : Str :=
  if is_vector then LBRACKET ++ lexical_cast v ++ RBRACKET else []

/-- The function `buildRosFlatType`; the first argument bounds the recursion depth. -/
def buildRosFlatType (toSec : Nat → Nat → Double) (type_map : RosTypeMap) :
    Nat → Str → Str → DecodeState → Outcome DecodeState
  | 0, _, _, _ => .error .fuel
  | fuel + 1, type_name, pfx, st =>
    let is_vector := ends_with type_name VECTOR_SYMBOL
    let type := if is_vector then remove_suffix type_name 2 else type_name
    let body : Nat → DecodeState → Outcome DecodeState := fun v st =>
      decodeElement toSec type_map (buildRosFlatType toSec type_map fuel) type
        (pfx ++ elementSuffix is_vector v) st
    if is_vector then
      match ReadFromBufferAndMoveForward 4 st.1 with
      | .ok (n, buf) => loopFrom body (toInt32 n).toNat 0 (buf, st.2)
      | .error e => .error e
    else loopFrom body 1 0 st

/-- The element type of a type name: the name without its array marker. -/
def elementType (type_name : Str) : Str :=
  if ends_with type_name VECTOR_SYMBOL then remove_suffix type_name 2 else type_name

/-! ## Reference encoder and flattening of value trees -/

mutual
/-- A value of an element type: a built-in value or a compound value. -/
inductive Val where
  | f64 (bits : Nat)
  | u32 (n : Nat)
  | time (sec nsec : Nat)
  | str (s : Str)
  | struct (fs : FieldVals)
/-- The named field values of a compound value, in field order; a field holds one
element or an array of elements. -/
inductive FieldVals where
  | nil
  | one (name : Str) (v : Val) (rest : FieldVals)
  | many (name : Str) (es : Vals) (rest : FieldVals)
/-- The elements of an array. -/
inductive Vals where
  | nil
  | cons (v : Val) (vs : Vals)
end

/-- The `k` little-endian bytes of `n`. -/
def leBytes : Nat → Nat → List Nat
  | 0, _ => []
  | k + 1, n => n % 256 :: leBytes k (n / 256)

/-- Number of elements of an array value. -/
def Vals.length : Vals → Nat
  | .nil => 0
  | .cons _ vs => vs.length + 1

mutual
/-- Reference encoder of an element: fixed-width little-endian numbers, a string as
its 32-bit length and its bytes, a compound as its fields in order. -/
def encodeVal : Val → List Nat
  | .f64 b => leBytes 8 b
  | .u32 n => leBytes 4 n
  | .time sec nsec => leBytes 4 sec ++ leBytes 4 nsec
  | .str s => leBytes 4 s.length ++ s.map Char.toNat
  | .struct fs => encodeFields fs
/-- Reference encoder of the fields of a compound: an array is its 32-bit count
followed by its elements. -/
def encodeFields : FieldVals → List Nat
  | .nil => []
  | .one _ v rest => encodeVal v ++ encodeFields rest
  | .many _ es rest => leBytes 4 es.length ++ encodeVals es ++ encodeFields rest
/-- Reference encoder of the elements of an array. -/
def encodeVals : Vals → List Nat
  | .nil => []
  | .cons v vs => encodeVal v ++ encodeVals vs
end

/-- A terminal field value: a number (kept in `value`) or a text (kept in `name_id`). -/
inductive Terminal where
  | num (x : Double)
  | text (s : Str)
deriving DecidableEq, Repr

mutual
/-- The terminal fields below an element stored under `key`, in wire order. -/
def flattenVal (toSec : Nat → Nat → Double) (key : Str) : Val → List (Str × Terminal)
  | .f64 b => [(key, .num ⟨b⟩)]
  | .u32 n => [(key, .num (doubleOfUInt32 n))]
  | .time sec nsec => [(key, .num (toSec sec nsec))]
  | .str s => [(key, .text s)]
  | .struct fs => flattenFields toSec key fs
/-- The terminal fields of the fields of a compound stored under `key`. -/
def flattenFields (toSec : Nat → Nat → Double) (key : Str) :
    FieldVals → List (Str × Terminal)
  | .nil => []
  | .one name v rest =>
    flattenVal toSec (key ++ SEPARATOR ++ name) v ++ flattenFields toSec key rest
  | .many name es rest =>
    flattenVals toSec (key ++ SEPARATOR ++ name) 0 es ++ flattenFields toSec key rest
/-- The terminal fields of the array elements numbered from `i` on. -/
def flattenVals (toSec : Nat → Nat → Double) (key : Str) (i : Nat) :
    Vals → List (Str × Terminal)
  | .nil => []
  | .cons v vs =>
    flattenVal toSec (key ++ LBRACKET ++ lexical_cast i ++ RBRACKET) v
      ++ flattenVals toSec key (i + 1) vs
end

/-- The four built-in type names. -/
def isBuiltin (t : Str) : Bool :=
  t = FLOAT64 || t = UINT32 || t = TIME || t = STRING

mutual
/-- The element `v` is a value of the type named `t` of the type map. -/
def valHasType (type_map : RosTypeMap) (t : Str) : Val → Bool
  | .f64 b => t = FLOAT64 && decide (b < 2 ^ 64)
  | .u32 n => t = UINT32 && decide (n < 2 ^ 32)
  | .time sec nsec => t = TIME && decide (sec < 2 ^ 32) && decide (nsec < 2 ^ 32)
  | .str s =>
    t = STRING && decide (s.length < 2 ^ 31) && s.all (fun c => c.toNat < 256)
  | .struct fs =>
    !isBuiltin t &&
      match mapFind t type_map with
      | some ty => fieldsHaveType type_map ty.fields fs
      | none => false
/-- The field values match the field list of a type: same names in the same order,
an array exactly where the field type carries the array marker. -/
def fieldsHaveType (type_map : RosTypeMap) : List RosTypeField → FieldVals → Bool
  | [], .nil => true
  | f :: fl, .one name v rest =>
    !ends_with f.type_name VECTOR_SYMBOL && f.field_name = name
      && valHasType type_map f.type_name v && fieldsHaveType type_map fl rest
  | f :: fl, .many name es rest =>
    ends_with f.type_name VECTOR_SYMBOL && f.field_name = name
      && decide (es.length < 2 ^ 31)
      && valsHaveType type_map (remove_suffix f.type_name 2) es
      && fieldsHaveType type_map fl rest
  | _, _ => false
/-- Every element of the array is a value of the type named `t`. -/
def valsHaveType (type_map : RosTypeMap) (t : Str) : Vals → Bool
  | .nil => true
  | .cons v vs => valHasType type_map t v && valsHaveType type_map t vs
end

mutual
/-- Nesting depth of compound values inside an element. -/
def depthVal : Val → Nat
  | .struct fs => depthFields fs
  | _ => 0
/-- One more than the deepest nesting among the fields (0 for no fields). -/
def depthFields : FieldVals → Nat
  | .nil => 0
  | .one _ v rest => max (depthVal v + 1) (depthFields rest)
  | .many _ es rest => max (depthVals es + 1) (depthFields rest)
/-- The deepest nesting among the elements. -/
def depthVals : Vals → Nat
  | .nil => 0
  | .cons v vs => max (depthVal v) (depthVals vs)
end

/-- The number denoted by a string of decimal digits. -/
def decimalValue (s : Str) : Nat := s.foldl (fun acc c => 10 * acc + (c.toNat - 48)) 0

/-- The field names of a compound value, in order. -/
def fieldNames : FieldVals → List Str
  | .nil => []
  | .one name _ rest => name :: fieldNames rest
  | .many name _ rest => name :: fieldNames rest

/-- What can follow the key of an element inside the key of a terminal field below
it: nothing, or text that starts with a field separator or an array index. -/
def PathTail (r : Str) : Prop := ∀ c, r.head? = some c → c = '.' ∨ c = '['

/-- What one call of `buildRosFlatType` decodes: one element for a scalar type name,
the elements of an array for a type name with the array marker. -/
inductive RootVal where
  | one (v : Val)
  | many (es : Vals)

/-- Reference encoder of the value of a call: an array is its 32-bit count followed
by its elements. -/
def encodeRoot : RootVal → List Nat
  | .one v => encodeVal v
  | .many es => leBytes 4 es.length ++ encodeVals es

/-- The terminal fields of the value of a call with path prefix `pfx`. -/
def flattenRoot (toSec : Nat → Nat → Double) (pfx : Str) : RootVal → List (Str × Terminal)
  | .one v => flattenVal toSec pfx v
  | .many es => flattenVals toSec pfx 0 es

/-- The value fits the type name `t`: an element of type `t` when `t` carries no
array marker, otherwise fewer than `2^31` elements of the type `t` without the marker. -/
def rootHasType (type_map : RosTypeMap) (t : Str) : RootVal → Bool
  | .one v => !ends_with t VECTOR_SYMBOL && valHasType type_map t v
  | .many es =>
    ends_with t VECTOR_SYMBOL && decide (es.length < 2 ^ 31)
      && valsHaveType type_map (remove_suffix t 2) es

/-- Nesting depth of compound values inside the value of a call. -/
def depthRoot : RootVal → Nat
  | .one v => depthVal v
  | .many es => depthVals es

/-- Write one terminal field into the flat table. -/
def writeEntry (c : RosTypeFlat) (e : Str × Terminal) : RosTypeFlat :=
  match e.2 with
  | .num x => { c with value := mapInsert e.1 x c.value }
  | .text s => { c with name_id := mapInsert e.1 s c.name_id }

/-- Write terminal fields into the flat table, in order. -/
def writeAll (es : List (Str × Terminal)) (c : RosTypeFlat) : RosTypeFlat :=
  es.foldl writeEntry c

/-- The invariant of the data model: no two fields of one type share a field name. -/
def NoDupFields (type_map : RosTypeMap) : Prop :=
  ∀ e ∈ type_map, (e.2.fields.map RosTypeField.field_name).Nodup

/-- The type map is closed: the type of every field, without the array marker, is a
built-in type or a key of the map. -/
def Closed (type_map : RosTypeMap) : Prop :=
  ∀ e ∈ type_map, ∀ f ∈ e.2.fields,
    isBuiltin (elementType f.type_name) = true ∨ mapFind (elementType f.type_name) type_map ≠ none

/-- No field name of the type map contains one of the characters `.`, `[`, `]`. -/
def FieldNamesClean (type_map : RosTypeMap) : Prop :=
  ∀ e ∈ type_map, ∀ f ∈ e.2.fields, ∀ c ∈ f.field_name, c ≠ '.' ∧ c ≠ '[' ∧ c ≠ ']'

instance decNoDupFields (type_map : RosTypeMap) : Decidable (NoDupFields type_map) := by
  unfold NoDupFields
  infer_instance

instance decClosed (type_map : RosTypeMap) : Decidable (Closed type_map) := by
  unfold Closed
  infer_instance

instance decFieldNamesClean (type_map : RosTypeMap) :
    Decidable (FieldNamesClean type_map) := by
  unfold FieldNamesClean
  infer_instance

/-! ## The schema parser -/

/-- The `while` loop of `isCommentOrEmpty`: the index it stops at, started at `index`;
`fuel` bounds the number of iterations. -/
def skipSpaces (line : Str) : Nat → Nat → Nat
  | 0, index => index
  | fuel + 1, index =>
    if index < line.length - 1 ∧ line.get? index = some ' ' then skipSpaces line fuel (index + 1)
    else index

/-- The function `isCommentOrEmpty`. -/
def isCommentOrEmpty (line : Str) : Bool :=
  if line.isEmpty then true
  else line.get? (skipSpaces line line.length 0) = some '#'

/-- The function `isSeparator`: exactly 80 characters, all of them `=`. -/
def isSeparator (line : Str) : Bool :=
  decide (line.length = 80) && line.all (fun c => c = '=')

/-- The `for` loop of `strippedTypeName`: the greatest index below `n` that holds a
`/`, searched downwards from `n - 1`. -/
def lastSlash (line : Str) : Nat → Option Nat
  | 0 => none
  | n + 1 => if line.get? n = some '/' then some n else lastSlash line n

/-- The function `strippedTypeName`: erase everything up to the last `/`. -/
def strippedTypeName (line : Str) : Str :=
  match lastSlash line line.length with
  | some index => line.drop (index + 1)
  | none => line

/-- The lines that successive calls of `std::getline(stream, line)` return: the text
split at every line feed, without an empty last line. -/
def getLines : Str → List Str
  | [] => []
  | c :: rest =>
    if c = Char.ofNat 10 then [] :: getLines rest
    else
      match getLines rest with
      | [] => [[c]]
      | line :: lines => (c :: line) :: lines

/-- The white space that `operator>>` skips (`std::isspace` in the C locale). -/
def isSpace (c : Char) : Bool :=
  c = ' ' || (9 ≤ c.toNat && c.toNat ≤ 13)

/-- One `ss2 >> token`: skip white space, then take the characters up to the next
white space; the token is empty when nothing is left. The second component is the
unread rest of the stream. -/
def nextToken (s : Str) : Str × Str :=
  let s' := s.dropWhile isSpace
  (s'.takeWhile (fun c => !isSpace c), s'.dropWhile (fun c => !isSpace c))

/-- The field read from a field line: the first two tokens, the type name stripped
of its namespace. -/
def parseField (line : Str) : RosTypeField :=
  let t1 := nextToken line
  let t2 := nextToken t1.2
  ⟨strippedTypeName t1.1, t2.1⟩

/-- The search for the field name followed by `push_back` when it is not found. -/
def addField (field : RosTypeField) (fields : List RosTypeField) : List RosTypeField :=
  if fields.any (fun f => f.field_name = field.field_name) then fields
  else fields ++ [field]

/-- The guarded `type_map->insert`: register `name` under `key` unless the key is
already present. -/
def registerType (key name : Str) (type_map : RosTypeMap) : RosTypeMap :=
  match mapFind key type_map with
  | some _ => type_map
  | none => mapInsert key ⟨name, []⟩ type_map

/-- The header line after a separator, without a leading `"MSG: "`. -/
def headerName (line : Str) : Str :=
  if line.take 5 = "MSG: ".toList then line.drop 5 else line

/-- The `for` loop of `parseRosTypeDescription` over the lines still to be read, with
the current type name and the type map. -/
def parseLines : List Str → Str → RosTypeMap → RosTypeMap
  | [], _, type_map => type_map
  | line :: rest, current_type_name, type_map =>
    if isCommentOrEmpty line then parseLines rest current_type_name type_map
    else if isSeparator line then
      match rest with
      | [] => type_map
      | header :: rest' =>
        parseLines rest' (strippedTypeName (headerName header))
          (registerType (strippedTypeName (headerName header)) (headerName header) type_map)
    else
      parseLines rest current_type_name
        (mapModify current_type_name
          (fun t => { t with fields := addField (parseField line) t.fields }) type_map)

/-- The function `parseRosTypeDescription`. -/
def parseRosTypeDescription (type_name msg_definition : Str) (type_map : RosTypeMap) :
    RosTypeMap :=
  parseLines (getLines msg_definition) (strippedTypeName type_name)
    (registerType (strippedTypeName type_name) type_name type_map)

/-- The field list registered under `key`, empty when the key is absent. -/
def fieldsOf (type_map : RosTypeMap) (key : Str) : List RosTypeField :=
  match mapFind key type_map with
  | some t => t.fields
  | none => []

/-- The fields that the lines declare for the type `key`, in textual order: a field
line belongs to the type named by the most recent header, or to the initial current
type when no header precedes it. -/
def declaredFields : List Str → Str → Str → List RosTypeField
  | [], _, _ => []
  | line :: rest, current_type_name, key =>
    if isCommentOrEmpty line then declaredFields rest current_type_name key
    else if isSeparator line then
      match rest with
      | [] => []
      | header :: rest' => declaredFields rest' (strippedTypeName (headerName header)) key
    else
      (if current_type_name = key then [parseField line] else [])
        ++ declaredFields rest current_type_name key

/-- The type map already holds everything the lines would add: every header names a
registered type and every field line names a field its current type already has. -/
def Absorbs (type_map : RosTypeMap) : List Str → Str → Prop
  | [], _ => True
  | line :: rest, current_type_name =>
    if isCommentOrEmpty line then Absorbs type_map rest current_type_name
    else if isSeparator line then
      match rest with
      | [] => True
      | header :: rest' =>
        mapFind (strippedTypeName (headerName header)) type_map ≠ none
          ∧ Absorbs type_map rest' (strippedTypeName (headerName header))
    else
      (∃ t, mapFind current_type_name type_map = some t
          ∧ t.fields.any (fun f => f.field_name = (parseField line).field_name) = true)
        ∧ Absorbs type_map rest current_type_name

/-! ## Reachability between types -/

/-- The type `b` is the element type of a field of the compound type `a`. -/
def FieldEdge (type_map : RosTypeMap) (a b : Str) : Prop :=
  isBuiltin a = false
    ∧ ∃ t, mapFind a type_map = some t ∧ ∃ f ∈ t.fields, elementType f.type_name = b

/-- No compound type reaches itself through the element types of its fields. -/
def Acyclic (type_map : RosTypeMap) : Prop :=
  ∀ a, ¬ Relation.TransGen (FieldEdge type_map) a a

/-- A rank that is strictly smaller on the element type of every field than on the
key of the type that holds the field. -/
def RankedBy (rank : Str → Nat) (type_map : RosTypeMap) : Prop :=
  ∀ e ∈ type_map, ∀ f ∈ e.2.fields, rank (elementType f.type_name) < rank e.1

instance decRankedBy (rank : Str → Nat) (type_map : RosTypeMap) :
    Decidable (RankedBy rank type_map) := by
  unfold RankedBy
  infer_instance

/-! ## Well-formed schema texts -/

/-- A line group of a well-formed schema text: an ignored line, a field line of two
tokens with its white space, or a separator line followed by a header line, which is
`MSG: name` when `marked` and the bare `name` otherwise. -/
inductive SchemaItem where
  | ignored (line : Str)
  | field (ws0 type ws1 name ws2 : Str)
  | header (marked : Bool) (name : Str)

/-- The separator line: 80 characters `=`. -/
def separatorLine : Str := List.replicate 80 '='

/-- The text lines of an item. -/
def SchemaItem.lines : SchemaItem → List Str
  | .ignored line => [line]
  | .field ws0 type ws1 name ws2 => [ws0 ++ type ++ ws1 ++ name ++ ws2]
  | .header marked name => [separatorLine, (if marked then "MSG: ".toList else []) ++ name]

/-- An ignored line is a comment or empty line; in a field line the two tokens are
not empty and hold no white space, the gaps hold only white space, the gap between
the tokens is not empty, and the type does not start with `#`; the name of a bare
header does not itself start with `MSG: `. -/
def SchemaItem.wellFormed : SchemaItem → Bool
  | .ignored line => isCommentOrEmpty line
  | .field ws0 type ws1 name ws2 =>
    ws0.all isSpace && ws1.all isSpace && ws2.all isSpace && !ws1.isEmpty
      && type.all (fun c => !isSpace c) && name.all (fun c => !isSpace c)
      && !type.isEmpty && !name.isEmpty && type.head? != some '#'
  | .header marked name => marked || name.take 5 != "MSG: ".toList

/-- The text lines of a list of items. -/
def schemaLines : List SchemaItem → List Str
  | [] => []
  | item :: rest => item.lines ++ schemaLines rest

/-- The fields that the items give to the type `key`, in textual order: a field line
belongs to the type named by the most recent header before it, or to the initial
current type when no header precedes it. -/
def sectionFields : List SchemaItem → Str → Str → List RosTypeField
  | [], _, _ => []
  | .ignored _ :: rest, current, key => sectionFields rest current key
  | .field _ type _ name _ :: rest, current, key =>
    (if current = key then [⟨strippedTypeName type, name⟩] else [])
      ++ sectionFields rest current key
  | .header _ name :: rest, _, key => sectionFields rest (strippedTypeName name) key

/-- The (key, full name) pairs of the headers, in textual order. -/
def headerTypes : List SchemaItem → List (Str × Str)
  | [] => []
  | .header _ name :: rest => (strippedTypeName name, name) :: headerTypes rest
  | .ignored _ :: rest => headerTypes rest
  | .field _ _ _ _ _ :: rest => headerTypes rest

/-- The (key, full name) pairs of the root type and of the headers, in order. -/
def sectionTypes (type_name : Str) (items : List SchemaItem) : List (Str × Str) :=
  (strippedTypeName type_name, type_name) :: headerTypes items

/-- The fields in order without the later duplicates of a field name; `seen` holds
the names that are taken already. -/
def keepFirstByName : List RosTypeField → List Str → List RosTypeField
  | [], _ => []
  | f :: rest, seen =>
    if f.field_name ∈ seen then keepFirstByName rest seen
    else f :: keepFirstByName rest (seen ++ [f.field_name])

/-! ## The substitution engine -/

/-- Modelled from the spec: the class `SubstitutionRule` of the header
`ros-type-parser.h`, the prefix and suffix of the pattern, location and substitution
templates. -/
structure SubstitutionRule where
  pattern_pre : Str
  pattern_suf : Str
  location_pre : Str
  location_suf : Str
  substitution_pre : Str
  substitution_suf : Str
deriving DecidableEq, Repr

/-- One template of the constructor `SubstitutionRule::SubstitutionRule`: `pos` is
`find_first_of('#')`; the prefix keeps the first `pos` characters, the suffix drops
`pos + 1`; without a marker `pos` is -1, which empties the prefix and keeps the
whole template as suffix. -/
def splitTemplate (template : Str) : Str × Str :=
  match template.indexOf? '#' with
  | some pos => (template.take pos, template.drop (pos + 1))
  | none => ([], template)

/-- The constructor `SubstitutionRule::SubstitutionRule`. -/
def SubstitutionRule.make (pattern name_location substitution : Str) : SubstitutionRule :=
  ⟨(splitTemplate pattern).1, (splitTemplate pattern).2,
   (splitTemplate name_location).1, (splitTemplate name_location).2,
   (splitTemplate substitution).1, (splitTemplate substitution).2⟩

/-- The algorithm `std::search`: the index of the first occurrence of `needle` in
`hay`, or the length of `hay` when there is none. -/
def search (needle : Str) : Str → Nat
  | [] => 0
  | c :: rest => if needle.isPrefixOf (c :: rest) then 0 else search needle rest + 1

/-- The method `boost::string_ref::find`: `none` is `npos`, returned when `std::search`
ends at the end of the string. -/
def find (name needle : Str) : Option Nat :=
  if search needle name = name.length then none else some (search needle name)

/-- The digit scan `while (isdigit(name.at(posC))) posC++` over the characters from
`posB` on: the number of digits passed, or an out-of-range failure of `at` when the
scan reaches the end of the string. -/
def digitRun : Str → Outcome Nat
  | [] => .error .outOfRange
  | c :: rest =>
    if c.isDigit then
      match digitRun rest with
      | .ok n => .ok (n + 1)
      | .error e => .error e
    else .ok 0

/-- The terminating NUL character of a C string. -/
def NUL : Char := Char.ofNat 0

/-- The test `strncmp(a, b, n) == 0` on C strings: the end of a string reads as NUL,
and the comparison stops at a difference, at a NUL or after `n` characters. -/
def strncmpEq : Nat → Str → Str → Bool
  | 0, _, _ => true
  | n + 1, a, b =>
    if a.headD NUL ≠ b.headD NUL then false
    else if a.headD NUL = NUL then true
    else strncmpEq n a.tail b.tail

/-- The `std::string` built from a `char` buffer: its characters up to the first NUL. -/
def cstr (buffer : Str) : Str := buffer.takeWhile (fun c => c ≠ NUL)

/-- The body of the rule loop of `applyNameTransform` for one rule and one key:
`ok none` when the rule does not apply (`continue`, or the cross-reference is not
found), `ok (some new_name)` when it does. -/
def tryRule (rule : SubstitutionRule) (name_id : SMap Str) (name : Str) :
    Outcome (Option Str) :=
  match find name rule.pattern_pre with
  | none => .ok none
  | some posA =>
    let posB := posA + rule.pattern_pre.length
    match digitRun (name.drop posB) with
    | .error e => .error e
    | .ok digits =>
      let posC := posB + digits
      let name_pfx := name.take posA
      let index := (name.drop posB).take (posC - posB)
      let name_suffix := name.drop posC
      if strncmpEq rule.pattern_suf.length name_suffix rule.pattern_suf then
        let name_suffix := name_suffix.drop rule.pattern_suf.length
        let key := name_pfx ++ rule.location_pre ++ index ++ rule.location_suf
        if 255 < key.length then .error .overflow
        else
          match mapFind (cstr key) name_id with
          | some index_replacement =>
            let new_name := name_pfx ++ rule.substitution_pre ++ index_replacement
              ++ rule.substitution_suf ++ name_suffix
            if 255 < new_name.length then .error .overflow
            else .ok (some (cstr new_name))
          | none => .ok none
      else .ok none

/-- The three ways in which a rule does not apply to a key, read off the key: the
pattern prefix does not occur in the key; or behind its first occurrence and the digit
run `D` the pattern suffix does not follow; or the pattern suffix follows and the
cross-reference key, assembled from the text before the occurrence, the location
prefix, `D` and the location suffix, is not in `name_id`. In the last two cases `D` is
the whole digit run: no digit follows it. The pattern suffix and the cross-reference
key are taken as the code compares them, as C strings: `cstr` changes nothing in a
string without NUL. -/
def RuleMisses (rule : SubstitutionRule) (name_id : SMap Str) (key : Str) : Prop :=
  (¬ ∃ a b : Str, key = a ++ rule.pattern_pre ++ b)
    ∨ (∃ P D rest : Str, key = P ++ rule.pattern_pre ++ D ++ rest
        ∧ (∀ i < P.length, ¬ rule.pattern_pre <+: key.drop i)
        ∧ (∀ ch ∈ D, ch.isDigit = true) ∧ (∀ ch ∈ rest.head?, ch.isDigit = false)
        ∧ ¬ cstr rule.pattern_suf <+: rest)
    ∨ (∃ P D R : Str, key = P ++ rule.pattern_pre ++ D ++ rule.pattern_suf ++ R
        ∧ (∀ i < P.length, ¬ rule.pattern_pre <+: key.drop i)
        ∧ (∀ ch ∈ D, ch.isDigit = true)
        ∧ (∀ ch ∈ (rule.pattern_suf ++ R).head?, ch.isDigit = false)
        ∧ mapFind (cstr (P ++ rule.location_pre ++ D ++ rule.location_suf)) name_id = none)

/-- The rule loop of `applyNameTransform` for one key: the key under which the entry
is stored in `value_renamed`, the one built by the first rule that applies or the
key itself when no rule applies. -/
def applyRules : List SubstitutionRule → SMap Str → Str → Outcome Str
  | [], _, name => .ok name
  | rule :: rest, name_id, name =>
    match tryRule rule name_id name with
    | .ok (some new_name) => .ok new_name
    | .ok none => applyRules rest name_id name
    | .error e => .error e

/-- The function `applyNameTransform`: for every entry of `value`, in key order, one
assignment into `value_renamed`. -/
def applyNameTransform (rules : List SubstitutionRule) (container : RosTypeFlat) :
    Outcome RosTypeFlat :=
  forEach (fun (entry : Str × Double) (c : RosTypeFlat) =>
    match applyRules rules c.name_id entry.1 with
    | .ok key => .ok { c with value_renamed := mapInsert key entry.2 c.value_renamed }
    | .error e => .error e) container.value container

/-- Assign the entries into a map, one after the other. -/
def insertAll (entries : List (Str × Double)) (m : SMap Double) : SMap Double :=
  entries.foldl (fun m e => mapInsert e.1 e.2 m) m

/-- The key under which the entry of `name` is stored by the rule loop (the name
itself when the loop fails). -/
def newKey (rules : List SubstitutionRule) (name_id : SMap Str) (name : Str) : Str :=
  match applyRules rules name_id name with
  | .ok key => key
  | .error _ => name

/-! ## The Robot / JointState scenario -/

/-- The type map `{ JointState: [(string, name), (float64, position)],
Robot: [(JointState[], joint)] }`. -/
def exampleTypeMap : RosTypeMap :=
  [("JointState".toList, ⟨"JointState".toList,
      [⟨STRING, "name".toList⟩, ⟨FLOAT64, "position".toList⟩]⟩),
   ("Robot".toList, ⟨"Robot".toList, [⟨"JointState[]".toList, "joint".toList⟩]⟩)]

/-- The `double` 1.5 (bit pattern `0x3FF8000000000000`). -/
def double_1_5 : Double := ⟨0x3FF8000000000000⟩

/-- The `double` 2.5 (bit pattern `0x4004000000000000`). -/
def double_2_5 : Double := ⟨0x4004000000000000⟩

/-- The value `joint = [ {name:"hip", position:1.5}, {name:"knee", position:2.5} ]`. -/
def exampleRobot : Val :=
  .struct (.many "joint".toList
    (.cons (.struct (.one "name".toList (.str "hip".toList)
        (.one "position".toList (.f64 double_1_5.bits) .nil)))
      (.cons (.struct (.one "name".toList (.str "knee".toList)
        (.one "position".toList (.f64 double_2_5.bits) .nil))) .nil)) .nil)

/-- The bytes that encode `exampleRobot`: count 2, then for each joint the length
and bytes of its name and the eight bytes of its position. -/
def exampleBuffer : List Nat :=
  [2, 0, 0, 0,
   3, 0, 0, 0, 104, 105, 112, 0, 0, 0, 0, 0, 0, 248, 63,
   4, 0, 0, 0, 107, 110, 101, 101, 0, 0, 0, 0, 0, 0, 4, 64]

/-- The empty flat table. -/
def emptyFlat : RosTypeFlat := ⟨[], [], []⟩

/-- The rule with pattern `"[#]."`, cross-reference `"[#].name"`, substitution `".#."`. -/
def exampleRule : SubstitutionRule :=
  SubstitutionRule.make "[#].".toList "[#].name".toList ".#.".toList

/-- A second rule with the same pattern and cross-reference, substitution `"/#/"`. -/
def exampleRule2 : SubstitutionRule :=
  SubstitutionRule.make "[#].".toList "[#].name".toList "/#/".toList

/-- The flat table with `value = {"joint[0].position":1.5, "joint[1].position":2.5}`
and `name_id = {"joint[0].name":"hip", "joint[1].name":"knee"}`. -/
def exampleFlat : RosTypeFlat :=
  ⟨[("joint[0].position".toList, double_1_5), ("joint[1].position".toList, double_2_5)],
   [("joint[0].name".toList, "hip".toList), ("joint[1].name".toList, "knee".toList)], []⟩

/-- A flat table whose two joints carry the same name `"hip"`. -/
def sameNameFlat : RosTypeFlat :=
  ⟨[("joint[0].position".toList, double_1_5), ("joint[1].position".toList, double_2_5)],
   [("joint[0].name".toList, "hip".toList), ("joint[1].name".toList, "hip".toList)], []⟩

/-- A flat table in which the renamed key of `a[0].x` is the key of another entry. -/
def collidingFlat : RosTypeFlat :=
  ⟨[("a.hip.x".toList, double_1_5), ("a[0].x".toList, double_2_5)],
   [("a[0].name".toList, "hip".toList)], []⟩

/-- A flat table with three keys to which the rule `("[#].", "[#].name", ".#.")` does
not apply: in `a[0]x` the pattern suffix does not follow the index, for `b[1].y` the
cross-reference key `b[1].name` is not in `name_id`, and `count` holds no `[`. -/
def missFlat : RosTypeFlat :=
  ⟨[("a[0]x".toList, double_2_5), ("b[1].y".toList, ⟨0⟩), ("count".toList, double_1_5)],
   [("joint[0].name".toList, "hip".toList)], []⟩

/-- The flat table `exampleFlat` after renaming with `exampleRule`:
`value_renamed = {"joint.hip.position":1.5, "joint.knee.position":2.5}`. -/
def exampleRenamed : RosTypeFlat :=
  ⟨exampleFlat.value, exampleFlat.name_id,
   [("joint.hip.position".toList, double_1_5), ("joint.knee.position".toList, double_2_5)]⟩

/-- The rule with pattern `"#."`, cross-reference `"#.name"`, substitution `"#/"`: its
pattern prefix is empty. -/
def emptyPrefixRule : SubstitutionRule :=
  SubstitutionRule.make "#.".toList "#.name".toList "#/".toList

/-- A flat table whose key `a[x].b[0].c` holds the pattern prefix `[` twice: no digit
follows the first one, the second one starts the index `[0].`. -/
def twoBracketFlat : RosTypeFlat :=
  ⟨[("a[x].b[0].c".toList, double_1_5)], [("a[x].b[0].name".toList, "hip".toList)], []⟩

/-- The items of a schema text for `pkg/Robot`: a comment, the fields `joint`, `id` and a
second `joint` of the root type, then the section `MSG: sensor_msgs/JointState` with
the fields `name` and `position`, then the section of the bare header
`geometry_msgs/Point` with the field `x`. -/
def exampleSchemaItems : List SchemaItem :=
  [.ignored "# robot".toList,
   .field [] "sensor_msgs/JointState[]".toList " ".toList "joint".toList [],
   .field "  ".toList "uint32".toList " ".toList "id".toList " ".toList,
   .field [] "float64".toList " ".toList "joint".toList [],
   .header true "sensor_msgs/JointState".toList,
   .field [] "string".toList " ".toList "name".toList [],
   .field [] "float64".toList " ".toList "position".toList [],
   .header false "geometry_msgs/Point".toList,
   .field [] "float64".toList " ".toList "x".toList []]

/-- The schema text with the lines of `exampleSchemaItems`. -/
def exampleSchemaText : Str :=
  "# robot\nsensor_msgs/JointState[] joint\n  uint32 id \nfloat64 joint\n".toList
    ++ separatorLine
    ++ "\nMSG: sensor_msgs/JointState\nstring name\nfloat64 position\n".toList
    ++ separatorLine
    ++ "\ngeometry_msgs/Point\nfloat64 x\n".toList

/-- A rank for `exampleTypeMap`: `Robot` above `JointState` above everything else. -/
def exampleRank (key : Str) : Nat :=
  if key = "Robot".toList then 2 else if key = "JointState".toList then 1 else 0

/-- A type map whose only type `Node` has a scalar field of its own type. -/
def selfTypeMap : RosTypeMap :=
  [("Node".toList, ⟨"Node".toList, [⟨"Node".toList, "next".toList⟩]⟩)]

/-- A type map whose only type `Pair` has two `float64` fields that are both named `x`. -/
def dupTypeMap : RosTypeMap :=
  [("Pair".toList, ⟨"Pair".toList, [⟨FLOAT64, "x".toList⟩, ⟨FLOAT64, "x".toList⟩]⟩)]

/-- The value of type `Pair` whose two fields hold 1.5 and 2.5. -/
def dupValue : Val :=
  .struct (.one "x".toList (.f64 double_1_5.bits) (.one "x".toList (.f64 double_2_5.bits) .nil))

/-- A rank for `dupTypeMap`: `Pair` above everything else. -/
def dupRank (key : Str) : Nat := if key = "Pair".toList then 1 else 0

/-- The identifier `a`, NUL, `b`: a string with an embedded NUL character. -/
def nulName : Str := ['a', NUL, 'b']

/-- A flat table whose only identifier contains a NUL character. -/
def nulFlat : RosTypeFlat :=
  ⟨[("j[0].p".toList, double_1_5)], [("j[0].name".toList, nulName)], []⟩

/-! # Theorems -/

/-! ## Lemmas on buffer reads -/

theorem leBytes_length (k n : Nat) : (leBytes k n).length = k := by
  induction k generalizing n with
  | zero => rfl
  | succ k ih => simp [leBytes, ih]

theorem leNat_leBytes (k n : Nat) : leNat (leBytes k n) = n % 256 ^ k := by
  induction k generalizing n with
  | zero => simp [leBytes, leNat, Nat.mod_one]
  | succ k ih =>
    simp only [leBytes, leNat, ih, Nat.mod_mod]
    rw [pow_succ, mul_comm (256 ^ k) 256, Nat.mod_mul]

theorem read_leBytes (k n : Nat) (rest : List Nat) (h : n < 256 ^ k) :
    ReadFromBufferAndMoveForward k (leBytes k n ++ rest) = .ok (n, rest) := by
  unfold ReadFromBufferAndMoveForward
  have hl := leBytes_length k n
  rw [if_pos (by simp [hl])]
  rw [List.take_left' hl, List.drop_left' hl, leNat_leBytes, Nat.mod_eq_of_lt h]

theorem read_time (sec nsec : Nat) (rest : List Nat) (h1 : sec < 2 ^ 32) (h2 : nsec < 2 ^ 32) :
    ReadFromBufferAndMoveForward 8 (leBytes 4 sec ++ leBytes 4 nsec ++ rest)
      = .ok (sec + 2 ^ 32 * nsec, rest) := by
  have e : leBytes 4 sec ++ leBytes 4 nsec = leBytes 8 (sec + 2 ^ 32 * nsec) := by
    simp only [leBytes]
    simp only [List.cons_append, List.nil_append, List.cons.injEq, and_true]
    omega
  rw [e]
  exact read_leBytes 8 _ rest (by norm_num; omega)

theorem writeAll_append (a b : List (Str × Terminal)) (c : RosTypeFlat) :
    writeAll (a ++ b) c = writeAll b (writeAll a c) := by
  simp [writeAll, List.foldl_append]

theorem readBuiltin_none (toSec : Nat → Nat → Double) (t key : Str) (st : DecodeState)
    (h : isBuiltin t = false) : readBuiltin toSec t key st = none := by
  simp only [isBuiltin, Bool.or_eq_false_iff, decide_eq_false_iff_not] at h
  obtain ⟨⟨⟨h1, h2⟩, h3⟩, h4⟩ := h
  unfold readBuiltin
  rw [if_neg h1, if_neg h2, if_neg h3, if_neg h4]

theorem toInt32_of_lt (n : Nat) (h : n < 2 ^ 31) : toInt32 n = (n : Int) := by
  unfold toInt32
  rw [if_pos h]

theorem map_ofNat_toNat (s : Str) (h : s.all (fun c => decide (c.toNat < 256)) = true) :
    (s.map Char.toNat).map (fun b => Char.ofNat (b % 256)) = s := by
  induction s with
  | nil => rfl
  | cons c s ih =>
    simp only [List.all_cons, Bool.and_eq_true, decide_eq_true_eq] at h
    simp only [List.map_cons, List.cons.injEq]
    refine ⟨?_, ih h.2⟩
    rw [Nat.mod_eq_of_lt h.1]
    exact Char.ofNat_toNat c

theorem builtin_ne : UINT32 ≠ FLOAT64 ∧ TIME ≠ FLOAT64 ∧ TIME ≠ UINT32 ∧ STRING ≠ FLOAT64
    ∧ STRING ≠ UINT32 ∧ STRING ≠ TIME := by decide

theorem decodeElement_f64 (toSec : Nat → Nat → Double) (tm : RosTypeMap)
    (recurse : Str → Str → DecodeState → Outcome DecodeState) (key : Str) (b : Nat)
    (hb : b < 2 ^ 64) (rest : List Nat) (c : RosTypeFlat) :
    decodeElement toSec tm recurse FLOAT64 key (leBytes 8 b ++ rest, c)
      = .ok (rest, writeAll [(key, .num ⟨b⟩)] c) := by
  unfold decodeElement readBuiltin
  rw [if_pos rfl]
  simp only [read_leBytes 8 b rest (by norm_num; omega)]
  rfl

theorem decodeElement_u32 (toSec : Nat → Nat → Double) (tm : RosTypeMap)
    (recurse : Str → Str → DecodeState → Outcome DecodeState) (key : Str) (n : Nat)
    (hn : n < 2 ^ 32) (rest : List Nat) (c : RosTypeFlat) :
    decodeElement toSec tm recurse UINT32 key (leBytes 4 n ++ rest, c)
      = .ok (rest, writeAll [(key, .num (doubleOfUInt32 n))] c) := by
  unfold decodeElement readBuiltin
  rw [if_neg builtin_ne.1, if_pos rfl]
  simp only [read_leBytes 4 n rest (by norm_num; omega)]
  rfl

theorem decodeElement_time (toSec : Nat → Nat → Double) (tm : RosTypeMap)
    (recurse : Str → Str → DecodeState → Outcome DecodeState) (key : Str) (sec nsec : Nat)
    (h1 : sec < 2 ^ 32) (h2 : nsec < 2 ^ 32) (rest : List Nat) (c : RosTypeFlat) :
    decodeElement toSec tm recurse TIME key (leBytes 4 sec ++ leBytes 4 nsec ++ rest, c)
      = .ok (rest, writeAll [(key, .num (toSec sec nsec))] c) := by
  unfold decodeElement readBuiltin
  rw [if_neg builtin_ne.2.1, if_neg builtin_ne.2.2.1, if_pos rfl]
  simp only [read_time sec nsec rest h1 h2]
  have e1 : (sec + 2 ^ 32 * nsec) % 2 ^ 32 = sec := by omega
  have e2 : (sec + 2 ^ 32 * nsec) / 2 ^ 32 = nsec := by omega
  rw [e1, e2]
  rfl

theorem decodeElement_str (toSec : Nat → Nat → Double) (tm : RosTypeMap)
    (recurse : Str → Str → DecodeState → Outcome DecodeState) (key : Str) (s : Str)
    (h1 : s.length < 2 ^ 31) (h2 : s.all (fun c => decide (c.toNat < 256)) = true)
    (rest : List Nat) (c : RosTypeFlat) :
    decodeElement toSec tm recurse STRING key
        (leBytes 4 s.length ++ s.map Char.toNat ++ rest, c)
      = .ok (rest, writeAll [(key, .text s)] c) := by
  unfold decodeElement readBuiltin
  rw [if_neg builtin_ne.2.2.2.1, if_neg builtin_ne.2.2.2.2.1, if_neg builtin_ne.2.2.2.2.2,
    if_pos rfl]
  rw [List.append_assoc]
  simp only [read_leBytes 4 s.length _ (by norm_num; omega)]
  have hl : (s.map Char.toNat).length = s.length := by simp
  rw [toInt32_of_lt _ h1, if_neg (by omega), if_pos (by simp)]
  rw [List.take_left' hl, List.drop_left' hl, map_ofNat_toNat s h2]
  rfl

theorem ends_with_false_type (t : Str) (h : ends_with t VECTOR_SYMBOL = false) :
    (if ends_with t VECTOR_SYMBOL = true then remove_suffix t 2 else t) = t := by
  rw [h]; rfl

theorem buildRosFlatType_scalar (toSec : Nat → Nat → Double) (tm : RosTypeMap) (fuel : Nat)
    (t pfx : Str) (st : DecodeState) (h : ends_with t VECTOR_SYMBOL = false) :
    buildRosFlatType toSec tm (fuel + 1) t pfx st
      = decodeElement toSec tm (buildRosFlatType toSec tm fuel) t pfx st := by
  simp only [buildRosFlatType, h, loopFrom, elementSuffix, List.append_nil, Bool.false_eq_true,
    if_false]
  cases decodeElement toSec tm (buildRosFlatType toSec tm fuel) t pfx st <;> rfl

theorem buildRosFlatType_vector (toSec : Nat → Nat → Double) (tm : RosTypeMap) (fuel : Nat)
    (t pfx : Str) (st : DecodeState) (h : ends_with t VECTOR_SYMBOL = true) :
    buildRosFlatType toSec tm (fuel + 1) t pfx st
      = match ReadFromBufferAndMoveForward 4 st.1 with
        | .ok (n, buf) =>
          loopFrom (fun v st => decodeElement toSec tm (buildRosFlatType toSec tm fuel)
            (remove_suffix t 2) (pfx ++ (LBRACKET ++ lexical_cast v ++ RBRACKET)) st)
            (toInt32 n).toNat 0 (buf, st.2)
        | .error e => .error e := by
  simp only [buildRosFlatType, h, elementSuffix, if_true]

mutual
theorem decode_encodeVal (toSec : Nat → Nat → Double) (tm : RosTypeMap) :
    ∀ (v : Val) (t key : Str) (rest : List Nat) (c : RosTypeFlat) (fuel : Nat),
      valHasType tm t v = true → depthVal v ≤ fuel →
      decodeElement toSec tm (buildRosFlatType toSec tm fuel) t key (encodeVal v ++ rest, c)
        = .ok (rest, writeAll (flattenVal toSec key v) c)
  | .f64 b, t, key, rest, c, fuel, ht, _ => by
    simp only [valHasType, Bool.and_eq_true, decide_eq_true_eq] at ht
    rw [ht.1]
    exact decodeElement_f64 toSec tm _ key b ht.2 rest c
  | .u32 n, t, key, rest, c, fuel, ht, _ => by
    simp only [valHasType, Bool.and_eq_true, decide_eq_true_eq] at ht
    rw [ht.1]
    exact decodeElement_u32 toSec tm _ key n ht.2 rest c
  | .time sec nsec, t, key, rest, c, fuel, ht, _ => by
    simp only [valHasType, Bool.and_eq_true, decide_eq_true_eq] at ht
    rw [ht.1.1]
    exact decodeElement_time toSec tm _ key sec nsec ht.1.2 ht.2 rest c
  | .str s, t, key, rest, c, fuel, ht, _ => by
    simp only [valHasType, Bool.and_eq_true, decide_eq_true_eq] at ht
    rw [ht.1.1]
    exact decodeElement_str toSec tm _ key s ht.1.2 ht.2 rest c
  | .struct fs, t, key, rest, c, fuel, ht, hd => by
    simp only [valHasType, Bool.and_eq_true, Bool.not_eq_true'] at ht
    obtain ⟨hb, hf⟩ := ht
    unfold decodeElement
    rw [readBuiltin_none toSec t key _ hb]
    cases hm : mapFind t tm with
    | none => rw [hm] at hf; simp at hf
    | some ty =>
      rw [hm] at hf
      simp only [] at hf ⊢
      exact decode_encodeFields toSec tm fs ty.fields key rest c fuel hf
        (by simpa [depthVal] using hd)
theorem decode_encodeFields (toSec : Nat → Nat → Double) (tm : RosTypeMap) :
    ∀ (fs : FieldVals) (fl : List RosTypeField) (key : Str) (rest : List Nat)
      (c : RosTypeFlat) (fuel : Nat),
      fieldsHaveType tm fl fs = true → depthFields fs ≤ fuel →
      forEach (fun (f : RosTypeField) st =>
          buildRosFlatType toSec tm fuel f.type_name (key ++ SEPARATOR ++ f.field_name) st)
          fl (encodeFields fs ++ rest, c)
        = .ok (rest, writeAll (flattenFields toSec key fs) c)
  | .nil, fl, key, rest, c, fuel, ht, _ => by
    cases fl with
    | nil => rfl
    | cons f fl => simp [fieldsHaveType] at ht
  | .one name v more, fl, key, rest, c, fuel, ht, hd => by
    cases fl with
    | nil => simp [fieldsHaveType] at ht
    | cons f fl =>
      simp only [fieldsHaveType, Bool.and_eq_true, Bool.not_eq_true', decide_eq_true_eq] at ht
      obtain ⟨⟨⟨hv, hn⟩, hty⟩, hrest⟩ := ht
      simp only [depthFields, max_le_iff] at hd
      obtain ⟨fuel', rfl⟩ : ∃ k, fuel = k + 1 := ⟨fuel - 1, by omega⟩
      simp only [forEach, encodeFields, flattenFields, List.append_assoc]
      rw [buildRosFlatType_scalar toSec tm fuel' _ _ _ hv]
      have h1 := decode_encodeVal toSec tm v f.type_name (key ++ (SEPARATOR ++ f.field_name))
        (encodeFields more ++ rest) c fuel' hty (by omega)
      have h2 := decode_encodeFields toSec tm more fl key rest
        (writeAll (flattenVal toSec (key ++ (SEPARATOR ++ f.field_name)) v) c) (fuel' + 1)
        hrest hd.2
      simp only [List.append_assoc] at h1 h2 ⊢
      rw [h1]
      simp only []
      rw [h2, writeAll_append, hn]
  | .many name es more, fl, key, rest, c, fuel, ht, hd => by
    cases fl with
    | nil => simp [fieldsHaveType] at ht
    | cons f fl =>
      simp only [fieldsHaveType, Bool.and_eq_true, decide_eq_true_eq] at ht
      obtain ⟨⟨⟨⟨hv, hn⟩, hlen⟩, hty⟩, hrest⟩ := ht
      simp only [depthFields, max_le_iff] at hd
      obtain ⟨fuel', rfl⟩ : ∃ k, fuel = k + 1 := ⟨fuel - 1, by omega⟩
      simp only [forEach, encodeFields, flattenFields, List.append_assoc]
      rw [buildRosFlatType_vector toSec tm fuel' _ _ _ hv]
      simp only [read_leBytes 4 es.length _ (by norm_num; omega)]
      rw [toInt32_of_lt _ hlen, Int.toNat_ofNat]
      have h1 := decode_encodeVals toSec tm es (remove_suffix f.type_name 2)
        (key ++ (SEPARATOR ++ f.field_name)) 0 (encodeFields more ++ rest) c fuel' hty (by omega)
      have h2 := decode_encodeFields toSec tm more fl key rest
        (writeAll (flattenVals toSec (key ++ (SEPARATOR ++ f.field_name)) 0 es) c) (fuel' + 1)
        hrest hd.2
      simp only [List.append_assoc] at h1 h2 ⊢
      rw [h1]
      simp only []
      rw [h2, writeAll_append, hn]
theorem decode_encodeVals (toSec : Nat → Nat → Double) (tm : RosTypeMap) :
    ∀ (es : Vals) (t key : Str) (i : Nat) (rest : List Nat) (c : RosTypeFlat) (fuel : Nat),
      valsHaveType tm t es = true → depthVals es ≤ fuel →
      loopFrom (fun v st => decodeElement toSec tm (buildRosFlatType toSec tm fuel) t
          (key ++ (LBRACKET ++ lexical_cast v ++ RBRACKET)) st) es.length i
          (encodeVals es ++ rest, c)
        = .ok (rest, writeAll (flattenVals toSec key i es) c)
  | .nil, t, key, i, rest, c, fuel, _, _ => rfl
  | .cons v vs, t, key, i, rest, c, fuel, ht, hd => by
    simp only [valsHaveType, Bool.and_eq_true] at ht
    simp only [depthVals, max_le_iff] at hd
    simp only [Vals.length, loopFrom, encodeVals, flattenVals, List.append_assoc]
    have h1 := decode_encodeVal toSec tm v t (key ++ (LBRACKET ++ lexical_cast i ++ RBRACKET))
      (encodeVals vs ++ rest) c fuel ht.1 hd.1
    have h2 := decode_encodeVals toSec tm vs t key (i + 1) rest
      (writeAll (flattenVal toSec (key ++ (LBRACKET ++ lexical_cast i ++ RBRACKET)) v) c) fuel
      ht.2 hd.2
    simp only [List.append_assoc] at h1 h2 ⊢
    rw [h1]
    simp only []
    rw [h2, writeAll_append]
end


/-! ## Decimal rendering of array indices -/

theorem digitChar_isDigit (d : Nat) (h : d < 10) :
    (Nat.digitChar d).toNat = 48 + d := by
  interval_cases d <;> rfl

theorem toDigitsCore_append (fuel n : Nat) (ds : List Char) :
    Nat.toDigitsCore 10 fuel n ds = Nat.toDigitsCore 10 fuel n [] ++ ds := by
  induction fuel generalizing n ds with
  | zero => simp [Nat.toDigitsCore]
  | succ fuel ih =>
    simp only [Nat.toDigitsCore]
    split
    · simp
    · rw [ih, ih (n / 10) [Nat.digitChar (n % 10)]]
      simp

theorem decimalValue_append_single (s : Str) (c : Char) :
    decimalValue (s ++ [c]) = 10 * decimalValue s + (c.toNat - 48) := by
  simp [decimalValue, List.foldl_append]

theorem decimalValue_toDigitsCore (fuel n : Nat) (h : n < fuel) :
    decimalValue (Nat.toDigitsCore 10 fuel n []) = n := by
  induction fuel generalizing n with
  | zero => omega
  | succ fuel ih =>
    simp only [Nat.toDigitsCore]
    have hd := digitChar_isDigit (n % 10) (Nat.mod_lt _ (by norm_num))
    split
    · rename_i h0
      simp only [decimalValue, List.foldl_cons, List.foldl_nil, hd]
      omega
    · rename_i h0
      rw [toDigitsCore_append, decimalValue_append_single, ih (n / 10) (by omega), hd]
      omega

theorem lexical_cast_injective (i j : Nat) (h : lexical_cast i = lexical_cast j) : i = j := by
  have hi := decimalValue_toDigitsCore (i + 1) i (by omega)
  have hj := decimalValue_toDigitsCore (j + 1) j (by omega)
  unfold lexical_cast Nat.toDigits at h
  rw [h] at hi
  omega

theorem toDigitsCore_mem (fuel n : Nat) (ds : List Char) (c : Char)
    (h : c ∈ Nat.toDigitsCore 10 fuel n ds) : c ∈ ds ∨ ∃ d, d < 10 ∧ c = Nat.digitChar d := by
  induction fuel generalizing n ds with
  | zero => left; simpa [Nat.toDigitsCore] using h
  | succ fuel ih =>
    simp only [Nat.toDigitsCore] at h
    split at h
    · rcases List.mem_cons.1 h with h | h
      · right; exact ⟨n % 10, Nat.mod_lt _ (by norm_num), h⟩
      · left; exact h
    · rcases ih _ _ h with h | h
      · rcases List.mem_cons.1 h with h | h
        · right; exact ⟨n % 10, Nat.mod_lt _ (by norm_num), h⟩
        · left; exact h
      · right; exact h

theorem lexical_cast_no_bracket (i : Nat) : ∀ c ∈ lexical_cast i, c ≠ ']' := by
  intro c hc
  rcases toDigitsCore_mem _ _ _ _ hc with h | ⟨d, hd, rfl⟩
  · simp at h
  · interval_cases d <;> decide

/-! ## Shape and uniqueness of flattened keys -/

theorem split_at_bracket (a b r r' : Str) (ha : ∀ c ∈ a, c ≠ ']') (hb : ∀ c ∈ b, c ≠ ']')
    (h : a ++ ']' :: r = b ++ ']' :: r') : a = b := by
  induction a generalizing b with
  | nil =>
    cases b with
    | nil => rfl
    | cons c b =>
      simp only [List.nil_append, List.cons_append, List.cons.injEq] at h
      exact absurd h.1.symm (hb c (List.mem_cons_self _ _))
  | cons x a ih =>
    cases b with
    | nil =>
      simp only [List.nil_append, List.cons_append, List.cons.injEq] at h
      exact absurd h.1 (ha x (List.mem_cons_self _ _))
    | cons c b =>
      simp only [List.cons_append, List.cons.injEq] at h
      rw [h.1, ih b (fun c hc => ha c (List.mem_cons_of_mem _ hc))
        (fun c hc => hb c (List.mem_cons_of_mem _ hc)) h.2]

theorem split_at_tail (a b r r' : Str) (ha : ∀ c ∈ a, c ≠ '.' ∧ c ≠ '[')
    (hb : ∀ c ∈ b, c ≠ '.' ∧ c ≠ '[') (hr : PathTail r) (hr' : PathTail r')
    (h : a ++ r = b ++ r') : a = b := by
  induction a generalizing b with
  | nil =>
    cases b with
    | nil => rfl
    | cons c b =>
      simp only [List.nil_append, List.cons_append] at h
      have := hr c (by rw [h]; rfl)
      have := hb c (List.mem_cons_self _ _)
      tauto
  | cons x a ih =>
    cases b with
    | nil =>
      simp only [List.nil_append, List.cons_append] at h
      have := hr' x (by rw [← h]; rfl)
      have := ha x (List.mem_cons_self _ _)
      tauto
    | cons c b =>
      simp only [List.cons_append, List.cons.injEq] at h
      rw [h.1, ih b (fun c hc => ha c (List.mem_cons_of_mem _ hc))
        (fun c hc => hb c (List.mem_cons_of_mem _ hc)) h.2]

mutual
theorem flattenVal_shape (toSec : Nat → Nat → Double) :
    ∀ (v : Val) (key : Str) (e : Str × Terminal), e ∈ flattenVal toSec key v →
      ∃ r, e.1 = key ++ r ∧ PathTail r
  | .f64 b, key, e, h => by
    simp only [flattenVal, List.mem_singleton] at h
    exact ⟨[], by simp [h], by intro c hc; simp at hc⟩
  | .u32 n, key, e, h => by
    simp only [flattenVal, List.mem_singleton] at h
    exact ⟨[], by simp [h], by intro c hc; simp at hc⟩
  | .time sec nsec, key, e, h => by
    simp only [flattenVal, List.mem_singleton] at h
    exact ⟨[], by simp [h], by intro c hc; simp at hc⟩
  | .str s, key, e, h => by
    simp only [flattenVal, List.mem_singleton] at h
    exact ⟨[], by simp [h], by intro c hc; simp at hc⟩
  | .struct fs, key, e, h => by
    simp only [flattenVal] at h
    obtain ⟨name, r, _, he, _⟩ := flattenFields_shape toSec fs key e h
    refine ⟨SEPARATOR ++ name ++ r, by simp [he], ?_⟩
    intro c hc
    simp [SEPARATOR] at hc
    left; exact hc.symm
theorem flattenFields_shape (toSec : Nat → Nat → Double) :
    ∀ (fs : FieldVals) (key : Str) (e : Str × Terminal), e ∈ flattenFields toSec key fs →
      ∃ name r, name ∈ fieldNames fs ∧ e.1 = key ++ SEPARATOR ++ name ++ r ∧ PathTail r
  | .nil, key, e, h => by simp [flattenFields] at h
  | .one name v more, key, e, h => by
    simp only [flattenFields, List.mem_append] at h
    rcases h with h | h
    · obtain ⟨r, he, hr⟩ := flattenVal_shape toSec v _ e h
      exact ⟨name, r, by simp [fieldNames], he, hr⟩
    · obtain ⟨n, r, hn, he, hr⟩ := flattenFields_shape toSec more key e h
      exact ⟨n, r, by simp [fieldNames, hn], he, hr⟩
  | .many name es more, key, e, h => by
    simp only [flattenFields, List.mem_append] at h
    rcases h with h | h
    · obtain ⟨j, r, _, he⟩ := flattenVals_shape toSec es _ 0 e h
      refine ⟨name, LBRACKET ++ lexical_cast j ++ RBRACKET ++ r, by simp [fieldNames],
        by simp [he], ?_⟩
      intro c hc
      simp [LBRACKET] at hc
      right; exact hc.symm
    · obtain ⟨n, r, hn, he, hr⟩ := flattenFields_shape toSec more key e h
      exact ⟨n, r, by simp [fieldNames, hn], he, hr⟩
theorem flattenVals_shape (toSec : Nat → Nat → Double) :
    ∀ (es : Vals) (key : Str) (i : Nat) (e : Str × Terminal), e ∈ flattenVals toSec key i es →
      ∃ j r, i ≤ j ∧ e.1 = key ++ LBRACKET ++ lexical_cast j ++ RBRACKET ++ r
  | .nil, key, i, e, h => by simp [flattenVals] at h
  | .cons v vs, key, i, e, h => by
    simp only [flattenVals, List.mem_append] at h
    rcases h with h | h
    · obtain ⟨r, he, _⟩ := flattenVal_shape toSec v _ e h
      exact ⟨i, r, le_refl _, he⟩
    · obtain ⟨j, r, hj, he⟩ := flattenVals_shape toSec vs key (i + 1) e h
      exact ⟨j, r, by omega, he⟩
end


/-! ## Lemmas on ordered maps -/

theorem mapFind_mapInsert_self {V : Type} (k : Str) (v : V) (m : SMap V) :
    mapFind k (mapInsert k v m) = some v := by
  induction m with
  | nil => simp [mapInsert, mapFind]
  | cons e m ih =>
    obtain ⟨k', v'⟩ := e
    simp only [mapInsert]
    split
    · simp [mapFind]
    · rename_i hne
      split
      · simp [mapFind]
      · simp [mapFind, hne, ih]

theorem mapFind_mapInsert_ne {V : Type} (k k' : Str) (v : V) (m : SMap V) (h : k ≠ k') :
    mapFind k (mapInsert k' v m) = mapFind k m := by
  induction m with
  | nil => simp [mapInsert, mapFind, h]
  | cons e m ih =>
    obtain ⟨k2, v2⟩ := e
    simp only [mapInsert]
    split
    · rename_i h2
      subst h2
      simp [mapFind, h]
    · split
      · simp [mapFind, h]
      · simp only [mapFind, ih]

theorem mapFind_mem {V : Type} (k : Str) (v : V) (m : SMap V) (h : mapFind k m = some v) :
    (k, v) ∈ m := by
  induction m with
  | nil => simp [mapFind] at h
  | cons e m ih =>
    obtain ⟨k', v'⟩ := e
    simp only [mapFind] at h
    split at h
    · rename_i hk
      simp only [Option.some.injEq] at h
      subst hk; subst h
      exact List.mem_cons_self _ _
    · exact List.mem_cons_of_mem _ (ih h)

theorem mem_keys_mapInsert {V : Type} (k k' : Str) (v : V) (m : SMap V) :
    k ∈ (mapInsert k' v m).map Prod.fst ↔ k = k' ∨ k ∈ m.map Prod.fst := by
  induction m with
  | nil => simp [mapInsert]
  | cons e m ih =>
    obtain ⟨k2, v2⟩ := e
    simp only [mapInsert]
    split
    · rename_i h2
      subst h2
      simp only [List.map_cons, List.mem_cons]
      tauto
    · split
      · simp only [List.map_cons, List.mem_cons]
      · simp only [List.map_cons, List.mem_cons, ih]
        tauto

theorem length_mapInsert_new {V : Type} (k : Str) (v : V) (m : SMap V)
    (h : k ∉ m.map Prod.fst) : (mapInsert k v m).length = m.length + 1 := by
  induction m with
  | nil => simp [mapInsert]
  | cons e m ih =>
    obtain ⟨k2, v2⟩ := e
    simp only [List.map_cons, List.mem_cons, not_or] at h
    simp only [mapInsert]
    rw [if_neg h.1]
    split
    · simp
    · simp [ih h.2]

theorem length_mapInsert_le {V : Type} (k : Str) (v : V) (m : SMap V) :
    (mapInsert k v m).length ≤ m.length + 1 := by
  induction m with
  | nil => simp [mapInsert]
  | cons e m ih =>
    obtain ⟨k2, v2⟩ := e
    simp only [mapInsert]
    split
    · simp
    · split
      · simp
      · simpa using ih

/-! ## Writing terminal fields -/

theorem writeAll_value_renamed (es : List (Str × Terminal)) (c : RosTypeFlat) :
    (writeAll es c).value_renamed = c.value_renamed := by
  induction es generalizing c with
  | nil => rfl
  | cons e es ih =>
    simp only [writeAll, List.foldl_cons] at ih ⊢
    rw [ih]
    unfold writeEntry
    split <;> rfl

theorem writeAll_value_absent (es : List (Str × Terminal)) (c : RosTypeFlat) (k : Str)
    (h : k ∉ es.map Prod.fst) : mapFind k (writeAll es c).value = mapFind k c.value := by
  induction es generalizing c with
  | nil => rfl
  | cons e es ih =>
    simp only [List.map_cons, List.mem_cons, not_or] at h
    simp only [writeAll, List.foldl_cons] at ih ⊢
    rw [ih _ h.2]
    unfold writeEntry
    split
    · exact mapFind_mapInsert_ne _ _ _ _ h.1
    · rfl

theorem writeAll_name_id_absent (es : List (Str × Terminal)) (c : RosTypeFlat) (k : Str)
    (h : k ∉ es.map Prod.fst) : mapFind k (writeAll es c).name_id = mapFind k c.name_id := by
  induction es generalizing c with
  | nil => rfl
  | cons e es ih =>
    simp only [List.map_cons, List.mem_cons, not_or] at h
    simp only [writeAll, List.foldl_cons] at ih ⊢
    rw [ih _ h.2]
    unfold writeEntry
    split
    · rfl
    · exact mapFind_mapInsert_ne _ _ _ _ h.1

theorem writeAll_value_find (es : List (Str × Terminal)) (c : RosTypeFlat) (k : Str)
    (x : Double) (hnd : (es.map Prod.fst).Nodup) (h : (k, Terminal.num x) ∈ es) :
    mapFind k (writeAll es c).value = some x := by
  induction es generalizing c with
  | nil => simp at h
  | cons e es ih =>
    simp only [List.map_cons, List.nodup_cons] at hnd
    rcases List.mem_cons.1 h with h | h
    · subst h
      simp only [writeAll, List.foldl_cons]
      have := writeAll_value_absent es (writeEntry c (k, Terminal.num x)) k hnd.1
      simp only [writeAll] at this
      rw [this]
      exact mapFind_mapInsert_self _ _ _
    · simp only [writeAll, List.foldl_cons] at ih ⊢
      exact ih _ hnd.2 h

theorem writeAll_name_id_find (es : List (Str × Terminal)) (c : RosTypeFlat) (k : Str)
    (s : Str) (hnd : (es.map Prod.fst).Nodup) (h : (k, Terminal.text s) ∈ es) :
    mapFind k (writeAll es c).name_id = some s := by
  induction es generalizing c with
  | nil => simp at h
  | cons e es ih =>
    simp only [List.map_cons, List.nodup_cons] at hnd
    rcases List.mem_cons.1 h with h | h
    · subst h
      simp only [writeAll, List.foldl_cons]
      have := writeAll_name_id_absent es (writeEntry c (k, Terminal.text s)) k hnd.1
      simp only [writeAll] at this
      rw [this]
      exact mapFind_mapInsert_self _ _ _
    · simp only [writeAll, List.foldl_cons] at ih ⊢
      exact ih _ hnd.2 h

theorem writeAll_length (es : List (Str × Terminal)) (c : RosTypeFlat)
    (hnd : (es.map Prod.fst).Nodup)
    (hv : ∀ k ∈ es.map Prod.fst, k ∉ c.value.map Prod.fst)
    (hn : ∀ k ∈ es.map Prod.fst, k ∉ c.name_id.map Prod.fst) :
    (writeAll es c).value.length + (writeAll es c).name_id.length
      = c.value.length + c.name_id.length + es.length := by
  induction es generalizing c with
  | nil => rfl
  | cons e es ih =>
    simp only [List.map_cons, List.nodup_cons] at hnd
    simp only [writeAll, List.foldl_cons] at ih ⊢
    have hv0 := hv e.1 (List.mem_cons_self _ _)
    have hn0 := hn e.1 (List.mem_cons_self _ _)
    have hv1 : ∀ k ∈ es.map Prod.fst, k ∉ c.value.map Prod.fst :=
      fun k hk => hv k (by simp only [List.map_cons]; exact List.mem_cons_of_mem _ hk)
    have hn1 : ∀ k ∈ es.map Prod.fst, k ∉ c.name_id.map Prod.fst :=
      fun k hk => hn k (by simp only [List.map_cons]; exact List.mem_cons_of_mem _ hk)
    rw [ih (writeEntry c e) hnd.2]
    · unfold writeEntry
      split
      · simp only [length_mapInsert_new _ _ _ hv0, List.length_cons]; omega
      · simp only [length_mapInsert_new _ _ _ hn0, List.length_cons]; omega
    · intro k hk
      unfold writeEntry
      split
      · simp only [mem_keys_mapInsert, not_or]
        exact ⟨fun h => hnd.1 (h ▸ hk), hv1 k hk⟩
      · exact hv1 k hk
    · intro k hk
      unfold writeEntry
      split
      · exact hn1 k hk
      · simp only [mem_keys_mapInsert, not_or]
        exact ⟨fun h => hnd.1 (h ▸ hk), hn1 k hk⟩


theorem fieldNames_of_typed (tm : RosTypeMap) :
    ∀ (fs : FieldVals) (fl : List RosTypeField), fieldsHaveType tm fl fs = true →
      fieldNames fs = fl.map RosTypeField.field_name
  | .nil, fl, h => by
    cases fl with
    | nil => rfl
    | cons f fl => simp [fieldsHaveType] at h
  | .one name v more, fl, h => by
    cases fl with
    | nil => simp [fieldsHaveType] at h
    | cons f fl =>
      simp only [fieldsHaveType, Bool.and_eq_true, decide_eq_true_eq] at h
      simp only [fieldNames, List.map_cons, fieldNames_of_typed tm more fl h.2, h.1.1.2]
  | .many name es more, fl, h => by
    cases fl with
    | nil => simp [fieldsHaveType] at h
    | cons f fl =>
      simp only [fieldsHaveType, Bool.and_eq_true, decide_eq_true_eq] at h
      simp only [fieldNames, List.map_cons, fieldNames_of_typed tm more fl h.2, h.1.1.1.2]

theorem pathTail_index (j : Nat) (r : Str) :
    PathTail (LBRACKET ++ lexical_cast j ++ RBRACKET ++ r) := by
  intro c hc
  simp [LBRACKET] at hc
  right; exact hc.symm

theorem field_keys_disjoint (key name n2 r r2 : Str) (fl : List RosTypeField)
    (hname : name ∉ fl.map RosTypeField.field_name)
    (hc1 : ∀ c ∈ name, c ≠ '.' ∧ c ≠ '[' ∧ c ≠ ']')
    (hcl : ∀ f ∈ fl, ∀ c ∈ f.field_name, c ≠ '.' ∧ c ≠ '[' ∧ c ≠ ']')
    (hn2 : n2 ∈ fl.map RosTypeField.field_name) (hr : PathTail r) (hr2 : PathTail r2)
    (h : key ++ SEPARATOR ++ name ++ r = key ++ SEPARATOR ++ n2 ++ r2) : False := by
  simp only [List.append_assoc, List.append_cancel_left_eq] at h
  obtain ⟨f, hf, rfl⟩ := List.mem_map.1 hn2
  have := split_at_tail name f.field_name r r2 (fun c hc => ⟨(hc1 c hc).1, (hc1 c hc).2.1⟩)
    (fun c hc => ⟨(hcl f hf c hc).1, (hcl f hf c hc).2.1⟩) hr hr2 h
  exact hname (this ▸ hn2)

mutual
theorem flattenVal_nodup (toSec : Nat → Nat → Double) (tm : RosTypeMap)
    (hnd : NoDupFields tm) (hcl : FieldNamesClean tm) :
    ∀ (v : Val) (t key : Str), valHasType tm t v = true →
      ((flattenVal toSec key v).map Prod.fst).Nodup
  | .f64 b, t, key, _ => by simp [flattenVal]
  | .u32 n, t, key, _ => by simp [flattenVal]
  | .time sec nsec, t, key, _ => by simp [flattenVal]
  | .str s, t, key, _ => by simp [flattenVal]
  | .struct fs, t, key, ht => by
    simp only [valHasType, Bool.and_eq_true, Bool.not_eq_true'] at ht
    obtain ⟨_, hf⟩ := ht
    cases hm : mapFind t tm with
    | none => rw [hm] at hf; simp at hf
    | some ty =>
      rw [hm] at hf
      have hmem := mapFind_mem t ty tm hm
      simp only [flattenVal]
      exact flattenFields_nodup toSec tm hnd hcl fs ty.fields key hf (hnd _ hmem)
        (hcl _ hmem)
theorem flattenFields_nodup (toSec : Nat → Nat → Double) (tm : RosTypeMap)
    (hnd : NoDupFields tm) (hcl : FieldNamesClean tm) :
    ∀ (fs : FieldVals) (fl : List RosTypeField) (key : Str),
      fieldsHaveType tm fl fs = true → (fl.map RosTypeField.field_name).Nodup →
      (∀ f ∈ fl, ∀ c ∈ f.field_name, c ≠ '.' ∧ c ≠ '[' ∧ c ≠ ']') →
      ((flattenFields toSec key fs).map Prod.fst).Nodup
  | .nil, fl, key, _, _, _ => by simp [flattenFields]
  | .one name v more, fl, key, ht, hn, hc => by
    cases fl with
    | nil => simp [fieldsHaveType] at ht
    | cons f fl =>
      have hnames := fieldNames_of_typed tm _ _ ht
      simp only [fieldsHaveType, Bool.and_eq_true, decide_eq_true_eq] at ht
      obtain ⟨⟨⟨_, hname⟩, hty⟩, hrest⟩ := ht
      simp only [List.map_cons, List.nodup_cons] at hn
      simp only [fieldNames, List.map_cons, List.cons.injEq] at hnames
      have hcl' : ∀ f ∈ fl, ∀ c ∈ f.field_name, c ≠ '.' ∧ c ≠ '[' ∧ c ≠ ']' :=
        fun g hg => hc g (List.mem_cons_of_mem _ hg)
      simp only [flattenFields, List.map_append]
      refine List.nodup_append.2 ⟨flattenVal_nodup toSec tm hnd hcl v _ _ hty,
        flattenFields_nodup toSec tm hnd hcl more fl key hrest hn.2 hcl', ?_⟩
      intro k hk1 hk2
      obtain ⟨e1, he1, rfl⟩ := List.mem_map.1 hk1
      obtain ⟨e2, he2, he⟩ := List.mem_map.1 hk2
      obtain ⟨r, hr1, hr⟩ := flattenVal_shape toSec v _ e1 he1
      obtain ⟨n2, r2, hn2, hr2', hr2⟩ := flattenFields_shape toSec more key e2 he2
      rw [hnames.2] at hn2
      rw [hr1, hr2'] at he
      exact field_keys_disjoint key name n2 r r2 fl (hname ▸ hn.1)
        (hname ▸ hc f (List.mem_cons_self _ _)) hcl' hn2 hr hr2 he.symm
  | .many name es more, fl, key, ht, hn, hc => by
    cases fl with
    | nil => simp [fieldsHaveType] at ht
    | cons f fl =>
      have hnames := fieldNames_of_typed tm _ _ ht
      simp only [fieldsHaveType, Bool.and_eq_true, decide_eq_true_eq] at ht
      obtain ⟨⟨⟨⟨_, hname⟩, _⟩, hty⟩, hrest⟩ := ht
      simp only [List.map_cons, List.nodup_cons] at hn
      simp only [fieldNames, List.map_cons, List.cons.injEq] at hnames
      have hcl' : ∀ f ∈ fl, ∀ c ∈ f.field_name, c ≠ '.' ∧ c ≠ '[' ∧ c ≠ ']' :=
        fun g hg => hc g (List.mem_cons_of_mem _ hg)
      simp only [flattenFields, List.map_append]
      refine List.nodup_append.2 ⟨flattenVals_nodup toSec tm hnd hcl es _ _ 0 hty,
        flattenFields_nodup toSec tm hnd hcl more fl key hrest hn.2 hcl', ?_⟩
      intro k hk1 hk2
      obtain ⟨e1, he1, rfl⟩ := List.mem_map.1 hk1
      obtain ⟨e2, he2, he⟩ := List.mem_map.1 hk2
      obtain ⟨j, r, _, hr1⟩ := flattenVals_shape toSec es _ 0 e1 he1
      obtain ⟨n2, r2, hn2, hr2', hr2⟩ := flattenFields_shape toSec more key e2 he2
      rw [hnames.2] at hn2
      rw [hr1, hr2'] at he
      refine field_keys_disjoint key name n2 (LBRACKET ++ lexical_cast j ++ RBRACKET ++ r) r2 fl
        (hname ▸ hn.1) (hname ▸ hc f (List.mem_cons_self _ _)) hcl' hn2
        (pathTail_index j r) hr2 ?_
      rw [he]
      simp only [List.append_assoc]
theorem flattenVals_nodup (toSec : Nat → Nat → Double) (tm : RosTypeMap)
    (hnd : NoDupFields tm) (hcl : FieldNamesClean tm) :
    ∀ (es : Vals) (t key : Str) (i : Nat), valsHaveType tm t es = true →
      ((flattenVals toSec key i es).map Prod.fst).Nodup
  | .nil, t, key, i, _ => by simp [flattenVals]
  | .cons v vs, t, key, i, ht => by
    simp only [valsHaveType, Bool.and_eq_true] at ht
    simp only [flattenVals, List.map_append]
    refine List.nodup_append.2 ⟨flattenVal_nodup toSec tm hnd hcl v t _ ht.1,
      flattenVals_nodup toSec tm hnd hcl vs t key (i + 1) ht.2, ?_⟩
    intro k hk1 hk2
    obtain ⟨e1, he1, rfl⟩ := List.mem_map.1 hk1
    obtain ⟨e2, he2, he⟩ := List.mem_map.1 hk2
    obtain ⟨r, hr1, _⟩ := flattenVal_shape toSec v _ e1 he1
    obtain ⟨j, r2, hj, hr2⟩ := flattenVals_shape toSec vs key (i + 1) e2 he2
    rw [hr1, hr2] at he
    simp only [List.append_assoc, List.append_cancel_left_eq, RBRACKET, String.toList,
      List.cons_append, List.nil_append] at he
    have := split_at_bracket _ _ _ _ (lexical_cast_no_bracket j) (lexical_cast_no_bracket i) he
    have := lexical_cast_injective _ _ this
    omega
end


/-! ## Round trip of the decoder -/

theorem decode_roundtrip (toSec : Nat → Nat → Double) (tm : RosTypeMap) (t : Str) (v : Val)
    (hscalar : ends_with t VECTOR_SYMBOL = false) (hty : valHasType tm t v = true)
    (pfx : Str) (rest : List Nat) (c : RosTypeFlat) (fuel : Nat) (hfuel : depthVal v < fuel) :
    buildRosFlatType toSec tm fuel t pfx (encodeVal v ++ rest, c)
      = .ok (rest, writeAll (flattenVal toSec pfx v) c) := by
  obtain ⟨fuel', rfl⟩ : ∃ k, fuel = k + 1 := ⟨fuel - 1, by omega⟩
  rw [buildRosFlatType_scalar toSec tm fuel' t pfx _ hscalar]
  exact decode_encodeVal toSec tm v t pfx rest c fuel' hty (by omega)

theorem decode_vector (toSec : Nat → Nat → Double) (tm : RosTypeMap) (t : Str) (es : Vals)
    (hvec : ends_with t VECTOR_SYMBOL = true)
    (hty : valsHaveType tm (remove_suffix t 2) es = true) (hlen : es.length < 2 ^ 31)
    (p : Str) (rest : List Nat) (c : RosTypeFlat) (fuel : Nat) (hfuel : depthVals es ≤ fuel) :
    buildRosFlatType toSec tm (fuel + 1) t p (leBytes 4 es.length ++ encodeVals es ++ rest, c)
      = .ok (rest, writeAll (flattenVals toSec p 0 es) c) := by
  rw [buildRosFlatType_vector toSec tm fuel _ p _ hvec]
  simp only [List.append_assoc, read_leBytes 4 es.length _ (by norm_num; omega)]
  rw [toInt32_of_lt _ hlen, Int.toNat_ofNat]
  exact decode_encodeVals toSec tm es _ p 0 rest c fuel hty hfuel

theorem decode_roundtrip_root (toSec : Nat → Nat → Double) (tm : RosTypeMap) (t : Str) :
    ∀ (r : RootVal), rootHasType tm t r = true →
      ∀ (pfx : Str) (rest : List Nat) (c : RosTypeFlat) (fuel : Nat), depthRoot r < fuel →
        buildRosFlatType toSec tm fuel t pfx (encodeRoot r ++ rest, c)
          = .ok (rest, writeAll (flattenRoot toSec pfx r) c)
  | .one v, hty, pfx, rest, c, fuel, hfuel => by
    simp only [rootHasType, Bool.and_eq_true, Bool.not_eq_true'] at hty
    exact decode_roundtrip toSec tm t v hty.1 hty.2 pfx rest c fuel hfuel
  | .many es, hty, pfx, rest, c, fuel, hfuel => by
    simp only [rootHasType, Bool.and_eq_true, decide_eq_true_eq] at hty
    obtain ⟨fuel', rfl⟩ : ∃ k, fuel = k + 1 := ⟨fuel - 1, by simp only [depthRoot] at hfuel; omega⟩
    exact decode_vector toSec tm t es hty.1.1 hty.2 hty.1.2 pfx rest c fuel'
      (by simp only [depthRoot] at hfuel; omega)

theorem flattenRoot_nodup (toSec : Nat → Nat → Double) (tm : RosTypeMap)
    (hnd : NoDupFields tm) (hcl : FieldNamesClean tm) (t pfx : Str) :
    ∀ (r : RootVal), rootHasType tm t r = true →
      ((flattenRoot toSec pfx r).map Prod.fst).Nodup
  | .one v, hty => by
    simp only [rootHasType, Bool.and_eq_true] at hty
    exact flattenVal_nodup toSec tm hnd hcl v t pfx hty.2
  | .many es, hty => by
    simp only [rootHasType, Bool.and_eq_true] at hty
    exact flattenVals_nodup toSec tm hnd hcl es _ pfx 0 hty.2

theorem doubleOfUInt32_exact (n : Nat) (h : n < 2 ^ 32) :
    (doubleOfUInt32 n).toRat = some (n : ℚ) := by
  unfold doubleOfUInt32
  by_cases h0 : n = 0
  · subst h0
    simp [Double.toRat]
  · rw [if_neg h0]
    have hL : Nat.log2 n < 32 := (Nat.log2_lt h0).2 h
    have hlo : 2 ^ Nat.log2 n ≤ n := Nat.log2_self_le h0
    have hhi : n < 2 ^ (Nat.log2 n + 1) := Nat.lt_log2_self
    generalize Nat.log2 n = L at hL hlo hhi
    have hsplit : 2 ^ L * 2 ^ (52 - L) = 2 ^ 52 := by
      rw [← pow_add]; congr 1; omega
    have hm : (n - 2 ^ L) * 2 ^ (52 - L) < 2 ^ 52 := by
      rw [← hsplit]
      apply Nat.mul_lt_mul_of_pos_right _ (Nat.two_pow_pos _)
      rw [pow_succ] at hhi
      omega
    have hdiv : ((1023 + L) * 2 ^ 52 + (n - 2 ^ L) * 2 ^ (52 - L)) / 2 ^ 52 = 1023 + L := by
      rw [Nat.add_comm, Nat.add_mul_div_right _ _ (Nat.two_pow_pos _),
        Nat.div_eq_of_lt hm, Nat.zero_add]
    have hmod : ((1023 + L) * 2 ^ 52 + (n - 2 ^ L) * 2 ^ (52 - L)) % 2 ^ 52
        = (n - 2 ^ L) * 2 ^ (52 - L) := by
      rw [Nat.add_comm, Nat.add_mul_mod_self_right, Nat.mod_eq_of_lt hm]
    have hsign : ((1023 + L) * 2 ^ 52 + (n - 2 ^ L) * 2 ^ (52 - L)) / 2 ^ 63 % 2 = 0 := by
      rw [Nat.div_eq_of_lt]
      calc (1023 + L) * 2 ^ 52 + (n - 2 ^ L) * 2 ^ (52 - L)
          < (1023 + L) * 2 ^ 52 + 2 ^ 52 := by omega
        _ ≤ 1055 * 2 ^ 52 := by omega
        _ < 2 ^ 63 := by norm_num
    have hexp : (1023 + L) % 2 ^ 11 = 1023 + L := Nat.mod_eq_of_lt (by norm_num; omega)
    have hmant : 2 ^ 52 + (n - 2 ^ L) * 2 ^ (52 - L) = n * 2 ^ (52 - L) := by
      rw [← hsplit, ← Nat.add_mul]
      congr 1
      omega
    have hpow : 2 ^ (52 - L) * 2 ^ (1023 + L) = 2 ^ 1075 := by
      rw [← pow_add]; congr 1; omega
    unfold Double.toRat
    simp only [hdiv, hmod, hsign, hexp, hmant]
    rw [if_neg (by omega), if_neg (by omega), if_neg (by decide)]
    congr 1
    rw [Nat.mul_assoc, hpow]
    have hcancel : ∀ (k : Nat) (a : ℚ), a * 2 ^ k / 2 ^ k = a :=
      fun k a => mul_div_cancel_right₀ a (pow_ne_zero k two_ne_zero)
    rw [Nat.cast_mul, Nat.cast_pow, Nat.cast_ofNat, one_mul]
    generalize (1075 : Nat) = k
    exact hcancel k n

/-- C1 (amended): positional round trip. For a type map whose types have pairwise
distinct field names free of `.`, `[`, `]`, a type name `t`, a value tree `r` of `t` and
enough fuel, decoding the reference encoding of `r` followed by `rest` completes, leaves
the cursor at `rest`, and writes the terminal fields of `r`: their keys (path prefix,
separator and field name per level, `[i]` per array element) are pairwise distinct,
every numeric field is found in `value` and every string field in `name_id` with the
encoded value, all other keys and `value_renamed` are untouched, and an empty table
ends with exactly one entry per terminal field. The value held for a `uint32` field
that encodes `n` is the double that denotes the number `n`. -/
theorem buildRosFlatType_roundtrip (toSec : Nat → Nat → Double) (tm : RosTypeMap)
    (hnd : NoDupFields tm) (hcl : FieldNamesClean tm) (t : Str) (r : RootVal)
    (hty : rootHasType tm t r = true)
    (pfx : Str) (rest : List Nat) (c : RosTypeFlat) (fuel : Nat) (hfuel : depthRoot r < fuel) :
    buildRosFlatType toSec tm fuel t pfx (encodeRoot r ++ rest, c)
        = .ok (rest, writeAll (flattenRoot toSec pfx r) c)
      ∧ ((flattenRoot toSec pfx r).map Prod.fst).Nodup
      ∧ (∀ k x, (k, Terminal.num x) ∈ flattenRoot toSec pfx r →
          mapFind k (writeAll (flattenRoot toSec pfx r) c).value = some x)
      ∧ (∀ k s, (k, Terminal.text s) ∈ flattenRoot toSec pfx r →
          mapFind k (writeAll (flattenRoot toSec pfx r) c).name_id = some s)
      ∧ (∀ k, k ∉ (flattenRoot toSec pfx r).map Prod.fst →
          mapFind k (writeAll (flattenRoot toSec pfx r) c).value = mapFind k c.value
          ∧ mapFind k (writeAll (flattenRoot toSec pfx r) c).name_id = mapFind k c.name_id)
      ∧ (writeAll (flattenRoot toSec pfx r) c).value_renamed = c.value_renamed
      ∧ (c.value = [] → c.name_id = [] →
          (writeAll (flattenRoot toSec pfx r) c).value.length
            + (writeAll (flattenRoot toSec pfx r) c).name_id.length
            = (flattenRoot toSec pfx r).length)
      ∧ (∀ n, n < 2 ^ 32 →
          flattenVal toSec pfx (.u32 n) = [(pfx, .num (doubleOfUInt32 n))]
          ∧ (doubleOfUInt32 n).toRat = some (n : ℚ)) := by
  have hnodup := flattenRoot_nodup toSec tm hnd hcl t pfx r hty
  refine ⟨decode_roundtrip_root toSec tm t r hty pfx rest c fuel hfuel, hnodup,
    fun k x h => writeAll_value_find _ c k x hnodup h,
    fun k s h => writeAll_name_id_find _ c k s hnodup h,
    fun k h => ⟨writeAll_value_absent _ c k h, writeAll_name_id_absent _ c k h⟩,
    writeAll_value_renamed _ c, ?_, fun n hn => ⟨rfl, doubleOfUInt32_exact n hn⟩⟩
  intro h1 h2
  rw [writeAll_length _ c hnodup (by rw [h1]; intro k _; exact List.not_mem_nil _)
    (by rw [h2]; intro k _; exact List.not_mem_nil _), h1, h2]
  simp only [List.length_nil, Nat.zero_add]

theorem buildRosFlatType_roundtrip_witness :
    NoDupFields exampleTypeMap ∧ FieldNamesClean exampleTypeMap
      ∧ rootHasType exampleTypeMap "Robot".toList (.one exampleRobot) = true
      ∧ buildRosFlatType (fun _ _ => ⟨0⟩) exampleTypeMap 3 "Robot".toList "r".toList
          (encodeRoot (.one exampleRobot) ++ [7], emptyFlat)
        = .ok ([7], writeAll (flattenRoot (fun _ _ => ⟨0⟩) "r".toList (.one exampleRobot))
            emptyFlat)
      ∧ (doubleOfUInt32 7).toRat = some 7 :=
  ⟨by decide, by decide, by decide,
    (buildRosFlatType_roundtrip (fun _ _ => ⟨0⟩) exampleTypeMap (by decide) (by decide)
      "Robot".toList (.one exampleRobot) (by decide) "r".toList [7] emptyFlat 3
      (by decide)).1,
    ((buildRosFlatType_roundtrip (fun _ _ => ⟨0⟩) exampleTypeMap (by decide) (by decide)
      "Robot".toList (.one exampleRobot) (by decide) "r".toList [7] emptyFlat 3
      (by decide)).2.2.2.2.2.2.2 7 (by decide)).2⟩

/-! ## The concrete decode scenario -/

/-- C2 (as stated, refuted): with the root path prefix empty, decoding `Robot` from the
buffer of the scenario completes, but no entry is stored under `joint[0].position`:
every key starts with the separator. -/
theorem scenario_unprefixed_keys_refuted :
    buildRosFlatType (fun _ _ => ⟨0⟩) exampleTypeMap 3 "Robot".toList [] (exampleBuffer, emptyFlat)
        = .ok ([], ⟨[(".joint[0].position".toList, double_1_5),
                     (".joint[1].position".toList, double_2_5)],
                    [(".joint[0].name".toList, "hip".toList),
                     (".joint[1].name".toList, "knee".toList)], []⟩)
      ∧ buildRosFlatType (fun _ _ => ⟨0⟩) exampleTypeMap 3 "Robot".toList []
          (exampleBuffer, emptyFlat)
        ≠ .ok ([], ⟨[("joint[0].position".toList, double_1_5),
                     ("joint[1].position".toList, double_2_5)],
                    [("joint[0].name".toList, "hip".toList),
                     ("joint[1].name".toList, "knee".toList)], []⟩) := by
  decide

/-- C2 (amended): with the root path prefix empty, decoding `Robot` from the buffer that
encodes `joint = [ {name:"hip", position:1.5}, {name:"knee", position:2.5} ]` yields
`value` exactly `{".joint[0].position":1.5, ".joint[1].position":2.5}` and `name_id`
exactly `{".joint[0].name":"hip", ".joint[1].name":"knee"}`, for every fuel of at
least 3 and whatever `ros::Time::toSec` is. -/
theorem scenario_decode (toSec : Nat → Nat → Double) (fuel : Nat) :
    buildRosFlatType toSec exampleTypeMap (fuel + 3) "Robot".toList [] (exampleBuffer, emptyFlat)
      = .ok ([], ⟨[(".joint[0].position".toList, double_1_5),
                   (".joint[1].position".toList, double_2_5)],
                  [(".joint[0].name".toList, "hip".toList),
                   (".joint[1].name".toList, "knee".toList)], []⟩) := by
  have h := decode_roundtrip toSec exampleTypeMap "Robot".toList exampleRobot (by decide)
    (by decide) [] [] emptyFlat (fuel + 3) (by simp [exampleRobot, depthVal, depthFields, depthVals])
  have e : encodeVal exampleRobot ++ [] = exampleBuffer := by decide
  rw [e] at h
  rw [h]
  rfl

/-! ## Array fan-out -/

theorem ends_with_vector (t : Str) : ends_with (t ++ VECTOR_SYMBOL) VECTOR_SYMBOL = true := by
  simp [ends_with, VECTOR_SYMBOL]

theorem remove_suffix_vector (t : Str) : remove_suffix (t ++ VECTOR_SYMBOL) 2 = t := by
  simp [remove_suffix, VECTOR_SYMBOL]

theorem decode_array (toSec : Nat → Nat → Double) (tm : RosTypeMap) (t : Str) (es : Vals)
    (hty : valsHaveType tm t es = true) (hlen : es.length < 2 ^ 31)
    (p : Str) (rest : List Nat) (c : RosTypeFlat) (fuel : Nat) (hfuel : depthVals es ≤ fuel) :
    buildRosFlatType toSec tm (fuel + 1) (t ++ VECTOR_SYMBOL) p
        (leBytes 4 es.length ++ encodeVals es ++ rest, c)
      = .ok (rest, writeAll (flattenVals toSec p 0 es) c) :=
  decode_vector toSec tm (t ++ VECTOR_SYMBOL) es (ends_with_vector t)
    (by rw [remove_suffix_vector]; exact hty) hlen p rest c fuel hfuel

theorem decode_empty_array (toSec : Nat → Nat → Double) (tm : RosTypeMap) (t p : Str)
    (rest : List Nat) (c : RosTypeFlat) (fuel : Nat) :
    buildRosFlatType toSec tm (fuel + 1) (t ++ VECTOR_SYMBOL) p (leBytes 4 0 ++ rest, c)
      = .ok (rest, c) := by
  rw [buildRosFlatType_vector toSec tm fuel _ p _ (ends_with_vector t)]
  simp only [read_leBytes 4 0 rest (by norm_num)]
  rfl

theorem flattenVal_builtin (toSec : Nat → Nat → Double) (tm : RosTypeMap) (t key : Str)
    (hb : isBuiltin t = true) :
    ∀ (v : Val), valHasType tm t v = true → (flattenVal toSec key v).map Prod.fst = [key]
  | .f64 _, _ => rfl
  | .u32 _, _ => rfl
  | .time _ _, _ => rfl
  | .str _, _ => rfl
  | .struct fs, h => by
    simp only [valHasType, Bool.and_eq_true, Bool.not_eq_true'] at h
    rw [hb] at h
    exact absurd h.1 (by decide)

theorem flattenVals_builtin_keys (toSec : Nat → Nat → Double) (tm : RosTypeMap) (t key : Str)
    (hb : isBuiltin t = true) :
    ∀ (es : Vals) (i : Nat), valsHaveType tm t es = true →
      (flattenVals toSec key i es).map Prod.fst
        = (List.range' i es.length).map (fun j => key ++ LBRACKET ++ lexical_cast j ++ RBRACKET)
  | .nil, _, _ => rfl
  | .cons v vs, i, h => by
    simp only [valsHaveType, Bool.and_eq_true] at h
    simp only [flattenVals, List.map_append, Vals.length, List.range'_succ, List.map_cons,
      flattenVal_builtin toSec tm t _ hb v h.1, flattenVals_builtin_keys toSec tm t key hb vs
        (i + 1) h.2]
    rfl

theorem index_key_injective (p : Str) :
    Function.Injective (fun j => p ++ LBRACKET ++ lexical_cast j ++ RBRACKET) := by
  intro i j h
  simp only [List.append_assoc, List.append_cancel_left_eq, List.append_cancel_right_eq] at h
  exact lexical_cast_injective i j h

theorem depthVal_builtin (tm : RosTypeMap) (t : Str) (hb : isBuiltin t = true) :
    ∀ (v : Val), valHasType tm t v = true → depthVal v = 0
  | .f64 _, _ => rfl
  | .u32 _, _ => rfl
  | .time _ _, _ => rfl
  | .str _, _ => rfl
  | .struct fs, h => by
    simp only [valHasType, Bool.and_eq_true, Bool.not_eq_true'] at h
    rw [hb] at h
    exact absurd h.1 (by decide)

theorem depthVals_builtin (tm : RosTypeMap) (t : Str) (hb : isBuiltin t = true) :
    ∀ (es : Vals), valsHaveType tm t es = true → depthVals es = 0
  | .nil, _ => rfl
  | .cons v vs, h => by
    simp only [valsHaveType, Bool.and_eq_true] at h
    simp only [depthVals, depthVal_builtin tm t hb v h.1, depthVals_builtin tm t hb vs h.2]
    rfl

theorem flattenVals_length_keys (toSec : Nat → Nat → Double) (tm : RosTypeMap) (t p : Str)
    (hb : isBuiltin t = true) (es : Vals) (hty : valsHaveType tm t es = true) :
    (flattenVals toSec p 0 es).length = es.length := by
  have h := congrArg List.length (flattenVals_builtin_keys toSec tm t p hb es 0 hty)
  simpa using h

/-- C7: array fan-out. Decoding the array type `t[]` of a built-in element type `t` from
a buffer holding the 32-bit count `N < 2^31` and `N` encoded elements completes, leaves
the cursor behind the elements and writes one entry per element: the keys are
`p[0]`, ..., `p[N-1]`, pairwise distinct, the unsuffixed key `p` is not among them, and
when none of them was in the table before, the table grows by exactly `N` entries.
For a count of 0 and any element type name the call writes nothing and consumes
exactly the four count bytes. -/
theorem buildRosFlatType_array_fanout (toSec : Nat → Nat → Double) (tm : RosTypeMap)
    (t : Str) (hb : isBuiltin t = true) (es : Vals) (hty : valsHaveType tm t es = true)
    (hlen : es.length < 2 ^ 31) (p : Str) (rest : List Nat) (c : RosTypeFlat) (fuel : Nat) :
    buildRosFlatType toSec tm (fuel + 1) (t ++ VECTOR_SYMBOL) p
        (leBytes 4 es.length ++ encodeVals es ++ rest, c)
        = .ok (rest, writeAll (flattenVals toSec p 0 es) c)
      ∧ (flattenVals toSec p 0 es).map Prod.fst
          = (List.range es.length).map (fun i => p ++ LBRACKET ++ lexical_cast i ++ RBRACKET)
      ∧ ((flattenVals toSec p 0 es).map Prod.fst).Nodup
      ∧ p ∉ (flattenVals toSec p 0 es).map Prod.fst
      ∧ ((∀ k ∈ (flattenVals toSec p 0 es).map Prod.fst,
            k ∉ c.value.map Prod.fst ∧ k ∉ c.name_id.map Prod.fst) →
          (writeAll (flattenVals toSec p 0 es) c).value.length
            + (writeAll (flattenVals toSec p 0 es) c).name_id.length
            = c.value.length + c.name_id.length + es.length)
      ∧ (∀ t' : Str, buildRosFlatType toSec tm (fuel + 1) (t' ++ VECTOR_SYMBOL) p
          (leBytes 4 0 ++ rest, c) = .ok (rest, c)) := by
  have hkeys := flattenVals_builtin_keys toSec tm t p hb es 0 hty
  rw [← List.range_eq_range'] at hkeys
  have hnodup : ((flattenVals toSec p 0 es).map Prod.fst).Nodup := by
    rw [hkeys]
    exact (List.nodup_range _).map (index_key_injective p)
  refine ⟨decode_array toSec tm t es hty hlen p rest c fuel
      (by rw [depthVals_builtin tm t hb es hty]; exact Nat.zero_le _),
    hkeys, hnodup, ?_, ?_, fun t' => decode_empty_array toSec tm t' p rest c fuel⟩
  · rw [hkeys]
    intro h
    obtain ⟨i, _, hi⟩ := List.mem_map.1 h
    have := congrArg List.length hi
    simp [LBRACKET] at this
  · intro hfresh
    rw [writeAll_length _ c hnodup (fun k hk => (hfresh k hk).1) (fun k hk => (hfresh k hk).2),
      flattenVals_length_keys toSec tm t p hb es hty]

theorem buildRosFlatType_array_fanout_witness :
    isBuiltin FLOAT64 = true
      ∧ valsHaveType exampleTypeMap FLOAT64 (.cons (.f64 5) (.cons (.f64 6) .nil)) = true
      ∧ (2 : Nat) < 2 ^ 31
      ∧ buildRosFlatType (fun _ _ => ⟨0⟩) exampleTypeMap 1 (FLOAT64 ++ VECTOR_SYMBOL)
          "p".toList (leBytes 4 2 ++ encodeVals (.cons (.f64 5) (.cons (.f64 6) .nil)) ++ [9],
            emptyFlat)
        = .ok ([9], writeAll (flattenVals (fun _ _ => ⟨0⟩) "p".toList 0
            (.cons (.f64 5) (.cons (.f64 6) .nil))) emptyFlat) :=
  ⟨by decide, by decide, by decide,
    (buildRosFlatType_array_fanout (fun _ _ => ⟨0⟩) exampleTypeMap FLOAT64 (by decide)
      (.cons (.f64 5) (.cons (.f64 6) .nil)) (by decide) (by decide) "p".toList [9]
      emptyFlat 0).1⟩


/-! ## Lemmas on the type map -/

theorem mapFind_mapModify {V : Type} (k k' : Str) (f : V → V) (m : SMap V) :
    mapFind k (mapModify k' f m) = if k = k' then (mapFind k m).map f else mapFind k m := by
  induction m with
  | nil => simp [mapModify, mapFind]
  | cons e m ih =>
    obtain ⟨k2, v2⟩ := e
    simp only [mapModify]
    by_cases h2 : k' = k2
    · subst h2
      rw [if_pos rfl]
      by_cases h : k = k'
      · simp [mapFind, h]
      · simp [mapFind, h]
    · rw [if_neg h2]
      by_cases h : k = k'
      · subst h
        simp only [mapFind, if_neg h2, ih, if_true]
      · simp only [mapFind, ih, if_neg h]

theorem mapModify_noop {V : Type} (k : Str) (f : V → V) (m : SMap V)
    (h : ∀ v, mapFind k m = some v → f v = v) : mapModify k f m = m := by
  induction m with
  | nil => rfl
  | cons e m ih =>
    obtain ⟨k2, v2⟩ := e
    simp only [mapModify]
    by_cases h2 : k = k2
    · subst h2
      rw [if_pos rfl, h v2 (by simp [mapFind])]
    · rw [if_neg h2, ih (fun v hv => h v (by simpa [mapFind, h2] using hv))]

theorem mem_mapInsert {V : Type} (k : Str) (v : V) (m : SMap V) (e : Str × V)
    (h : e ∈ mapInsert k v m) : e = (k, v) ∨ e ∈ m := by
  induction m with
  | nil => simpa [mapInsert] using h
  | cons e2 m ih =>
    obtain ⟨k2, v2⟩ := e2
    simp only [mapInsert] at h
    split at h
    · rcases List.mem_cons.1 h with h | h
      · exact Or.inl h
      · exact Or.inr (List.mem_cons_of_mem _ h)
    · split at h
      · rcases List.mem_cons.1 h with h | h
        · exact Or.inl h
        · exact Or.inr h
      · rcases List.mem_cons.1 h with h | h
        · exact Or.inr (h ▸ List.mem_cons_self _ _)
        · rcases ih h with h | h
          · exact Or.inl h
          · exact Or.inr (List.mem_cons_of_mem _ h)

theorem mem_mapModify {V : Type} (k : Str) (f : V → V) (m : SMap V) (e : Str × V)
    (h : e ∈ mapModify k f m) : e ∈ m ∨ ∃ v, (k, v) ∈ m ∧ e = (k, f v) := by
  induction m with
  | nil => simp [mapModify] at h
  | cons e2 m ih =>
    obtain ⟨k2, v2⟩ := e2
    simp only [mapModify] at h
    split at h
    · rename_i hk
      subst hk
      rcases List.mem_cons.1 h with h | h
      · exact Or.inr ⟨v2, List.mem_cons_self _ _, h⟩
      · exact Or.inl (List.mem_cons_of_mem _ h)
    · rcases List.mem_cons.1 h with h | h
      · exact Or.inl (h ▸ List.mem_cons_self _ _)
      · rcases ih h with h | ⟨v, hv, he⟩
        · exact Or.inl (List.mem_cons_of_mem _ h)
        · exact Or.inr ⟨v, List.mem_cons_of_mem _ hv, he⟩

theorem mapFind_registerType (k key name : Str) (m : RosTypeMap) :
    mapFind k (registerType key name m)
      = if k = key ∧ mapFind key m = none then some ⟨name, []⟩ else mapFind k m := by
  unfold registerType
  cases hm : mapFind key m with
  | some t => simp
  | none =>
    simp only [and_true]
    by_cases h : k = key
    · subst h
      rw [if_pos rfl, mapFind_mapInsert_self]
    · rw [if_neg h, mapFind_mapInsert_ne _ _ _ _ h]

theorem registerType_registered (key name : Str) (m : RosTypeMap) :
    mapFind key (registerType key name m) ≠ none := by
  rw [mapFind_registerType]
  cases hm : mapFind key m with
  | some t => simp
  | none => simp

theorem registerType_noop (key name : Str) (m : RosTypeMap) (h : mapFind key m ≠ none) :
    registerType key name m = m := by
  unfold registerType
  cases hm : mapFind key m with
  | some t => rfl
  | none => exact absurd hm h

/-- One type map extends another: every registered key stays registered with the
same full name and its field list as a prefix of the new one. -/
theorem registerType_extends (key name : Str) (m : RosTypeMap) (k : Str) (ty : RosType)
    (h : mapFind k m = some ty) :
    mapFind k (registerType key name m) = some ty := by
  rw [mapFind_registerType]
  by_cases hc : k = key ∧ mapFind key m = none
  · obtain ⟨rfl, hn⟩ := hc
    rw [hn] at h
    cases h
  · rw [if_neg hc, h]

theorem addField_extends (f : RosTypeField) (fields : List RosTypeField) :
    fields <+: addField f fields := by
  unfold addField
  split
  · exact List.prefix_refl _
  · exact List.prefix_append _ _

theorem parseLines_extends :
    ∀ (lines : List Str) (cur : Str) (m : RosTypeMap) (k : Str) (ty : RosType),
      mapFind k m = some ty →
      ∃ ty', mapFind k (parseLines lines cur m) = some ty'
        ∧ ty'.full_name = ty.full_name ∧ ty.fields <+: ty'.fields
  | [], cur, m, k, ty, h => ⟨ty, h, rfl, List.prefix_refl _⟩
  | line :: rest, cur, m, k, ty, h => by
    unfold parseLines
    split
    · exact parseLines_extends rest cur m k ty h
    · split
      · cases rest with
        | nil => exact ⟨ty, h, rfl, List.prefix_refl _⟩
        | cons header rest' =>
          exact parseLines_extends rest' _ _ k ty (registerType_extends _ _ m k ty h)
      · have h1 : mapFind k (mapModify cur
            (fun t => { t with fields := addField (parseField line) t.fields }) m)
            = some (if k = cur then { ty with fields := addField (parseField line) ty.fields }
                else ty) := by
          rw [mapFind_mapModify, h]
          split <;> rfl
        obtain ⟨ty', h2, h3, h4⟩ := parseLines_extends rest cur _ k _ h1
        refine ⟨ty', h2, ?_, ?_⟩
        · rw [h3]; split <;> rfl
        · refine List.IsPrefix.trans ?_ h4
          split
          · exact addField_extends _ _
          · exact List.prefix_refl _

theorem parse_extends (type_name msg_definition : Str) (m : RosTypeMap) (k : Str)
    (ty : RosType) (h : mapFind k m = some ty) :
    ∃ ty', mapFind k (parseRosTypeDescription type_name msg_definition m) = some ty'
      ∧ ty'.full_name = ty.full_name ∧ ty.fields <+: ty'.fields :=
  parseLines_extends _ _ _ k ty (registerType_extends _ _ m k ty h)


/-! ## Idempotent registration -/

theorem addField_noop (f : RosTypeField) (fields : List RosTypeField)
    (h : fields.any (fun g => g.field_name = f.field_name) = true) :
    addField f fields = fields := by
  unfold addField
  rw [if_pos h]

theorem any_name_mono (name : Str) (a b : List RosTypeField) (hp : a <+: b)
    (h : a.any (fun g => g.field_name = name) = true) :
    b.any (fun g => g.field_name = name) = true := by
  obtain ⟨r, rfl⟩ := hp
  simp only [List.any_append, h, Bool.true_or]

theorem addField_has (f : RosTypeField) (fields : List RosTypeField) :
    (addField f fields).any (fun g => g.field_name = f.field_name) = true := by
  unfold addField
  split
  · assumption
  · simp

theorem parseLines_noop :
    ∀ (lines : List Str) (cur : Str) (m : RosTypeMap), Absorbs m lines cur →
      parseLines lines cur m = m
  | [], _, _, _ => rfl
  | line :: rest, cur, m, h => by
    unfold Absorbs at h
    unfold parseLines
    split
    · rename_i hc
      rw [if_pos hc] at h
      exact parseLines_noop rest cur m h
    · rename_i hc
      rw [if_neg hc] at h
      split
      · rename_i hs
        rw [if_pos hs] at h
        cases rest with
        | nil => rfl
        | cons header rest' =>
          simp only [] at h ⊢
          rw [registerType_noop _ _ m h.1]
          exact parseLines_noop rest' _ m h.2
      · rename_i hs
        rw [if_neg hs] at h
        obtain ⟨⟨t, ht, hany⟩, hrest⟩ := h
        rw [mapModify_noop cur _ m]
        · exact parseLines_noop rest cur m hrest
        · intro v hv
          rw [ht] at hv
          cases hv
          simp only [addField_noop _ _ hany]

theorem parseLines_absorbs :
    ∀ (lines : List Str) (cur : Str) (m : RosTypeMap), mapFind cur m ≠ none →
      Absorbs (parseLines lines cur m) lines cur
  | [], _, _, _ => trivial
  | line :: rest, cur, m, h => by
    unfold Absorbs
    by_cases hc : isCommentOrEmpty line = true
    · rw [if_pos hc]
      have e : parseLines (line :: rest) cur m = parseLines rest cur m := by
        conv_lhs => unfold parseLines
        rw [if_pos hc]
      rw [e]
      exact parseLines_absorbs rest cur m h
    · rw [if_neg hc]
      by_cases hs : isSeparator line = true
      · rw [if_pos hs]
        cases rest with
        | nil => trivial
        | cons header rest' =>
          have e : parseLines (line :: header :: rest') cur m
              = parseLines rest' (strippedTypeName (headerName header))
                (registerType (strippedTypeName (headerName header)) (headerName header) m) := by
            rw [parseLines, if_neg hc, if_pos hs]
          rw [e]
          have hreg := registerType_registered (strippedTypeName (headerName header))
            (headerName header) m
          refine ⟨?_, parseLines_absorbs rest' _ _ hreg⟩
          cases hf : mapFind (strippedTypeName (headerName header))
              (registerType (strippedTypeName (headerName header)) (headerName header) m) with
          | none => exact absurd hf hreg
          | some ty =>
            obtain ⟨ty', h1, _, _⟩ := parseLines_extends rest' (strippedTypeName
              (headerName header)) _ _ ty hf
            rw [h1]
            simp
      · rw [if_neg hs]
        have e : parseLines (line :: rest) cur m = parseLines rest cur (mapModify cur
            (fun t => { t with fields := addField (parseField line) t.fields }) m) := by
          conv_lhs => unfold parseLines
          rw [if_neg hc, if_neg hs]
        rw [e]
        cases hf : mapFind cur m with
        | none => exact absurd hf h
        | some ty =>
          have h1 : mapFind cur (mapModify cur
              (fun t => { t with fields := addField (parseField line) t.fields }) m)
              = some { ty with fields := addField (parseField line) ty.fields } := by
            rw [mapFind_mapModify, if_pos rfl, hf]
            rfl
          obtain ⟨ty', h2, _, h4⟩ := parseLines_extends rest cur _ cur _ h1
          refine ⟨⟨ty', h2, any_name_mono _ _ _ h4 (addField_has _ _)⟩, ?_⟩
          exact parseLines_absorbs rest cur _ (by rw [h1]; simp)

/-- C8: idempotent registration. Parsing the same schema text under the same root type
name a second time into the resulting type map changes nothing: same keys, same full
names, same field lists. -/
theorem parseRosTypeDescription_idempotent (type_name msg_definition : Str)
    (type_map : RosTypeMap) :
    parseRosTypeDescription type_name msg_definition
        (parseRosTypeDescription type_name msg_definition type_map)
      = parseRosTypeDescription type_name msg_definition type_map := by
  have hreg := registerType_registered (strippedTypeName type_name) type_name type_map
  have habs := parseLines_absorbs (getLines msg_definition) (strippedTypeName type_name)
    _ hreg
  have hroot : mapFind (strippedTypeName type_name)
      (parseRosTypeDescription type_name msg_definition type_map) ≠ none := by
    cases hf : mapFind (strippedTypeName type_name)
        (registerType (strippedTypeName type_name) type_name type_map) with
    | none => exact absurd hf hreg
    | some ty =>
      obtain ⟨ty', h1, _, _⟩ := parseLines_extends (getLines msg_definition)
        (strippedTypeName type_name) _ _ ty hf
      unfold parseRosTypeDescription
      rw [h1]
      simp
  show parseLines _ _ (registerType _ _ (parseRosTypeDescription type_name msg_definition
    type_map)) = _
  rw [registerType_noop _ _ _ hroot]
  exact parseLines_noop _ _ _ habs

/-! ## First registration wins -/

/-- C10: first registration wins. Every entry that is in the type map before
`parseRosTypeDescription` is still there afterwards, under the same key, with the same
full name and with its previous field list as a prefix of its resulting field list;
in particular a root name or header whose stripped name is registered neither
replaces the entry nor clears its fields. -/
theorem parseRosTypeDescription_keeps_entries (type_name msg_definition : Str)
    (type_map : RosTypeMap) (key : Str) (ty : RosType)
    (h : mapFind key type_map = some ty) :
    ∃ ty', mapFind key (parseRosTypeDescription type_name msg_definition type_map) = some ty'
      ∧ ty'.full_name = ty.full_name ∧ ty.fields <+: ty'.fields :=
  parse_extends type_name msg_definition type_map key ty h

theorem parseRosTypeDescription_keeps_entries_witness :
    mapFind "Robot".toList exampleTypeMap
        = some ⟨"Robot".toList, [⟨"JointState[]".toList, "joint".toList⟩]⟩
      ∧ ∃ ty', mapFind "Robot".toList (parseRosTypeDescription "other/Robot".toList
            "uint32 id".toList exampleTypeMap) = some ty'
          ∧ ty'.full_name = "Robot".toList
          ∧ [⟨"JointState[]".toList, "joint".toList⟩] <+: ty'.fields :=
  ⟨by decide, parseRosTypeDescription_keeps_entries "other/Robot".toList "uint32 id".toList
    exampleTypeMap "Robot".toList ⟨"Robot".toList, [⟨"JointState[]".toList, "joint".toList⟩]⟩
    (by decide)⟩


/-! ## Field dedup -/

theorem any_name_iff (name : Str) (fields : List RosTypeField) :
    fields.any (fun g => g.field_name = name) = true
      ↔ name ∈ fields.map RosTypeField.field_name := by
  simp only [List.any_eq_true, decide_eq_true_eq, List.mem_map]

theorem addField_nodup (f : RosTypeField) (fields : List RosTypeField)
    (h : (fields.map RosTypeField.field_name).Nodup) :
    ((addField f fields).map RosTypeField.field_name).Nodup := by
  unfold addField
  split
  · exact h
  · rename_i hn
    rw [any_name_iff] at hn
    rw [List.map_append, List.nodup_append]
    refine ⟨h, by simp, ?_⟩
    intro x hx hx'
    simp only [List.map_cons, List.map_nil, List.mem_singleton] at hx'
    exact hn (hx' ▸ hx)

theorem addField_names (f : RosTypeField) (fields : List RosTypeField) (x : Str) :
    x ∈ (addField f fields).map RosTypeField.field_name
      ↔ x ∈ fields.map RosTypeField.field_name ∨ x = f.field_name := by
  unfold addField
  split
  · rename_i hn
    rw [any_name_iff] at hn
    constructor
    · exact Or.inl
    · rintro (h | h)
      · exact h
      · exact h ▸ hn
  · simp only [List.map_append, List.mem_append, List.map_cons, List.map_nil,
      List.mem_singleton]

theorem registerType_nodup (key name : Str) (m : RosTypeMap) (h : NoDupFields m) :
    NoDupFields (registerType key name m) := by
  unfold registerType
  split
  · exact h
  · intro e he
    rcases mem_mapInsert _ _ _ _ he with he | he
    · rw [he]; exact List.nodup_nil
    · exact h e he

theorem mapModify_addField_nodup (k : Str) (f : RosTypeField) (m : RosTypeMap)
    (h : NoDupFields m) :
    NoDupFields (mapModify k (fun t => { t with fields := addField f t.fields }) m) := by
  intro e he
  rcases mem_mapModify _ _ _ _ he with he | ⟨v, hv, he⟩
  · exact h e he
  · rw [he]
    exact addField_nodup f v.fields (h _ hv)

theorem parseLines_nodup :
    ∀ (lines : List Str) (cur : Str) (m : RosTypeMap), NoDupFields m →
      NoDupFields (parseLines lines cur m)
  | [], _, _, h => h
  | line :: rest, cur, m, h => by
    unfold parseLines
    split
    · exact parseLines_nodup rest cur m h
    · split
      · cases rest with
        | nil => exact h
        | cons header rest' =>
          exact parseLines_nodup rest' _ _ (registerType_nodup _ _ m h)
      · exact parseLines_nodup rest cur _ (mapModify_addField_nodup cur _ m h)

theorem fieldsOf_registerType (key name : Str) (m : RosTypeMap) (k : Str) :
    fieldsOf (registerType key name m) k = fieldsOf m k := by
  unfold fieldsOf
  rw [mapFind_registerType]
  by_cases hc : k = key ∧ mapFind key m = none
  · rw [if_pos hc]
    obtain ⟨rfl, hn⟩ := hc
    rw [hn]
  · rw [if_neg hc]

theorem fieldsOf_mapModify (cur : Str) (f : RosTypeField) (m : RosTypeMap) (k : Str)
    (hcur : mapFind cur m ≠ none) :
    fieldsOf (mapModify cur (fun t => { t with fields := addField f t.fields }) m) k
      = if cur = k then addField f (fieldsOf m k) else fieldsOf m k := by
  unfold fieldsOf
  rw [mapFind_mapModify]
  by_cases hk : k = cur
  · subst hk
    rw [if_pos rfl, if_pos rfl]
    cases hm : mapFind k m with
    | none => exact absurd hm hcur
    | some t => rfl
  · rw [if_neg hk, if_neg (fun h => hk h.symm)]

theorem mapModify_registered {V : Type} (cur : Str) (f : V → V) (m : SMap V) (k : Str)
    (h : mapFind k m ≠ none) : mapFind k (mapModify cur f m) ≠ none := by
  rw [mapFind_mapModify]
  cases hm : mapFind k m with
  | none => exact absurd hm h
  | some t => split <;> simp

theorem parseLines_fieldsOf :
    ∀ (lines : List Str) (cur : Str) (m : RosTypeMap) (k : Str), mapFind cur m ≠ none →
      fieldsOf (parseLines lines cur m) k
        = (declaredFields lines cur k).foldl (fun acc f => addField f acc) (fieldsOf m k)
  | [], _, _, _, _ => rfl
  | line :: rest, cur, m, k, h => by
    unfold parseLines declaredFields
    split
    · exact parseLines_fieldsOf rest cur m k h
    · split
      · cases rest with
        | nil => rfl
        | cons header rest' =>
          simp only []
          rw [parseLines_fieldsOf rest' _ _ k (registerType_registered _ _ m),
            fieldsOf_registerType]
      · rw [parseLines_fieldsOf rest cur _ k (mapModify_registered cur _ m cur h),
          fieldsOf_mapModify cur _ m k h, List.foldl_append]
        split <;> rfl

theorem find_of_nodup (fields : List RosTypeField)
    (h : (fields.map RosTypeField.field_name).Nodup) (f : RosTypeField) (hf : f ∈ fields) :
    fields.find? (fun g => g.field_name = f.field_name) = some f := by
  induction fields with
  | nil => simp at hf
  | cons g fields ih =>
    simp only [List.map_cons, List.nodup_cons] at h
    rcases List.mem_cons.1 hf with hf | hf
    · subst hf
      simp
    · have hne : g.field_name ≠ f.field_name := by
        intro e
        exact h.1 (e ▸ List.mem_map_of_mem _ hf)
      rw [List.find?_cons_of_neg _ (by simpa using hne)]
      exact ih h.2 hf

theorem foldl_addField_nodup (ds old : List RosTypeField)
    (h : (old.map RosTypeField.field_name).Nodup) :
    ((ds.foldl (fun acc f => addField f acc) old).map RosTypeField.field_name).Nodup := by
  induction ds generalizing old with
  | nil => exact h
  | cons d ds ih => exact ih _ (addField_nodup d old h)

theorem foldl_addField_names (ds old : List RosTypeField) (x : Str) :
    x ∈ (ds.foldl (fun acc f => addField f acc) old).map RosTypeField.field_name
      ↔ x ∈ (old ++ ds).map RosTypeField.field_name := by
  induction ds generalizing old with
  | nil => simp
  | cons d ds ih =>
    simp only [List.foldl_cons, ih, List.map_append, List.mem_append, addField_names,
      List.map_cons, List.mem_cons]
    tauto

theorem foldl_addField_first (ds old : List RosTypeField)
    (h : (old.map RosTypeField.field_name).Nodup) (f : RosTypeField)
    (hf : f ∈ ds.foldl (fun acc f => addField f acc) old) :
    (old ++ ds).find? (fun g => g.field_name = f.field_name) = some f := by
  induction ds generalizing old with
  | nil => simpa using find_of_nodup old h f hf
  | cons d ds ih =>
    have h1 := ih (addField d old) (addField_nodup d old h) hf
    unfold addField at h1
    split at h1
    · rename_i hn
      rw [List.find?_append] at h1 ⊢
      cases ho : old.find? (fun g => g.field_name = f.field_name) with
      | some x => rw [ho] at h1; simpa using h1
      | none =>
        rw [ho] at h1
        simp only [Option.none_or] at h1 ⊢
        have hne : ¬ (decide (d.field_name = f.field_name) = true) := by
          intro e
          simp only [decide_eq_true_eq] at e
          rw [List.find?_eq_none] at ho
          rw [any_name_iff] at hn
          obtain ⟨g, hg, hge⟩ := List.mem_map.1 hn
          exact ho g hg (by simp [hge, e])
        have hd : decide (d.field_name = f.field_name) = false := by simpa using hne
        simp only [List.find?_cons, hd]
        exact h1
    · simpa [List.append_assoc] using h1

theorem foldl_addField_length (ds old : List RosTypeField)
    (h : (old.map RosTypeField.field_name).Nodup) :
    (ds.foldl (fun acc f => addField f acc) old).length
      = ((old ++ ds).map RosTypeField.field_name).dedup.length := by
  have h1 := foldl_addField_nodup ds old h
  rw [← List.card_toFinset, ← List.length_map (ds.foldl (fun acc f => addField f acc) old)
    RosTypeField.field_name, ← List.toFinset_card_of_nodup h1]
  congr 1
  ext x
  simp only [List.mem_toFinset]
  exact foldl_addField_names ds old x

theorem fieldsOf_nodup (m : RosTypeMap) (h : NoDupFields m) (k : Str) :
    ((fieldsOf m k).map RosTypeField.field_name).Nodup := by
  unfold fieldsOf
  cases hm : mapFind k m with
  | none => exact List.nodup_nil
  | some t => exact h _ (mapFind_mem k t m hm)

/-- C9: field dedup. `parseRosTypeDescription` preserves "no two fields of one type
share a field name", and for every key the resulting field list keeps, for each field
name, the first field of that name among the fields the type had before followed by
the fields the text declares for it; its length is the number of distinct field
names among them. -/
theorem parseRosTypeDescription_field_dedup (type_name msg_definition : Str)
    (type_map : RosTypeMap) (h : NoDupFields type_map) :
    NoDupFields (parseRosTypeDescription type_name msg_definition type_map)
      ∧ ∀ key : Str,
        (∀ f ∈ fieldsOf (parseRosTypeDescription type_name msg_definition type_map) key,
          (fieldsOf type_map key
              ++ declaredFields (getLines msg_definition) (strippedTypeName type_name) key).find?
            (fun g => g.field_name = f.field_name) = some f)
        ∧ (fieldsOf (parseRosTypeDescription type_name msg_definition type_map) key).length
          = ((fieldsOf type_map key
              ++ declaredFields (getLines msg_definition) (strippedTypeName type_name) key).map
            RosTypeField.field_name).dedup.length := by
  refine ⟨parseLines_nodup _ _ _ (registerType_nodup _ _ _ h), fun key => ?_⟩
  have e : fieldsOf (parseRosTypeDescription type_name msg_definition type_map) key
      = (declaredFields (getLines msg_definition) (strippedTypeName type_name) key).foldl
        (fun acc f => addField f acc) (fieldsOf type_map key) := by
    unfold parseRosTypeDescription
    rw [parseLines_fieldsOf _ _ _ key (registerType_registered _ _ _), fieldsOf_registerType]
  rw [e]
  exact ⟨fun f hf => foldl_addField_first _ _ (fieldsOf_nodup type_map h key) f hf,
    foldl_addField_length _ _ (fieldsOf_nodup type_map h key)⟩

theorem parseRosTypeDescription_field_dedup_witness :
    NoDupFields [] ∧ NoDupFields (parseRosTypeDescription "pkg/Pose".toList
      "float64 x\nuint32 x\nfloat64 y".toList []) :=
  ⟨by decide, (parseRosTypeDescription_field_dedup "pkg/Pose".toList
    "float64 x\nuint32 x\nfloat64 y".toList [] (by decide)).1⟩


/-! ## The substitution engine: the loop over the entries -/

theorem insertAll_find_absent (ks : List (Str × Double)) (m : SMap Double) (k : Str)
    (h : k ∉ ks.map Prod.fst) : mapFind k (insertAll ks m) = mapFind k m := by
  induction ks generalizing m with
  | nil => rfl
  | cons e ks ih =>
    simp only [List.map_cons, List.mem_cons, not_or] at h
    simp only [insertAll, List.foldl_cons] at ih ⊢
    rw [ih _ h.2, mapFind_mapInsert_ne _ _ _ _ h.1]

theorem insertAll_find (ks : List (Str × Double)) (m : SMap Double) (k : Str) (v : Double)
    (hmem : (k, v) ∈ ks) (hall : ∀ e ∈ ks, e.1 = k → e.2 = v) :
    mapFind k (insertAll ks m) = some v := by
  induction ks generalizing m with
  | nil => exact absurd hmem (List.not_mem_nil _)
  | cons e ks ih =>
    have hall' : ∀ e' ∈ ks, e'.1 = k → e'.2 = v :=
      fun e' he' => hall e' (List.mem_cons_of_mem _ he')
    simp only [insertAll, List.foldl_cons] at ih ⊢
    by_cases hk : k ∈ ks.map Prod.fst
    · obtain ⟨e', he', hke⟩ := List.mem_map.1 hk
      have : (k, v) ∈ ks := by
        have h2 := hall' e' he' hke
        rw [← hke, ← h2]
        exact he'
      exact ih _ this hall'
    · have h1 := insertAll_find_absent ks (mapInsert e.1 e.2 m) k hk
      simp only [insertAll] at h1
      rw [h1]
      rcases List.mem_cons.1 hmem with h | h
      · rw [← h]
        exact mapFind_mapInsert_self _ _ _
      · exact absurd (List.mem_map_of_mem Prod.fst h) hk

theorem insertAll_length_le (ks : List (Str × Double)) (m : SMap Double) :
    (insertAll ks m).length ≤ m.length + ks.length := by
  induction ks generalizing m with
  | nil => simp [insertAll]
  | cons e ks ih =>
    simp only [insertAll, List.foldl_cons, List.length_cons] at ih ⊢
    have h1 := ih (mapInsert e.1 e.2 m)
    have h2 := length_mapInsert_le e.1 e.2 m
    omega

theorem insertAll_keys (ks : List (Str × Double)) (m : SMap Double) (k : Str) :
    k ∈ (insertAll ks m).map Prod.fst ↔ k ∈ ks.map Prod.fst ∨ k ∈ m.map Prod.fst := by
  induction ks generalizing m with
  | nil => simp only [insertAll, List.foldl_nil, List.map_nil, List.not_mem_nil, false_or]
  | cons e ks ih =>
    simp only [insertAll, List.foldl_cons] at ih ⊢
    rw [ih, mem_keys_mapInsert]
    simp only [List.map_cons, List.mem_cons]
    tauto

theorem insertAll_length (ks : List (Str × Double)) (m : SMap Double)
    (hnd : (ks.map Prod.fst).Nodup) (hm : ∀ k ∈ ks.map Prod.fst, k ∉ m.map Prod.fst) :
    (insertAll ks m).length = m.length + ks.length := by
  induction ks generalizing m with
  | nil => simp [insertAll]
  | cons e ks ih =>
    simp only [List.map_cons, List.nodup_cons] at hnd
    simp only [insertAll, List.foldl_cons, List.length_cons] at ih ⊢
    rw [ih (mapInsert e.1 e.2 m) hnd.2, length_mapInsert_new _ _ _ (hm e.1 (List.mem_cons_self _ _))]
    · omega
    · intro k hk
      rw [mem_keys_mapInsert, not_or]
      exact ⟨fun h => hnd.1 (h ▸ hk), hm k (by simp only [List.map_cons]; exact List.mem_cons_of_mem _ hk)⟩

theorem renameLoop_ok (rules : List SubstitutionRule) :
    ∀ (entries : List (Str × Double)) (c c' : RosTypeFlat),
      forEach (fun (entry : Str × Double) (c : RosTypeFlat) =>
        match applyRules rules c.name_id entry.1 with
        | .ok key => .ok { c with value_renamed := mapInsert key entry.2 c.value_renamed }
        | .error e => .error e) entries c = .ok c' →
      (∀ e ∈ entries, applyRules rules c.name_id e.1 = .ok (newKey rules c.name_id e.1))
        ∧ c' = ⟨c.value, c.name_id,
            insertAll (entries.map (fun e => (newKey rules c.name_id e.1, e.2))) c.value_renamed⟩
  | [], c, c', h => by
    simp only [forEach, Outcome.ok.injEq] at h
    subst h
    exact ⟨fun e he => absurd he (List.not_mem_nil _), rfl⟩
  | entry :: rest, c, c', h => by
    simp only [forEach] at h
    cases hk : applyRules rules c.name_id entry.1 with
    | error e => rw [hk] at h; simp at h
    | ok key =>
      rw [hk] at h
      simp only [] at h
      obtain ⟨h1, h2⟩ := renameLoop_ok rules rest _ c' h
      simp only [] at h1 h2
      have hkey : newKey rules c.name_id entry.1 = key := by
        unfold newKey; rw [hk]
      refine ⟨?_, ?_⟩
      · intro e he
        rcases List.mem_cons.1 he with he | he
        · rw [he, hkey, hk]
        · exact h1 e he
      · rw [h2]
        simp only [List.map_cons, insertAll, List.foldl_cons, hkey]

theorem applyNameTransform_ok (rules : List SubstitutionRule) (c c' : RosTypeFlat)
    (h : applyNameTransform rules c = .ok c') :
    (∀ e ∈ c.value, applyRules rules c.name_id e.1 = .ok (newKey rules c.name_id e.1))
      ∧ c' = ⟨c.value, c.name_id,
          insertAll (c.value.map (fun e => (newKey rules c.name_id e.1, e.2))) c.value_renamed⟩ :=
  renameLoop_ok rules c.value c c' h

theorem value_unique (l : List (Str × Double)) (h : (l.map Prod.fst).Nodup) (k : Str)
    (v v' : Double) (h1 : (k, v) ∈ l) (h2 : (k, v') ∈ l) : v = v' := by
  induction l with
  | nil => exact absurd h1 (List.not_mem_nil _)
  | cons e l ih =>
    simp only [List.map_cons, List.nodup_cons] at h
    rcases List.mem_cons.1 h1 with h1 | h1 <;> rcases List.mem_cons.1 h2 with h2 | h2
    · rw [← h1] at h2; exact (Prod.mk.inj h2).2.symm
    · exact absurd (List.mem_map_of_mem Prod.fst h2) (by rw [← h1] at h; exact h.1)
    · exact absurd (List.mem_map_of_mem Prod.fst h1) (by rw [← h2] at h; exact h.1)
    · exact ih h.2 h1 h2

/-- The entry `(key, v)` of `value` is found under its new key when no other entry is
written to that key. -/
theorem renamed_find (rules : List SubstitutionRule) (c c' : RosTypeFlat) (key : Str)
    (v : Double) (hkeys : (c.value.map Prod.fst).Nodup) (hentry : (key, v) ∈ c.value)
    (hother : ∀ e ∈ c.value, e.1 ≠ key →
      applyRules rules c.name_id e.1 ≠ .ok (newKey rules c.name_id key))
    (hdone : applyNameTransform rules c = .ok c') :
    mapFind (newKey rules c.name_id key) c'.value_renamed = some v := by
  obtain ⟨h1, h2⟩ := applyNameTransform_ok rules c c' hdone
  rw [h2]
  simp only []
  apply insertAll_find
  · exact List.mem_map.2 ⟨(key, v), hentry, rfl⟩
  · intro e' he' hk
    obtain ⟨e, he, rfl⟩ := List.mem_map.1 he'
    simp only [] at hk ⊢
    by_cases hek : e.1 = key
    · have : (key, e.2) ∈ c.value := by rw [← hek]; exact he
      exact value_unique c.value hkeys key _ _ this hentry
    · exact absurd (by rw [h1 e he, hk]) (hother e he hek)


/-! ## The substitution engine: one rule on one key -/

theorem search_eq (needle : Str) :
    ∀ (hay : Str) (A : Nat), A ≤ hay.length →
      (∀ i < A, ¬ needle <+: hay.drop i) → needle <+: hay.drop A → search needle hay = A
  | [], A, hA, _, _ => by
    simp only [List.length_nil, Nat.le_zero] at hA
    rw [hA]; rfl
  | c :: rest, 0, _, _, h => by
    simp only [List.drop_zero] at h
    simp only [search, List.isPrefixOf_iff_prefix.2 h, if_true]
  | c :: rest, A + 1, hA, hfirst, h => by
    have h0 := hfirst 0 (Nat.succ_pos _)
    simp only [List.drop_zero] at h0
    have h0' : needle.isPrefixOf (c :: rest) = false := by
      cases hb : needle.isPrefixOf (c :: rest) with
      | false => rfl
      | true => exact absurd ( List.isPrefixOf_iff_prefix.1 hb) h0
    simp only [search, h0', Bool.false_eq_true, if_false, Nat.add_right_cancel_iff]
    refine search_eq needle rest A (by simpa using hA) ?_ (by simpa using h)
    intro i hi
    have := hfirst (i + 1) (by omega)
    simpa using this

theorem digitRun_append (D : Str) (ch : Char) (rest : Str)
    (hD : ∀ c ∈ D, c.isDigit = true) (hch : ch.isDigit = false) :
    digitRun (D ++ ch :: rest) = .ok D.length := by
  induction D with
  | nil => simp [digitRun, hch]
  | cons d D ih =>
    have h := ih (fun c hc => hD c (List.mem_cons_of_mem _ hc))
    rw [List.cons_append, digitRun, if_pos (hD d (List.mem_cons_self _ _)), h]
    rfl

theorem strncmpEq_append (a R : Str) : strncmpEq a.length (a ++ R) a = true := by
  induction a with
  | nil => rfl
  | cons x a ih =>
    simp only [List.length_cons, List.cons_append, strncmpEq, List.headD_cons, ne_eq,
      not_true_eq_false, if_false, List.tail_cons, ih]
    split <;> rfl

theorem cstr_of_no_nul (s : Str) (h : NUL ∉ s) : cstr s = s := by
  unfold cstr
  rw [List.takeWhile_eq_self_iff]
  intro c hc
  simp only [ne_eq, decide_eq_true_eq]
  intro e
  exact h (e ▸ hc)

theorem tryRule_rewrite (rule : SubstitutionRule) (name_id : SMap Str) (P D R s : Str)
    (hfirst : ∀ i < P.length,
      ¬ rule.pattern_pre <+: (P ++ rule.pattern_pre ++ D ++ rule.pattern_suf ++ R).drop i)
    (hD : ∀ ch ∈ D, ch.isDigit = true)
    (hstop : ∃ ch rest, rule.pattern_suf ++ R = ch :: rest ∧ ch.isDigit = false)
    (hid : mapFind (P ++ rule.location_pre ++ D ++ rule.location_suf) name_id = some s)
    (hnul1 : NUL ∉ P ++ rule.location_pre ++ D ++ rule.location_suf)
    (hnul2 : NUL ∉ P ++ rule.substitution_pre ++ s ++ rule.substitution_suf ++ R) :
    tryRule rule name_id (P ++ rule.pattern_pre ++ D ++ rule.pattern_suf ++ R)
      = if 255 < (P ++ rule.location_pre ++ D ++ rule.location_suf).length then
          .error .overflow
        else if 255 < (P ++ rule.substitution_pre ++ s ++ rule.substitution_suf ++ R).length
          then .error .overflow
        else .ok (some (P ++ rule.substitution_pre ++ s ++ rule.substitution_suf ++ R)) := by
  obtain ⟨ch, rest, hsr, hch⟩ := hstop
  have hkey : P ++ rule.pattern_pre ++ D ++ rule.pattern_suf ++ R
      = P ++ (rule.pattern_pre ++ (D ++ (ch :: rest))) := by
    simp only [List.append_assoc, hsr]
  have hsearch : search rule.pattern_pre (P ++ rule.pattern_pre ++ D ++ rule.pattern_suf ++ R)
      = P.length := by
    apply search_eq
    · rw [hkey]; simp
    · exact hfirst
    · rw [hkey, List.drop_left]
      exact List.prefix_append _ _
  have hfind : find (P ++ rule.pattern_pre ++ D ++ rule.pattern_suf ++ R) rule.pattern_pre
      = some P.length := by
    unfold find
    rw [hsearch, if_neg]
    rw [hkey]
    simp only [List.length_append, List.length_cons]
    omega
  have hdrop : (P ++ rule.pattern_pre ++ D ++ rule.pattern_suf ++ R).drop
      (P.length + rule.pattern_pre.length) = D ++ ch :: rest := by
    rw [hkey, ← List.append_assoc, List.drop_left' (by simp)]
  have htake : (P ++ rule.pattern_pre ++ D ++ rule.pattern_suf ++ R).take P.length = P := by
    rw [hkey, List.take_left]
  have hdropC : (P ++ rule.pattern_pre ++ D ++ rule.pattern_suf ++ R).drop
      (P.length + rule.pattern_pre.length + D.length) = rule.pattern_suf ++ R := by
    rw [hkey, hsr, ← List.append_assoc, ← List.append_assoc,
      List.drop_left' (by simp only [List.length_append])]
  unfold tryRule
  rw [hfind]
  simp only []
  rw [hdrop, digitRun_append D ch rest hD hch]
  simp only []
  rw [hdropC, strncmpEq_append, if_pos rfl, htake]
  have hidx : (D ++ ch :: rest).take (P.length + rule.pattern_pre.length + D.length
      - (P.length + rule.pattern_pre.length)) = D := by
    rw [Nat.add_sub_cancel_left, List.take_left]
  rw [hidx, List.drop_left, cstr_of_no_nul _ hnul1, hid]
  simp only []
  rw [cstr_of_no_nul _ hnul2]


/-! ## The substitution engine: the claims -/

theorem applyRules_single (rule : SubstitutionRule) (name_id : SMap Str) (name : Str) :
    applyRules [rule] name_id name
      = match tryRule rule name_id name with
        | .ok (some new_name) => .ok new_name
        | .ok none => .ok name
        | .error e => .error e := by
  simp only [applyRules]

/-- C3 (as stated, refuted): the key `j[0].p` matches the rule `("[#].", "[#].name",
".#.")` at position 1 with digit run `0` and remainder `p`, and `name_id` maps
`j[0].name` to the string `a`, NUL, `b`; the call completes, but it stores the value
under `j.a`, the new key cut at the NUL, and nothing under the key of the formula. -/
theorem rewrite_formula_nul_refuted :
    mapFind ("j".toList ++ exampleRule.location_pre ++ "0".toList ++ exampleRule.location_suf)
        nulFlat.name_id = some nulName
      ∧ applyNameTransform [exampleRule] nulFlat
        = .ok ⟨nulFlat.value, nulFlat.name_id, [("j.a".toList, double_1_5)]⟩
      ∧ mapFind ("j".toList ++ exampleRule.substitution_pre ++ nulName
          ++ exampleRule.substitution_suf ++ "p".toList) [("j.a".toList, double_1_5)] = none := by
  decide

/-- C3 (amended): rewrite formula. Let the entry `(key, v)` of `value` have
`key = P ++ pattern_pre ++ D ++ pattern_suf ++ R`, where the pattern prefix does not
occur in `key` before position `|P|`, `D` consists of digits and is followed by a
character that is not a digit, and let `name_id` map `P ++ location_pre ++ D ++
location_suf` to `s`. If the call with the single rule completes, neither the
cross-reference key nor the new key contains a NUL character, the keys of `value` are
pairwise distinct and no other entry of `value` is written to the new key, then
`value_renamed[P ++ substitution_pre ++ s ++ substitution_suf ++ R] = v`. -/
theorem applyNameTransform_rewrite (rule : SubstitutionRule) (c c' : RosTypeFlat)
    (P D R s : Str) (v : Double)
    (hkeys : (c.value.map Prod.fst).Nodup)
    (hentry : (P ++ rule.pattern_pre ++ D ++ rule.pattern_suf ++ R, v) ∈ c.value)
    (hfirst : ∀ i < P.length,
      ¬ rule.pattern_pre <+: (P ++ rule.pattern_pre ++ D ++ rule.pattern_suf ++ R).drop i)
    (hD : ∀ ch ∈ D, ch.isDigit = true)
    (hstop : ∃ ch rest, rule.pattern_suf ++ R = ch :: rest ∧ ch.isDigit = false)
    (hid : mapFind (P ++ rule.location_pre ++ D ++ rule.location_suf) c.name_id = some s)
    (hnul1 : NUL ∉ P ++ rule.location_pre ++ D ++ rule.location_suf)
    (hnul2 : NUL ∉ P ++ rule.substitution_pre ++ s ++ rule.substitution_suf ++ R)
    (hother : ∀ e ∈ c.value, e.1 ≠ P ++ rule.pattern_pre ++ D ++ rule.pattern_suf ++ R →
      applyRules [rule] c.name_id e.1
        ≠ .ok (P ++ rule.substitution_pre ++ s ++ rule.substitution_suf ++ R))
    (hdone : applyNameTransform [rule] c = .ok c') :
    mapFind (P ++ rule.substitution_pre ++ s ++ rule.substitution_suf ++ R) c'.value_renamed
      = some v := by
  have hok := (applyNameTransform_ok [rule] c c' hdone).1 _ hentry
  have htry := tryRule_rewrite rule c.name_id P D R s hfirst hD hstop hid hnul1 hnul2
  have hnew : newKey [rule] c.name_id (P ++ rule.pattern_pre ++ D ++ rule.pattern_suf ++ R)
      = P ++ rule.substitution_pre ++ s ++ rule.substitution_suf ++ R := by
    obtain ⟨k0, hk0⟩ : ∃ k0, applyRules [rule] c.name_id
        (P ++ rule.pattern_pre ++ D ++ rule.pattern_suf ++ R) = .ok k0 := ⟨_, hok⟩
    unfold newKey
    rw [applyRules_single, htry] at hk0 ⊢
    by_cases hl1 : 255 < (P ++ rule.location_pre ++ D ++ rule.location_suf).length
    · rw [if_pos hl1] at hk0
      cases hk0
    · rw [if_neg hl1] at hk0 ⊢
      by_cases hl2 : 255
          < (P ++ rule.substitution_pre ++ s ++ rule.substitution_suf ++ R).length
      · rw [if_pos hl2] at hk0
        cases hk0
      · rw [if_neg hl2]
  have h := renamed_find [rule] c c' _ v hkeys hentry (by rw [hnew]; exact hother) hdone
  rw [hnew] at h
  exact h

theorem applyNameTransform_rewrite_witness :
    applyNameTransform [exampleRule] exampleFlat = .ok exampleRenamed
      ∧ mapFind ("joint".toList ++ exampleRule.substitution_pre ++ "hip".toList
          ++ exampleRule.substitution_suf ++ "position".toList) exampleRenamed.value_renamed
        = some double_1_5 :=
  ⟨by decide,
    applyNameTransform_rewrite exampleRule exampleFlat exampleRenamed "joint".toList
      "0".toList "position".toList "hip".toList double_1_5 (by decide) (by decide)
      (by decide) (by decide) ⟨']', ".position".toList, by decide, by decide⟩ (by decide)
      (by decide) (by decide) (by decide) (by decide)⟩

theorem applyRules_none (rules : List SubstitutionRule) (name_id : SMap Str) (name : Str)
    (h : ∀ r ∈ rules, tryRule r name_id name = .ok none) :
    applyRules rules name_id name = .ok name := by
  induction rules with
  | nil => rfl
  | cons r rules ih =>
    simp only [applyRules, h r (List.mem_cons_self _ _)]
    exact ih (fun q hq => h q (List.mem_cons_of_mem _ hq))

/-- C4 (as stated, refuted): in the table `{"a.hip.x":1.5, "a[0].x":2.5}` with
`a[0].name = "hip"` no rule succeeds for the key `a.hip.x` and the call completes, yet
`value_renamed["a.hip.x"]` is 2.5, the value of the entry `a[0].x` that is renamed to the
same key afterwards. -/
theorem passthrough_overwritten :
    ("a.hip.x".toList, double_1_5) ∈ collidingFlat.value
      ∧ tryRule exampleRule collidingFlat.name_id "a.hip.x".toList = .ok none
      ∧ applyNameTransform [exampleRule] collidingFlat
        = .ok ⟨collidingFlat.value, collidingFlat.name_id, [("a.hip.x".toList, double_2_5)]⟩
      ∧ mapFind "a.hip.x".toList [("a.hip.x".toList, double_2_5)] ≠ some double_1_5 := by
  decide

theorem applyRules_skip (pre rest : List SubstitutionRule) (name_id : SMap Str) (name : Str)
    (h : ∀ q ∈ pre, tryRule q name_id name = .ok none) :
    applyRules (pre ++ rest) name_id name = applyRules rest name_id name := by
  induction pre with
  | nil => rfl
  | cons q pre ih =>
    simp only [List.cons_append, applyRules, h q (List.mem_cons_self _ _)]
    exact ih (fun q' hq => h q' (List.mem_cons_of_mem _ hq))

/-- C5: rule priority. If every rule before `r` ends without a substitution for the key
and `r` builds the new key `k`, then the rule loop stores the entry under `k` whatever
rules follow `r`, and for a table whose `value` holds just this entry the call makes
exactly one assignment, `value_renamed[k] = v`. -/
theorem applyRules_first_match (pre post : List SubstitutionRule) (r : SubstitutionRule)
    (name_id : SMap Str) (key k : Str)
    (hpre : ∀ q ∈ pre, tryRule q name_id key = .ok none)
    (hr : tryRule r name_id key = .ok (some k)) :
    applyRules (pre ++ r :: post) name_id key = .ok k
      ∧ ∀ (v : Double) (renamed : SMap Double),
        applyNameTransform (pre ++ r :: post) ⟨[(key, v)], name_id, renamed⟩
          = .ok ⟨[(key, v)], name_id, mapInsert k v renamed⟩ := by
  have h1 : applyRules (pre ++ r :: post) name_id key = .ok k := by
    rw [applyRules_skip pre _ name_id key hpre]
    simp only [applyRules, hr]
  refine ⟨h1, fun v renamed => ?_⟩
  simp only [applyNameTransform, forEach, h1]

theorem applyRules_first_match_witness :
    tryRule exampleRule2 exampleFlat.name_id "joint[0].position".toList
        = .ok (some "joint/hip/position".toList)
      ∧ applyRules ([] ++ exampleRule :: [exampleRule2]) exampleFlat.name_id
          "joint[0].position".toList = .ok "joint.hip.position".toList :=
  ⟨by decide,
    (applyRules_first_match [] [exampleRule2] exampleRule exampleFlat.name_id
      "joint[0].position".toList "joint.hip.position".toList (by decide) (by decide)).1⟩

/-- C6 (as stated, refuted): with two joints that are both named `hip`, the two entries
of `value` are written to the same key `joint.hip.position`; the call completes and
`value_renamed` has one entry, `value` has two. -/
theorem renamed_entries_merged :
    sameNameFlat.value_renamed = []
      ∧ applyNameTransform [exampleRule] sameNameFlat
        = .ok ⟨sameNameFlat.value, sameNameFlat.name_id,
            [("joint.hip.position".toList, double_2_5)]⟩
      ∧ List.length [("joint.hip.position".toList, double_2_5)] ≠ sameNameFlat.value.length := by
  decide

/-- C6 (amended): when `value_renamed` is empty before the call and the call completes,
`value_renamed` has at most as many entries as `value`, and exactly as many when the
keys of `value` are pairwise distinct and no two of them are written to the same new
key. -/
theorem applyNameTransform_entry_count (rules : List SubstitutionRule) (c c' : RosTypeFlat)
    (hempty : c.value_renamed = []) (hdone : applyNameTransform rules c = .ok c') :
    c'.value_renamed.length ≤ c.value.length
      ∧ ((c.value.map Prod.fst).Nodup →
          (∀ e1 ∈ c.value, ∀ e2 ∈ c.value,
            applyRules rules c.name_id e1.1 = applyRules rules c.name_id e2.1 → e1.1 = e2.1) →
          c'.value_renamed.length = c.value.length) := by
  obtain ⟨h1, h2⟩ := applyNameTransform_ok rules c c' hdone
  rw [h2, hempty]
  simp only []
  constructor
  · have := insertAll_length_le (c.value.map (fun e => (newKey rules c.name_id e.1, e.2))) []
    simpa using this
  · intro hnd hinj
    rw [insertAll_length _ [] ?_ (fun k _ => List.not_mem_nil _)]
    · simp
    · rw [List.map_map]
      have : (Prod.fst ∘ fun (e : Str × Double) => (newKey rules c.name_id e.1, e.2))
          = (newKey rules c.name_id) ∘ Prod.fst := rfl
      rw [this, ← List.map_map]
      refine List.Nodup.map_on ?_ hnd
      intro k1 hk1 k2 hk2 hk
      obtain ⟨e1, he1, rfl⟩ := List.mem_map.1 hk1
      obtain ⟨e2, he2, rfl⟩ := List.mem_map.1 hk2
      exact hinj e1 he1 e2 he2 (by rw [h1 e1 he1, h1 e2 he2, hk])

theorem applyNameTransform_entry_count_witness :
    exampleFlat.value_renamed = [] ∧ applyNameTransform [exampleRule] exampleFlat = .ok exampleRenamed
      ∧ exampleRenamed.value_renamed.length ≤ exampleFlat.value.length :=
  ⟨by decide, by decide,
    (applyNameTransform_entry_count [exampleRule] exampleFlat exampleRenamed (by decide)
      (by decide)).1⟩

/-! ## Malformed field lines -/

theorem dropWhile_space_append (ws rest : Str) (h : ∀ c ∈ ws, isSpace c = true) :
    (ws ++ rest).dropWhile isSpace = rest.dropWhile isSpace := by
  induction ws with
  | nil => rfl
  | cons c ws ih =>
    rw [List.cons_append, List.dropWhile_cons, if_pos (h c (List.mem_cons_self _ _))]
    exact ih (fun d hd => h d (List.mem_cons_of_mem _ hd))

theorem dropWhile_space_all (ws : Str) (h : ∀ c ∈ ws, isSpace c = true) :
    ws.dropWhile isSpace = [] := by
  have := dropWhile_space_append ws [] h
  simpa using this

theorem takeWhile_token_append (tok ws : Str) (h : ∀ c ∈ tok, isSpace c = false)
    (hws : ∀ c ∈ ws, isSpace c = true) :
    (tok ++ ws).takeWhile (fun c => !isSpace c) = tok
      ∧ (tok ++ ws).dropWhile (fun c => !isSpace c) = ws := by
  induction tok with
  | nil =>
    cases ws with
    | nil => exact ⟨rfl, rfl⟩
    | cons w ws =>
      have hw := hws w (List.mem_cons_self _ _)
      simp only [List.nil_append, List.takeWhile_cons, List.dropWhile_cons, hw, Bool.not_true,
        Bool.false_eq_true, if_false, and_self]
  | cons c tok ih =>
    have hc := h c (List.mem_cons_self _ _)
    have ih' := ih (fun d hd => h d (List.mem_cons_of_mem _ hd))
    simp only [List.cons_append, List.takeWhile_cons, List.dropWhile_cons, hc, Bool.not_false,
      if_true, ih'.1, ih'.2, and_self]

theorem nextToken_short (ws1 tok ws2 : Str) (h1 : ∀ c ∈ ws1, isSpace c = true)
    (h2 : ∀ c ∈ tok, isSpace c = false) (h3 : ∀ c ∈ ws2, isSpace c = true) :
    (nextToken (ws1 ++ tok ++ ws2)).1 = tok
      ∧ ∀ c ∈ (nextToken (ws1 ++ tok ++ ws2)).2, isSpace c = true := by
  unfold nextToken
  simp only [List.append_assoc]
  rw [dropWhile_space_append ws1 _ h1]
  cases tok with
  | nil =>
    rw [List.nil_append, dropWhile_space_all ws2 h3]
    exact ⟨rfl, fun c hc => absurd hc (List.not_mem_nil _)⟩
  | cons c tok =>
    have hc := h2 c (List.mem_cons_self _ _)
    have e : (c :: tok ++ ws2).dropWhile isSpace = c :: tok ++ ws2 := by
      rw [List.cons_append, List.dropWhile_cons, if_neg (by simp [hc])]
    rw [e]
    have := takeWhile_token_append (c :: tok) ws2 h2 h3
    rw [this.1, this.2]
    exact ⟨rfl, h3⟩

theorem nextToken_all_space (s : Str) (h : ∀ c ∈ s, isSpace c = true) :
    nextToken s = ([], []) := by
  unfold nextToken
  simp only [dropWhile_space_all s h, List.takeWhile_nil, List.dropWhile_nil]

theorem parseField_short (ws1 tok ws2 : Str) (h1 : ∀ c ∈ ws1, isSpace c = true)
    (h2 : ∀ c ∈ tok, isSpace c = false) (h3 : ∀ c ∈ ws2, isSpace c = true) :
    parseField (ws1 ++ tok ++ ws2) = ⟨strippedTypeName tok, []⟩ := by
  obtain ⟨e1, e2⟩ := nextToken_short ws1 tok ws2 h1 h2 h3
  unfold parseField
  simp only [e1]
  rw [nextToken_all_space _ e2]

theorem parseLines_field_line (line : Str) (rest : List Str) (cur : Str) (m : RosTypeMap)
    (hnc : isCommentOrEmpty line = false) (hns : isSeparator line = false) :
    parseLines (line :: rest) cur m
      = parseLines rest cur (mapModify cur
          (fun t => { t with fields := addField (parseField line) t.fields }) m) := by
  conv_lhs => unfold parseLines
  rw [if_neg (by simp [hnc]), if_neg (by simp [hns])]

/-- C11 (as stated, refuted): the one-token line `single` and the line of three spaces are
field-declaration lines that change the type map: each appends a field with an empty
field name to the current type `R`. -/
theorem short_line_appends_field :
    parseLines ["single".toList] "R".toList [("R".toList, ⟨"R".toList, []⟩)]
        = [("R".toList, ⟨"R".toList, [⟨"single".toList, []⟩]⟩)]
      ∧ parseLines ["   ".toList] "R".toList [("R".toList, ⟨"R".toList, []⟩)]
        = [("R".toList, ⟨"R".toList, [⟨[], []⟩]⟩)]
      ∧ parseRosTypeDescription "R".toList "single".toList []
        ≠ parseRosTypeDescription "R".toList [] [] := by
  decide

/-- C11 (amended): a field-declaration line with fewer than two tokens (white space, at
most one token, white space) is read as the field whose type is the namespace-stripped
token and whose name is empty. It is appended to the current type unless that type
already has a field with an empty name, in which case the type map is unchanged; the
entries of all other keys are unchanged. -/
theorem parseLines_short_line (type_map : RosTypeMap) (cur ws1 tok ws2 : Str)
    (h1 : ∀ c ∈ ws1, isSpace c = true) (h2 : ∀ c ∈ tok, isSpace c = false)
    (h3 : ∀ c ∈ ws2, isSpace c = true)
    (hnc : isCommentOrEmpty (ws1 ++ tok ++ ws2) = false)
    (hns : isSeparator (ws1 ++ tok ++ ws2) = false) :
    (∀ rest, parseLines ((ws1 ++ tok ++ ws2) :: rest) cur type_map
        = parseLines rest cur (mapModify cur
            (fun t => { t with fields := addField ⟨strippedTypeName tok, []⟩ t.fields })
            type_map))
      ∧ (∀ t, mapFind cur type_map = some t → (∀ f ∈ t.fields, f.field_name ≠ []) →
          mapFind cur (parseLines [ws1 ++ tok ++ ws2] cur type_map)
            = some ⟨t.full_name, t.fields ++ [⟨strippedTypeName tok, []⟩]⟩)
      ∧ (∀ t, mapFind cur type_map = some t → (∃ f ∈ t.fields, f.field_name = []) →
          parseLines [ws1 ++ tok ++ ws2] cur type_map = type_map)
      ∧ (∀ k, k ≠ cur →
          mapFind k (parseLines [ws1 ++ tok ++ ws2] cur type_map) = mapFind k type_map) := by
  have hstep : ∀ rest, parseLines ((ws1 ++ tok ++ ws2) :: rest) cur type_map
      = parseLines rest cur (mapModify cur
          (fun t => { t with fields := addField ⟨strippedTypeName tok, []⟩ t.fields })
          type_map) := by
    intro rest
    rw [parseLines_field_line _ rest cur type_map hnc hns, parseField_short ws1 tok ws2 h1 h2 h3]
  refine ⟨hstep, ?_, ?_, ?_⟩
  · intro t ht hno
    rw [hstep []]
    simp only [parseLines]
    rw [mapFind_mapModify, if_pos rfl, ht]
    have : addField ⟨strippedTypeName tok, []⟩ t.fields
        = t.fields ++ [⟨strippedTypeName tok, []⟩] := by
      unfold addField
      rw [if_neg]
      simp only [List.any_eq_true, decide_eq_true_eq, not_exists, not_and]
      exact fun f hf => hno f hf
    simp only [Option.map_some', this]
  · intro t ht ⟨f, hf, hfe⟩
    rw [hstep []]
    simp only [parseLines]
    apply mapModify_noop
    intro v hv
    rw [ht] at hv
    cases hv
    have : addField ⟨strippedTypeName tok, []⟩ t.fields = t.fields := by
      apply addField_noop
      simp only [List.any_eq_true, decide_eq_true_eq]
      exact ⟨f, hf, hfe⟩
    simp only [this]
  · intro k hk
    rw [hstep []]
    simp only [parseLines]
    rw [mapFind_mapModify, if_neg hk]

theorem parseLines_short_line_witness :
    isCommentOrEmpty ([] ++ "single".toList ++ " ".toList) = false
      ∧ mapFind "R".toList (parseLines [[] ++ "single".toList ++ " ".toList] "R".toList
          [("R".toList, ⟨"pkg/R".toList, []⟩)])
        = some ⟨"pkg/R".toList, [] ++ [⟨strippedTypeName "single".toList, []⟩]⟩ :=
  ⟨by decide,
    (parseLines_short_line [("R".toList, ⟨"pkg/R".toList, []⟩)] "R".toList [] "single".toList
      " ".toList (by decide) (by decide) (by decide) (by decide) (by decide)).2.1
      ⟨"pkg/R".toList, []⟩ (by decide) (by decide)⟩

/-! ## Unrecognized types -/

theorem loopFrom_noop {σ : Type} (body : Nat → σ → Outcome σ) (s : σ)
    (h : ∀ v, body v s = .ok s) : ∀ k v, loopFrom body k v s = .ok s
  | 0, _ => rfl
  | k + 1, v => by
    simp only [loopFrom, h v]
    exact loopFrom_noop body s h k (v + 1)

theorem decodeElement_unrecognized (toSec : Nat → Nat → Double) (tm : RosTypeMap)
    (recurse : Str → Str → DecodeState → Outcome DecodeState) (type key : Str)
    (st : DecodeState) (hb : isBuiltin type = false) (hk : mapFind type tm = none) :
    decodeElement toSec tm recurse type key st = .ok st := by
  unfold decodeElement
  rw [readBuiltin_none toSec type key st hb, hk]

/-- C12: unrecognized type. When the element type of `t` is none of the built-in types
and is not a key of the type map, the call leaves the flat table as it is; for a scalar
type name the cursor does not move, for an array-marked one the call consumes exactly
the four bytes of the count, whatever their value (and fails when fewer than four
bytes are left). -/
theorem buildRosFlatType_unrecognized (toSec : Nat → Nat → Double) (tm : RosTypeMap)
    (t p : Str) (c : RosTypeFlat) (fuel : Nat)
    (hb : isBuiltin (elementType t) = false) (hk : mapFind (elementType t) tm = none) :
    (ends_with t VECTOR_SYMBOL = false →
        ∀ buf, buildRosFlatType toSec tm (fuel + 1) t p (buf, c) = .ok (buf, c))
      ∧ (ends_with t VECTOR_SYMBOL = true →
        ∀ b0 b1 b2 b3 rest,
          buildRosFlatType toSec tm (fuel + 1) t p (b0 :: b1 :: b2 :: b3 :: rest, c)
            = .ok (rest, c))
      ∧ (ends_with t VECTOR_SYMBOL = true →
        ∀ buf, buf.length < 4 →
          buildRosFlatType toSec tm (fuel + 1) t p (buf, c) = .error .outOfBuffer) := by
  refine ⟨?_, ?_, ?_⟩
  · intro hs buf
    have he : elementType t = t := by unfold elementType; rw [hs]; rfl
    rw [he] at hb hk
    rw [buildRosFlatType_scalar toSec tm fuel t p _ hs]
    exact decodeElement_unrecognized toSec tm _ t p _ hb hk
  · intro hv b0 b1 b2 b3 rest
    have he : elementType t = remove_suffix t 2 := by unfold elementType; rw [hv]; rfl
    rw [he] at hb hk
    rw [buildRosFlatType_vector toSec tm fuel t p _ hv]
    have hr : ReadFromBufferAndMoveForward 4 (b0 :: b1 :: b2 :: b3 :: rest)
        = .ok (leNat [b0, b1, b2, b3], rest) := by
      unfold ReadFromBufferAndMoveForward
      rw [if_pos (by simp)]
      rfl
    simp only [hr]
    exact loopFrom_noop _ _
      (fun v => decodeElement_unrecognized toSec tm _ _ _ _ hb hk) _ 0
  · intro hv buf hlen
    rw [buildRosFlatType_vector toSec tm fuel t p _ hv]
    have hr : ReadFromBufferAndMoveForward 4 buf = .error .outOfBuffer := by
      unfold ReadFromBufferAndMoveForward
      rw [if_neg (by omega)]
    simp only [hr]

theorem buildRosFlatType_unrecognized_witness :
    isBuiltin (elementType "Ghost[]".toList) = false
      ∧ mapFind (elementType "Ghost[]".toList) exampleTypeMap = none
      ∧ buildRosFlatType (fun _ _ => ⟨0⟩) exampleTypeMap 1 "Ghost[]".toList "p".toList
          (255 :: 255 :: 255 :: 127 :: [1, 2, 3], emptyFlat) = .ok ([1, 2, 3], emptyFlat) :=
  ⟨by decide, by decide,
    (buildRosFlatType_unrecognized (fun _ _ => ⟨0⟩) exampleTypeMap "Ghost[]".toList "p".toList
      emptyFlat 0 (by decide) (by decide)).2.1 (by decide) 255 255 255 127 [1, 2, 3]⟩

/-! ## Strings and numbers go to different maps -/

theorem loopFrom_preserves {σ : Type} (body : Nat → σ → Outcome σ) (P : σ → Prop)
    (hbody : ∀ v s s', body v s = .ok s' → P s → P s') :
    ∀ (k v : Nat) (s s' : σ), loopFrom body k v s = .ok s' → P s → P s'
  | 0, _, s, s', h, hp => by
    simp only [loopFrom, Outcome.ok.injEq] at h
    exact h ▸ hp
  | k + 1, v, s, s', h, hp => by
    simp only [loopFrom] at h
    cases hb : body v s with
    | error e => rw [hb] at h; cases h
    | ok s1 =>
      rw [hb] at h
      exact loopFrom_preserves body P hbody k (v + 1) s1 s' h (hbody v s s1 hb hp)

theorem decodeElement_string_frame (toSec : Nat → Nat → Double) (tm : RosTypeMap)
    (recurse : Str → Str → DecodeState → Outcome DecodeState) (key : Str)
    (st st' : DecodeState) (h : decodeElement toSec tm recurse STRING key st = .ok st') :
    st'.2.value = st.2.value ∧ st'.2.value_renamed = st.2.value_renamed := by
  unfold decodeElement readBuiltin at h
  rw [if_neg builtin_ne.2.2.2.1, if_neg builtin_ne.2.2.2.2.1, if_neg builtin_ne.2.2.2.2.2,
    if_pos rfl] at h
  simp only [] at h
  cases hr : ReadFromBufferAndMoveForward 4 st.1 with
  | error e => rw [hr] at h; cases h
  | ok r =>
    obtain ⟨n, buf⟩ := r
    rw [hr] at h
    simp only [] at h
    split at h
    · cases h
    · split at h
      · simp only [Outcome.ok.injEq] at h
        rw [← h]
        exact ⟨rfl, rfl⟩
      · cases h

theorem decodeElement_numeric_frame (toSec : Nat → Nat → Double) (tm : RosTypeMap)
    (recurse : Str → Str → DecodeState → Outcome DecodeState) (t key : Str)
    (ht : t = FLOAT64 ∨ t = UINT32 ∨ t = TIME)
    (st st' : DecodeState) (h : decodeElement toSec tm recurse t key st = .ok st') :
    st'.2.name_id = st.2.name_id ∧ st'.2.value_renamed = st.2.value_renamed := by
  unfold decodeElement readBuiltin at h
  rcases ht with rfl | rfl | rfl
  · rw [if_pos rfl] at h
    simp only [] at h
    cases hr : ReadFromBufferAndMoveForward 8 st.1 with
    | error e => rw [hr] at h; cases h
    | ok r =>
      rw [hr] at h
      simp only [Outcome.ok.injEq] at h
      rw [← h]
      exact ⟨rfl, rfl⟩
  · rw [if_neg builtin_ne.1, if_pos rfl] at h
    simp only [] at h
    cases hr : ReadFromBufferAndMoveForward 4 st.1 with
    | error e => rw [hr] at h; cases h
    | ok r =>
      rw [hr] at h
      simp only [Outcome.ok.injEq] at h
      rw [← h]
      exact ⟨rfl, rfl⟩
  · rw [if_neg builtin_ne.2.1, if_neg builtin_ne.2.2.1, if_pos rfl] at h
    simp only [] at h
    cases hr : ReadFromBufferAndMoveForward 8 st.1 with
    | error e => rw [hr] at h; cases h
    | ok r =>
      rw [hr] at h
      simp only [Outcome.ok.injEq] at h
      rw [← h]
      exact ⟨rfl, rfl⟩

theorem buildRosFlatType_frame (toSec : Nat → Nat → Double) (tm : RosTypeMap) (t : Str)
    (P : DecodeState → Prop)
    (hread : ∀ n buf c, P (n, c) → P (buf, c))
    (hbody : ∀ recurse key st st',
      decodeElement toSec tm recurse (elementType t) key st = .ok st' → P st → P st')
    (fuel : Nat) (p : Str) (st st' : DecodeState)
    (h : buildRosFlatType toSec tm (fuel + 1) t p st = .ok st') (hp : P st) : P st' := by
  cases hv : ends_with t VECTOR_SYMBOL with
  | false =>
    have he : elementType t = t := by unfold elementType; rw [hv]; rfl
    rw [buildRosFlatType_scalar toSec tm fuel t p st hv] at h
    rw [he] at hbody
    exact hbody _ _ _ _ h hp
  | true =>
    have he : elementType t = remove_suffix t 2 := by unfold elementType; rw [hv]; rfl
    rw [buildRosFlatType_vector toSec tm fuel t p st hv] at h
    rw [he] at hbody
    cases hr : ReadFromBufferAndMoveForward 4 st.1 with
    | error e => rw [hr] at h; cases h
    | ok r =>
      obtain ⟨n, buf⟩ := r
      rw [hr] at h
      simp only [] at h
      exact loopFrom_preserves _ P (fun v s s' hb hs => hbody _ _ _ _ hb hs) _ 0 _ st' h
        (hread st.1 buf st.2 hp)

theorem elementType_scalar_or_vector (t : Str) (hs : ends_with t VECTOR_SYMBOL = false) :
    elementType t = t ∧ elementType (t ++ VECTOR_SYMBOL) = t := by
  unfold elementType
  rw [hs, ends_with_vector, remove_suffix_vector]
  exact ⟨rfl, rfl⟩

theorem decode_string (toSec : Nat → Nat → Double) (tm : RosTypeMap) (p : Str)
    (bytes rest : List Nat) (c : RosTypeFlat) (fuel : Nat) (hlen : bytes.length < 2 ^ 31) :
    buildRosFlatType toSec tm (fuel + 1) STRING p (leBytes 4 bytes.length ++ bytes ++ rest, c)
      = .ok (rest, ⟨c.value,
          mapInsert p (bytes.map (fun b => Char.ofNat (b % 256))) c.name_id,
          c.value_renamed⟩) := by
  rw [buildRosFlatType_scalar toSec tm fuel STRING p _ (by decide)]
  unfold decodeElement readBuiltin
  rw [if_neg builtin_ne.2.2.2.1, if_neg builtin_ne.2.2.2.2.1, if_neg builtin_ne.2.2.2.2.2,
    if_pos rfl]
  rw [List.append_assoc]
  simp only [read_leBytes 4 bytes.length _ (by norm_num; omega)]
  rw [toInt32_of_lt _ hlen, if_neg (by omega), if_pos (by simp)]
  rw [List.take_left, List.drop_left]

/-- C14: strings are kept out of `value`. Decoding the type `string` from a buffer that
holds a 32-bit length `L` and `L` bytes writes the text to `name_id` under the path
prefix, leaves `value` and `value_renamed` as they are and moves the cursor by `4 + L`;
whenever a decode of `string` or `string[]` completes, `value` is unchanged, and
whenever a decode of `float64`, `uint32`, `time` or an array of one of them completes,
`name_id` is unchanged. -/
theorem buildRosFlatType_string_frame (toSec : Nat → Nat → Double) (tm : RosTypeMap)
    (p : Str) (c : RosTypeFlat) (fuel : Nat) :
    (∀ bytes rest, bytes.length < 2 ^ 31 →
        buildRosFlatType toSec tm (fuel + 1) STRING p
            (leBytes 4 bytes.length ++ bytes ++ rest, c)
          = .ok (rest, ⟨c.value,
              mapInsert p (bytes.map (fun b => Char.ofNat (b % 256))) c.name_id,
              c.value_renamed⟩)
        ∧ (leBytes 4 bytes.length ++ bytes ++ rest).drop (4 + bytes.length) = rest)
      ∧ (∀ es rest, valsHaveType tm STRING es = true → es.length < 2 ^ 31 →
        buildRosFlatType toSec tm (fuel + 1) (STRING ++ VECTOR_SYMBOL) p
            (leBytes 4 es.length ++ encodeVals es ++ rest, c)
          = .ok (rest, writeAll (flattenVals toSec p 0 es) c)
        ∧ (flattenVals toSec p 0 es).map Prod.fst
          = (List.range es.length).map (fun i => p ++ LBRACKET ++ lexical_cast i ++ RBRACKET)
        ∧ (writeAll (flattenVals toSec p 0 es) c).value = c.value)
      ∧ (∀ t, t = STRING ∨ t = STRING ++ VECTOR_SYMBOL → ∀ buf buf' c',
          buildRosFlatType toSec tm (fuel + 1) t p (buf, c) = .ok (buf', c') →
          c'.value = c.value ∧ c'.value_renamed = c.value_renamed)
      ∧ (∀ t e, (e = FLOAT64 ∨ e = UINT32 ∨ e = TIME) → (t = e ∨ t = e ++ VECTOR_SYMBOL) →
          ∀ buf buf' c', buildRosFlatType toSec tm (fuel + 1) t p (buf, c) = .ok (buf', c') →
          c'.name_id = c.name_id ∧ c'.value_renamed = c.value_renamed) := by
  have hframe : ∀ t, t = STRING ∨ t = STRING ++ VECTOR_SYMBOL → ∀ buf buf' c',
      buildRosFlatType toSec tm (fuel + 1) t p (buf, c) = .ok (buf', c') →
      c'.value = c.value ∧ c'.value_renamed = c.value_renamed := ?_
  refine ⟨?_, ?_, hframe, ?_⟩
  · intro bytes rest hlen
    refine ⟨decode_string toSec tm p bytes rest c fuel hlen, ?_⟩
    rw [List.append_assoc, ← List.drop_drop]
    rw [List.drop_left' (leBytes_length 4 _), List.drop_left]
  · intro es rest hty hlen
    have hdec := decode_array toSec tm STRING es hty hlen p rest c fuel
      (by rw [depthVals_builtin tm STRING (by decide) es hty]; exact Nat.zero_le _)
    have hkeys := flattenVals_builtin_keys toSec tm STRING p (by decide) es 0 hty
    rw [← List.range_eq_range'] at hkeys
    exact ⟨hdec, hkeys, (hframe _ (Or.inr rfl) _ _ _ hdec).1⟩
  · intro t e he ht buf buf' c' h
    have hs : ends_with e VECTOR_SYMBOL = false := by
      rcases he with rfl | rfl | rfl <;> decide
    have het : elementType t = e := by
      rcases ht with ht | ht
      · rw [ht]; exact (elementType_scalar_or_vector e hs).1
      · rw [ht]; exact (elementType_scalar_or_vector e hs).2
    refine buildRosFlatType_frame toSec tm t
      (fun st => st.2.name_id = c.name_id ∧ st.2.value_renamed = c.value_renamed)
      (fun _ _ _ hp => hp) ?_ fuel p (buf, c) (buf', c') h ⟨rfl, rfl⟩
    intro recurse key st st' hd hp
    rw [het] at hd
    have := decodeElement_numeric_frame toSec tm recurse e key he st st' hd
    exact ⟨this.1.trans hp.1, this.2.trans hp.2⟩
  · intro t ht buf buf' c' h
    have he : elementType t = STRING := by
      rcases ht with rfl | rfl
      · exact (elementType_scalar_or_vector STRING (by decide)).1
      · exact (elementType_scalar_or_vector STRING (by decide)).2
    refine buildRosFlatType_frame toSec tm t
      (fun st => st.2.value = c.value ∧ st.2.value_renamed = c.value_renamed)
      (fun _ _ _ hp => hp) ?_ fuel p (buf, c) (buf', c') h ⟨rfl, rfl⟩
    intro recurse key st st' hd hp
    rw [he] at hd
    have := decodeElement_string_frame toSec tm recurse key st st' hd
    exact ⟨this.1.trans hp.1, this.2.trans hp.2⟩

theorem buildRosFlatType_string_frame_witness :
    buildRosFlatType (fun _ _ => ⟨0⟩) exampleTypeMap 1 STRING "id".toList
        (leBytes 4 [104, 105].length ++ [104, 105] ++ [9], exampleFlat)
      = .ok ([9], ⟨exampleFlat.value,
          mapInsert "id".toList ([104, 105].map (fun b => Char.ofNat (b % 256)))
            exampleFlat.name_id, exampleFlat.value_renamed⟩) :=
  ((buildRosFlatType_string_frame (fun _ _ => ⟨0⟩) exampleTypeMap "id".toList exampleFlat 0).1
    [104, 105] [9] (by decide)).1

/-! ## Namespace stripping -/

theorem lastSlash_none (line : Str) (h : '/' ∉ line) : ∀ n, lastSlash line n = none
  | 0 => rfl
  | n + 1 => by
    have hn : line.get? n ≠ some '/' := by
      intro e
      exact h (List.get?_mem e)
    simp only [lastSlash, hn, if_false]
    exact lastSlash_none line h n

theorem lastSlash_split (a b : Str) (h : '/' ∉ b) :
    ∀ k, k ≤ b.length → lastSlash (a ++ '/' :: b) (a.length + 1 + k) = some a.length
  | 0, _ => by
    have : (a ++ '/' :: b).get? a.length = some '/' := by
      simp only [List.get?_eq_getElem?]
      rw [List.getElem?_append_right (le_refl _)]
      simp
    simp only [Nat.add_zero, lastSlash, this, if_true]
  | k + 1, hk => by
    have e : a.length + 1 + (k + 1) = (a.length + 1 + k) + 1 := by omega
    have hget : (a ++ '/' :: b).get? (a.length + 1 + k) = b.get? k := by
      have : a.length + 1 + k = (a ++ ['/']).length + k := by simp
      rw [this, show a ++ '/' :: b = (a ++ ['/']) ++ b by simp]
      simp only [List.get?_eq_getElem?]
      rw [List.getElem?_append_right (by omega)]
      simp
    have hn : (a ++ '/' :: b).get? (a.length + 1 + k) ≠ some '/' := by
      rw [hget]
      intro e
      exact h (List.get?_mem e)
    rw [e, lastSlash, if_neg hn]
    exact lastSlash_split a b h k (by omega)

theorem strippedTypeName_split (a b : Str) (h : '/' ∉ b) :
    strippedTypeName (a ++ '/' :: b) = b := by
  unfold strippedTypeName
  have hl : (a ++ '/' :: b).length = a.length + 1 + b.length := by
    simp only [List.length_append, List.length_cons]; omega
  rw [hl, lastSlash_split a b h b.length (le_refl _)]
  simp only []
  rw [show a ++ '/' :: b = (a ++ ['/']) ++ b by simp]
  exact List.drop_left' (by simp)

theorem strippedTypeName_plain (s : Str) (h : '/' ∉ s) : strippedTypeName s = s := by
  unfold strippedTypeName
  rw [lastSlash_none s h]

theorem split_last_slash : ∀ (s : Str), '/' ∈ s → ∃ a b, s = a ++ '/' :: b ∧ '/' ∉ b
  | [], h => absurd h (List.not_mem_nil _)
  | c :: s, h => by
    by_cases hs : '/' ∈ s
    · obtain ⟨a, b, hab, hb⟩ := split_last_slash s hs
      exact ⟨c :: a, b, by rw [hab]; rfl, hb⟩
    · rcases List.mem_cons.1 h with h | h
      · exact ⟨[], s, by rw [← h]; rfl, hs⟩
      · exact absurd h hs

/-- C15: `strippedTypeName`. The result is what follows the last `/` of the string, and
the string itself when it holds no `/`; hence the result holds no `/`, the string ends
with the result, and stripping twice is stripping once. -/
theorem strippedTypeName_spec (s : Str) :
    (∀ a b, s = a ++ '/' :: b → '/' ∉ b → strippedTypeName s = b)
      ∧ ('/' ∉ s → strippedTypeName s = s)
      ∧ '/' ∉ strippedTypeName s
      ∧ strippedTypeName s <:+ s
      ∧ strippedTypeName (strippedTypeName s) = strippedTypeName s := by
  have hfree : '/' ∉ strippedTypeName s := by
    by_cases h : '/' ∈ s
    · obtain ⟨a, b, hab, hb⟩ := split_last_slash s h
      rw [hab, strippedTypeName_split a b hb]
      exact hb
    · rw [strippedTypeName_plain s h]
      exact h
  refine ⟨fun a b hab hb => by rw [hab]; exact strippedTypeName_split a b hb,
    strippedTypeName_plain s, hfree, ?_, strippedTypeName_plain _ hfree⟩
  by_cases h : '/' ∈ s
  · obtain ⟨a, b, hab, hb⟩ := split_last_slash s h
    rw [hab, strippedTypeName_split a b hb]
    exact ⟨a ++ ['/'], by simp⟩
  · rw [strippedTypeName_plain s h]

theorem strippedTypeName_spec_witness :
    strippedTypeName "geometry_msgs/Pose".toList = "Pose".toList :=
  (strippedTypeName_spec "geometry_msgs/Pose".toList).1 "geometry_msgs".toList "Pose".toList
    (by decide) (by decide)

/-! ## Comment and empty lines -/

theorem skipSpaces_spec (line : Str) :
    ∀ (fuel index : Nat), line.length - 1 ≤ index + fuel → index ≤ line.length - 1 →
      (∀ j < index, line.get? j = some ' ') →
      skipSpaces line fuel index ≤ line.length - 1
        ∧ (∀ j < skipSpaces line fuel index, line.get? j = some ' ')
        ∧ (skipSpaces line fuel index < line.length - 1 →
            line.get? (skipSpaces line fuel index) ≠ some ' ')
  | 0, index, h1, h2, h3 => by
    simp only [skipSpaces]
    exact ⟨h2, h3, fun h => by omega⟩
  | fuel + 1, index, h1, h2, h3 => by
    simp only [skipSpaces]
    split
    · rename_i hc
      refine skipSpaces_spec line fuel (index + 1) (by omega) (by omega) ?_
      intro j hj
      by_cases hji : j < index
      · exact h3 j hji
      · have : j = index := by omega
        rw [this]; exact hc.2
    · rename_i hc
      refine ⟨h2, h3, fun h hs => hc ⟨h, hs⟩⟩

theorem spaces_split : ∀ (line : Str), ∃ k tail, line = List.replicate k ' ' ++ tail
    ∧ (∀ c, tail.head? = some c → c ≠ ' ') ∧ line.dropWhile (fun c => c = ' ') = tail
  | [] => ⟨0, [], rfl, fun c h => by simp at h, rfl⟩
  | c :: line => by
    by_cases hc : c = ' '
    · obtain ⟨k, tail, h1, h2, h3⟩ := spaces_split line
      refine ⟨k + 1, tail, ?_, h2, ?_⟩
      · rw [hc, h1]; rfl
      · rw [List.dropWhile_cons, if_pos (by simp [hc]), h3]
    · refine ⟨0, c :: line, rfl, ?_, ?_⟩
      · intro d hd
        simp only [List.head?_cons, Option.some.injEq] at hd
        rw [← hd]; exact hc
      · rw [List.dropWhile_cons, if_neg (by simp [hc])]

theorem get_replicate_append (k : Nat) (tail : Str) :
    (∀ j < k, (List.replicate k ' ' ++ tail).get? j = some ' ')
      ∧ (List.replicate k ' ' ++ tail).get? k = tail.head? := by
  constructor
  · intro j hj
    simp only [List.get?_eq_getElem?]
    rw [List.getElem?_append_left (by simpa using hj)]
    simp [hj]
  · simp only [List.get?_eq_getElem?]
    rw [List.getElem?_append_right (by simp)]
    cases tail <;> simp

theorem isCommentOrEmpty_iff (line : Str) :
    isCommentOrEmpty line = true
      ↔ line = [] ∨ (line.dropWhile (fun c => c = ' ')).head? = some '#' := by
  cases hl : line with
  | nil => simp [isCommentOrEmpty]
  | cons c0 rest =>
    rw [← hl]
    have hne : line ≠ [] := by rw [hl]; exact List.cons_ne_nil _ _
    have hlen : 0 < line.length := List.length_pos.2 hne
    obtain ⟨k, tail, h1, h2, h3⟩ := spaces_split line
    obtain ⟨hr1, hr2, hr3⟩ := skipSpaces_spec line line.length 0 (by omega) (by omega)
      (fun j hj => absurd hj (Nat.not_lt_zero _))
    have hget := get_replicate_append k tail
    rw [← h1] at hget
    have hlen2 : line.length = k + tail.length := by
      rw [h1]; simp
    unfold isCommentOrEmpty
    have he : line.isEmpty = false := by
      rw [hl]; rfl
    rw [he, h3]
    simp only [Bool.false_eq_true, if_false, decide_eq_true_eq, hne, false_or]
    cases ht : tail with
    | nil =>
      rw [ht] at hlen2
      simp only [List.length_nil, Nat.add_zero] at hlen2
      have : line.get? (skipSpaces line line.length 0) = some ' ' :=
        hget.1 _ (by omega)
      rw [this]
      simp
    | cons c t =>
      rw [ht] at h2 hget hlen2
      simp only [List.length_cons] at hlen2
      have hc : c ≠ ' ' := h2 c rfl
      have hk : line.get? k = some c := hget.2
      have hrk : skipSpaces line line.length 0 = k := by
        rcases Nat.lt_trichotomy (skipSpaces line line.length 0) k with h | h | h
        · exact absurd (hget.1 _ h) (hr3 (by omega))
        · exact h
        · have := hr2 k h
          rw [hk] at this
          exact absurd (Option.some.inj this) hc
      rw [hrk, hk]
      simp

/-- C16: `isCommentOrEmpty`. The result is true exactly when the line is empty or its
first character other than a space is `#`; a line that consists of one or more spaces
is not ignored, and on a non-empty line the scan index ends inside the line. -/
theorem isCommentOrEmpty_spec (line : Str) :
    (isCommentOrEmpty line = true
        ↔ line = [] ∨ (line.dropWhile (fun c => c = ' ')).head? = some '#')
      ∧ (∀ k, isCommentOrEmpty (List.replicate (k + 1) ' ') = false)
      ∧ (∀ c rest, skipSpaces (c :: rest) (c :: rest).length 0 < (c :: rest).length) := by
  refine ⟨isCommentOrEmpty_iff line, ?_, ?_⟩
  · intro k
    cases h : isCommentOrEmpty (List.replicate (k + 1) ' ') with
    | false => rfl
    | true =>
      rcases (isCommentOrEmpty_iff _).1 h with h' | h'
      · simp [List.replicate_succ] at h'
      · have : (List.replicate (k + 1) ' ').dropWhile (fun c => decide (c = ' ')) = [] := by
          rw [List.dropWhile_eq_nil_iff]
          intro c hc
          simp only [List.mem_replicate] at hc
          simp [hc.2]
        rw [this] at h'
        simp at h'
  · intro c rest
    have := (skipSpaces_spec (c :: rest) (c :: rest).length 0 (by omega) (by omega)
      (fun j hj => absurd hj (Nat.not_lt_zero _))).1
    simp only [List.length_cons] at this ⊢
    omega

/-! ## Rule construction -/

theorem indexOf_marker (a b : Str) (h : '#' ∉ a) :
    (a ++ '#' :: b).indexOf? '#' = some a.length := by
  induction a with
  | nil => simp [List.indexOf?, List.findIdx?_cons]
  | cons c a ih =>
    have hc : c ≠ '#' := fun e => h (e ▸ List.mem_cons_self _ _)
    have ih' := ih (fun e => h (List.mem_cons_of_mem _ e))
    simp only [List.indexOf?] at ih' ⊢
    rw [List.cons_append, List.findIdx?_cons]
    simp only [beq_iff_eq, hc, if_false]
    rw [List.findIdx?_succ, ih']
    rfl

theorem indexOf_no_marker (t : Str) (h : '#' ∉ t) : t.indexOf? '#' = none := by
  simp only [List.indexOf?, List.findIdx?_eq_none_iff]
  intro c hc
  rw [beq_eq_false_iff_ne]
  intro e
  exact h (e ▸ hc)

theorem splitTemplate_marker (a b : Str) (h : '#' ∉ a) :
    splitTemplate (a ++ '#' :: b) = (a, b) := by
  unfold splitTemplate
  rw [indexOf_marker a b h]
  simp only [List.take_left, Prod.mk.injEq, true_and]
  rw [show a ++ '#' :: b = (a ++ ['#']) ++ b by simp]
  exact List.drop_left' (by simp)

theorem split_first_marker : ∀ (t : Str), '#' ∈ t → ∃ a b, t = a ++ '#' :: b ∧ '#' ∉ a
  | [], h => absurd h (List.not_mem_nil _)
  | c :: t, h => by
    by_cases hc : c = '#'
    · exact ⟨[], t, by rw [hc]; rfl, List.not_mem_nil _⟩
    · rcases List.mem_cons.1 h with h | h
      · exact absurd h.symm hc
      · obtain ⟨a, b, hab, ha⟩ := split_first_marker t h
        refine ⟨c :: a, b, by rw [hab]; rfl, ?_⟩
        intro hm
        rcases List.mem_cons.1 hm with hm | hm
        · exact hc hm.symm
        · exact ha hm

/-- C17: rule construction. A template that contains the marker `#` is split at its
first marker: prefix, marker and suffix give back the template and the prefix holds no
marker; when the template holds exactly one marker the suffix holds none either. The
constructor splits each of its three templates in this way. -/
theorem splitTemplate_spec (template : Str) (h : '#' ∈ template) :
    (splitTemplate template).1 ++ '#' :: (splitTemplate template).2 = template
      ∧ '#' ∉ (splitTemplate template).1
      ∧ (template.count '#' = 1 → '#' ∉ (splitTemplate template).2)
      ∧ (∀ a b, template = a ++ '#' :: b → '#' ∉ a → splitTemplate template = (a, b))
      ∧ ∀ name_location substitution,
          ((SubstitutionRule.make template name_location substitution).pattern_pre,
            (SubstitutionRule.make template name_location substitution).pattern_suf)
            = splitTemplate template
          ∧ ((SubstitutionRule.make name_location template substitution).location_pre,
            (SubstitutionRule.make name_location template substitution).location_suf)
            = splitTemplate template
          ∧ ((SubstitutionRule.make name_location substitution template).substitution_pre,
            (SubstitutionRule.make name_location substitution template).substitution_suf)
            = splitTemplate template := by
  obtain ⟨a, b, hab, ha⟩ := split_first_marker template h
  have hs := splitTemplate_marker a b ha
  rw [← hab] at hs
  refine ⟨by rw [hs]; exact hab.symm, by rw [hs]; exact ha, ?_, ?_, ?_⟩
  · intro hcount
    rw [hs]
    simp only []
    rw [hab, List.count_append, List.count_cons_self, List.count_eq_zero_of_not_mem ha] at hcount
    intro hb
    have := List.count_pos_iff.2 hb
    omega
  · intro a' b' hab' ha'
    rw [hab']
    exact splitTemplate_marker a' b' ha'
  · intro _ _
    exact ⟨rfl, rfl, rfl⟩

theorem splitTemplate_spec_witness :
    '#' ∈ "[#].name".toList
      ∧ splitTemplate "[#].name".toList = ("[".toList, "].name".toList) :=
  ⟨by decide, (splitTemplate_spec "[#].name".toList (by decide)).2.2.2.1 "[".toList
    "].name".toList (by decide) (by decide)⟩

/-! ## Bounds of the digit scan -/

theorem search_le (needle : Str) : ∀ (hay : Str), search needle hay ≤ hay.length
  | [] => Nat.le_refl _
  | c :: rest => by
    simp only [search, List.length_cons]
    split
    · omega
    · have := search_le needle rest
      omega

theorem search_first (needle : Str) :
    ∀ (hay : Str), search needle hay < hay.length →
      needle <+: hay.drop (search needle hay)
        ∧ ∀ i < search needle hay, ¬ needle <+: hay.drop i
  | [], h => absurd h (Nat.not_lt_zero _)
  | c :: rest, h => by
    simp only [search] at h ⊢
    split
    · rename_i hp
      exact ⟨by simpa using List.isPrefixOf_iff_prefix.1 hp, fun i hi => absurd hi (Nat.not_lt_zero _)⟩
    · rename_i hp
      rw [if_neg hp] at h
      simp only [List.length_cons, Nat.add_lt_add_iff_right] at h
      obtain ⟨h1, h2⟩ := search_first needle rest h
      refine ⟨by simpa using h1, ?_⟩
      intro i hi
      cases i with
      | zero =>
        simp only [List.drop_zero]
        intro hpre
        exact hp ( List.isPrefixOf_iff_prefix.2 hpre)
      | succ i =>
        simp only [List.drop_succ_cons]
        exact h2 i (by omega)

theorem find_some (key needle : Str) (A : Nat) (h : find key needle = some A) :
    A < key.length ∧ needle <+: key.drop A ∧ ∀ i < A, ¬ needle <+: key.drop i := by
  unfold find at h
  split at h
  · cases h
  · rename_i hne
    simp only [Option.some.injEq] at h
    have hlt : search needle key < key.length :=
      Nat.lt_of_le_of_ne (search_le needle key) hne
    rw [← h]
    exact ⟨hlt, search_first needle key hlt⟩

theorem digitRun_all_digits : ∀ (s : Str), (∀ c ∈ s, c.isDigit = true) →
    digitRun s = .error .outOfRange
  | [], _ => rfl
  | c :: s, h => by
    rw [digitRun, if_pos (h c (List.mem_cons_self _ _)),
      digitRun_all_digits s (fun d hd => h d (List.mem_cons_of_mem _ hd))]

theorem digitRun_stops : ∀ (s : Str), ¬ (∀ c ∈ s, c.isDigit = true) →
    ∃ d, digitRun s = .ok d ∧ d < s.length ∧ (∀ c ∈ s.take d, c.isDigit = true)
      ∧ ∃ c, s.get? d = some c ∧ c.isDigit = false
  | [], h => absurd (fun c hc => absurd hc (List.not_mem_nil _)) h
  | c :: s, h => by
    by_cases hc : c.isDigit = true
    · have hs : ¬ (∀ d ∈ s, d.isDigit = true) := by
        intro hall
        apply h
        intro d hd
        rcases List.mem_cons.1 hd with hd | hd
        · rw [hd]; exact hc
        · exact hall d hd
      obtain ⟨d, h1, h2, h3, c', h4, h5⟩ := digitRun_stops s hs
      refine ⟨d + 1, ?_, by simpa using h2, ?_, c', by simpa using h4, h5⟩
      · rw [digitRun, if_pos hc, h1]
      · intro x hx
        simp only [List.take_succ_cons, List.mem_cons] at hx
        rcases hx with hx | hx
        · rw [hx]; exact hc
        · exact h3 x hx
    · refine ⟨0, ?_, by simp, ?_, c, rfl, by simpa using hc⟩
      · rw [digitRun, if_neg hc]
      · intro x hx
        simp at hx

theorem tryRule_outOfRange_iff (rule : SubstitutionRule) (name_id : SMap Str) (key : Str)
    (A : Nat) (h : find key rule.pattern_pre = some A) :
    tryRule rule name_id key = .error .outOfRange
      ↔ digitRun (key.drop (A + rule.pattern_pre.length)) = .error .outOfRange := by
  unfold tryRule
  rw [h]
  simp only []
  cases hd : digitRun (key.drop (A + rule.pattern_pre.length)) with
  | error e => simp
  | ok d =>
    simp only []
    constructor
    · intro hr
      exfalso
      split at hr
      · split at hr
        · cases hr
        · split at hr
          · split at hr
            · cases hr
            · cases hr
          · cases hr
      · cases hr
    · intro hr
      cases hr

theorem digitScan_at (rule : SubstitutionRule) (name_id : SMap Str) (key : Str) (A : Nat)
    (h : find key rule.pattern_pre = some A) :
    (A < key.length ∧ rule.pattern_pre <+: key.drop A
        ∧ ∀ i < A, ¬ rule.pattern_pre <+: key.drop i)
      ∧ (tryRule rule name_id key = .error .outOfRange
          ↔ ∀ c ∈ key.drop (A + rule.pattern_pre.length), c.isDigit = true)
      ∧ (key.drop (A + rule.pattern_pre.length) = [] →
          tryRule rule name_id key = .error .outOfRange)
      ∧ (¬ (∀ c ∈ key.drop (A + rule.pattern_pre.length), c.isDigit = true) →
          ∃ d, digitRun (key.drop (A + rule.pattern_pre.length)) = .ok d
            ∧ A + rule.pattern_pre.length + d < key.length
            ∧ (∀ c ∈ (key.drop (A + rule.pattern_pre.length)).take d, c.isDigit = true)
            ∧ ∃ c, key.get? (A + rule.pattern_pre.length + d) = some c
              ∧ c.isDigit = false) := by
  have hiff := tryRule_outOfRange_iff rule name_id key A h
  have hmain : tryRule rule name_id key = .error .outOfRange
      ↔ ∀ c ∈ key.drop (A + rule.pattern_pre.length), c.isDigit = true := by
    rw [hiff]
    constructor
    · intro he
      by_contra hn
      obtain ⟨d, hd, _⟩ := digitRun_stops _ hn
      rw [hd] at he
      cases he
    · exact digitRun_all_digits _
  refine ⟨find_some key rule.pattern_pre A h, hmain, ?_, ?_⟩
  · intro he
    rw [hmain, he]
    intro c hc
    exact absurd hc (List.not_mem_nil _)
  · intro hn
    obtain ⟨d, h1, h2, h3, c, h4, h5⟩ := digitRun_stops _ hn
    refine ⟨d, h1, ?_, h3, c, ?_, h5⟩
    · simp only [List.length_drop] at h2
      omega
    · rw [← h4]
      simp only [List.get?_eq_getElem?, List.getElem?_drop]

theorem find_first (needle P rest : Str)
    (hfirst : ∀ i < P.length, ¬ needle <+: (P ++ needle ++ rest).drop i)
    (hne : P ++ needle ++ rest ≠ []) :
    find (P ++ needle ++ rest) needle = some P.length
      ∧ P.length < (P ++ needle ++ rest).length := by
  have hsearch : search needle (P ++ needle ++ rest) = P.length := by
    apply search_eq
    · simp only [List.length_append]; omega
    · exact hfirst
    · rw [List.append_assoc, List.drop_left]
      exact List.prefix_append _ _
  have hlt : P.length < (P ++ needle ++ rest).length := by
    by_contra hge
    simp only [List.length_append, not_lt] at hge
    have h1 : needle = [] := List.length_eq_zero.1 (by omega)
    have h2 : rest = [] := List.length_eq_zero.1 (by omega)
    subst h1 h2
    simp only [List.append_nil, ne_eq] at hne hfirst
    have hpos : 0 < P.length := List.length_pos.2 hne
    exact hfirst 0 hpos (List.nil_prefix)
  refine ⟨?_, hlt⟩
  unfold find
  rw [hsearch, if_neg (Nat.ne_of_lt hlt)]

theorem tryRule_empty_key (rule : SubstitutionRule) (name_id : SMap Str) :
    tryRule rule name_id [] = .ok none := by
  unfold tryRule find
  simp only [search, List.length_nil, if_true]

/-- C18 (as stated, refuted): the empty pattern prefix of the rule `("#.", "#.name", "#/")`
occurs in the empty key and nothing follows it, so every character after the occurrence
is a digit; yet the rule attempt is a non-match and not an out-of-range failure, since
the search reports no position in an empty key. The empty key is written by decoding
the type `float64` with an empty path prefix, and the renaming of that table completes. -/
theorem digitScan_empty_key_refuted :
    (∃ a b : Str, ([] : Str) = a ++ emptyPrefixRule.pattern_pre ++ b)
      ∧ (∀ c ∈ ([] : Str).drop (0 + emptyPrefixRule.pattern_pre.length), c.isDigit = true)
      ∧ find [] emptyPrefixRule.pattern_pre = none
      ∧ tryRule emptyPrefixRule [] [] = .ok none
      ∧ tryRule emptyPrefixRule [] [] ≠ .error .outOfRange
      ∧ buildRosFlatType (fun _ _ => ⟨0⟩) [] 1 FLOAT64 [] (leBytes 8 double_1_5.bits, emptyFlat)
        = .ok ([], ⟨[([], double_1_5)], [], []⟩)
      ∧ applyNameTransform [emptyPrefixRule] ⟨[([], double_1_5)], [], []⟩
        = .ok ⟨[([], double_1_5)], [], [([], double_1_5)]⟩ :=
  ⟨⟨[], [], by decide⟩, by decide, by decide, by decide, by decide, by decide, by decide⟩

/-- C18 (amended): bounds of the digit scan. Let the pattern prefix occur in a key that
is not empty, its first occurrence being after `P` and before `rest`. Then the search
finds it at that position, inside the key, and the rule attempt fails with an
out-of-range error exactly when every character of `rest` is a digit, which includes
the case that `rest` is empty; otherwise the scan stops after `d` digits at an index
inside the key that holds a character that is not a digit. For the empty key every rule
is a non-match. -/
theorem digitScan_bounds (rule : SubstitutionRule) (name_id : SMap Str) (P rest : Str)
    (hfirst : ∀ i < P.length, ¬ rule.pattern_pre <+: (P ++ rule.pattern_pre ++ rest).drop i)
    (hne : P ++ rule.pattern_pre ++ rest ≠ []) :
    (find (P ++ rule.pattern_pre ++ rest) rule.pattern_pre = some P.length
        ∧ P.length < (P ++ rule.pattern_pre ++ rest).length)
      ∧ (tryRule rule name_id (P ++ rule.pattern_pre ++ rest) = .error .outOfRange
          ↔ ∀ c ∈ rest, c.isDigit = true)
      ∧ (rest = [] →
          tryRule rule name_id (P ++ rule.pattern_pre ++ rest) = .error .outOfRange)
      ∧ (¬ (∀ c ∈ rest, c.isDigit = true) →
          ∃ d, digitRun rest = .ok d
            ∧ P.length + rule.pattern_pre.length + d < (P ++ rule.pattern_pre ++ rest).length
            ∧ (∀ c ∈ rest.take d, c.isDigit = true)
            ∧ ∃ c, (P ++ rule.pattern_pre ++ rest).get? (P.length + rule.pattern_pre.length + d)
                = some c
              ∧ c.isDigit = false)
      ∧ (∀ other : SubstitutionRule, tryRule other name_id [] = .ok none) := by
  have hfind := find_first rule.pattern_pre P rest hfirst hne
  have hdrop : (P ++ rule.pattern_pre ++ rest).drop (P.length + rule.pattern_pre.length)
      = rest := by
    rw [← List.length_append, List.drop_left]
  have h := digitScan_at rule name_id (P ++ rule.pattern_pre ++ rest) P.length hfind.1
  rw [hdrop] at h
  exact ⟨hfind, h.2.1, h.2.2.1, h.2.2.2, fun other => tryRule_empty_key other name_id⟩

theorem digitScan_bounds_witness :
    "joint[12".toList = "joint".toList ++ exampleRule.pattern_pre ++ "12".toList
      ∧ find "joint[12".toList exampleRule.pattern_pre = some 5
      ∧ tryRule exampleRule [] "joint[12".toList = .error .outOfRange
      ∧ tryRule exampleRule [] "joint[12]".toList ≠ .error .outOfRange :=
  ⟨by decide,
    (digitScan_bounds exampleRule [] "joint".toList "12".toList (by decide) (by decide)).1.1,
    (digitScan_bounds exampleRule [] "joint".toList "12".toList (by decide)
      (by decide)).2.1.2 (by decide),
    fun h => absurd ((digitScan_bounds exampleRule [] "joint".toList "12]".toList (by decide)
      (by decide)).2.1.1 h) (by decide)⟩
/-! ## One position per rule -/

/-- C19: a rule is tried at one position only. When the search finds the pattern prefix
at its first position `A`, the digit scan passes `d` digits there and either the
pattern suffix does not follow or the cross-reference key built from that position is
not in `name_id`, the rule ends without a substitution, whatever follows in the key.
Example: in `a[x].b[0].c` the second `[` starts `[0].` and `a[x].b[0].name` is in
`name_id`, yet the rule `("[#].", "[#].name", ".#.")` fails at the first `[` and the
entry is passed through unchanged. -/
theorem tryRule_first_position_only (rule : SubstitutionRule) (name_id : SMap Str)
    (key : Str) (A d : Nat)
    (hfind : find key rule.pattern_pre = some A)
    (hrun : digitRun (key.drop (A + rule.pattern_pre.length)) = .ok d)
    (hfail : strncmpEq rule.pattern_suf.length
          (key.drop (A + rule.pattern_pre.length + d)) rule.pattern_suf = false
      ∨ ((key.take A ++ rule.location_pre ++ (key.drop (A + rule.pattern_pre.length)).take d
            ++ rule.location_suf).length ≤ 255
        ∧ mapFind (cstr (key.take A ++ rule.location_pre
            ++ (key.drop (A + rule.pattern_pre.length)).take d ++ rule.location_suf)) name_id
          = none)) :
    tryRule rule name_id key = .ok none
      ∧ (exampleRule.pattern_pre ++ "0".toList ++ exampleRule.pattern_suf
          <+: "a[x].b[0].c".toList.drop 6
        ∧ mapFind ("a[x].b[0].c".toList.take 6 ++ exampleRule.location_pre ++ "0".toList
            ++ exampleRule.location_suf) twoBracketFlat.name_id = some "hip".toList
        ∧ find "a[x].b[0].c".toList exampleRule.pattern_pre = some 1
        ∧ tryRule exampleRule twoBracketFlat.name_id "a[x].b[0].c".toList = .ok none
        ∧ applyNameTransform [exampleRule] twoBracketFlat
          = .ok ⟨twoBracketFlat.value, twoBracketFlat.name_id,
              [("a[x].b[0].c".toList, double_1_5)]⟩) := by
  refine ⟨?_, by decide⟩
  unfold tryRule
  rw [hfind]
  simp only []
  rw [hrun]
  simp only [Nat.add_sub_cancel_left]
  rcases hfail with hs | ⟨hl, hm⟩
  · rw [hs]
    simp
  · split
    · rw [if_neg (by omega), hm]
    · rfl

theorem tryRule_first_position_only_witness :
    find "a[x].b[0].c".toList exampleRule.pattern_pre = some 1
      ∧ digitRun ("a[x].b[0].c".toList.drop (1 + exampleRule.pattern_pre.length)) = .ok 0
      ∧ tryRule exampleRule twoBracketFlat.name_id "a[x].b[0].c".toList = .ok none :=
  ⟨by decide, by decide,
    (tryRule_first_position_only exampleRule twoBracketFlat.name_id "a[x].b[0].c".toList 1 0
      (by decide) (by decide) (Or.inl (by decide))).1⟩

/-! ## Section attribution -/

theorem isSpace_ne_marker (c : Char) (h : isSpace c = true) : c ≠ '#' ∧ c ≠ '=' := by
  constructor
  · intro e; rw [e] at h; exact absurd h (by decide)
  · intro e; rw [e] at h; exact absurd h (by decide)

theorem dropWhile_blank_head (ws rest : Str) (c0 : Char) (hws : ∀ c ∈ ws, c ≠ '#')
    (h0 : c0 ≠ ' ') (h1 : c0 ≠ '#') :
    ((ws ++ c0 :: rest).dropWhile (fun c => c = ' ')).head? ≠ some '#' := by
  induction ws with
  | nil =>
    rw [List.nil_append, List.dropWhile_cons, if_neg (by simpa using h0)]
    simpa using h1
  | cons w ws ih =>
    rw [List.cons_append, List.dropWhile_cons]
    split
    · exact ih (fun c hc => hws c (List.mem_cons_of_mem _ hc))
    · simpa using hws w (List.mem_cons_self _ _)

theorem all_space_iff (ws : Str) : ws.all isSpace = true ↔ ∀ c ∈ ws, isSpace c = true := by
  simp only [List.all_eq_true]

theorem all_token_iff (tok : Str) :
    tok.all (fun c => !isSpace c) = true ↔ ∀ c ∈ tok, isSpace c = false := by
  simp only [List.all_eq_true, Bool.not_eq_true']

theorem takeWhile_token (tok rest : Str) (h : ∀ c ∈ tok, isSpace c = false)
    (hrest : ∀ c, rest.head? = some c → isSpace c = true) :
    (tok ++ rest).takeWhile (fun c => !isSpace c) = tok
      ∧ (tok ++ rest).dropWhile (fun c => !isSpace c) = rest := by
  induction tok with
  | nil =>
    cases rest with
    | nil => exact ⟨rfl, rfl⟩
    | cons w ws =>
      have hw := hrest w rfl
      simp only [List.nil_append, List.takeWhile_cons, List.dropWhile_cons, hw, Bool.not_true,
        Bool.false_eq_true, if_false, and_self]
  | cons c tok ih =>
    have hc := h c (List.mem_cons_self _ _)
    have ih' := ih (fun d hd => h d (List.mem_cons_of_mem _ hd))
    simp only [List.cons_append, List.takeWhile_cons, List.dropWhile_cons, hc, Bool.not_false,
      if_true, ih'.1, ih'.2, and_self]

theorem parseField_two_tokens (ws0 type ws1 name ws2 : Str)
    (h0 : ∀ c ∈ ws0, isSpace c = true) (h1 : ∀ c ∈ ws1, isSpace c = true)
    (h2 : ∀ c ∈ ws2, isSpace c = true) (hne : ws1 ≠ [])
    (ht : ∀ c ∈ type, isSpace c = false) (hn : ∀ c ∈ name, isSpace c = false)
    (htne : type ≠ []) :
    parseField (ws0 ++ type ++ ws1 ++ name ++ ws2) = ⟨strippedTypeName type, name⟩ := by
  have hfirst : nextToken (ws0 ++ type ++ ws1 ++ name ++ ws2)
      = (type, ws1 ++ name ++ ws2) := by
    unfold nextToken
    simp only [List.append_assoc]
    rw [dropWhile_space_append ws0 _ h0]
    cases type with
    | nil => exact absurd rfl htne
    | cons c type =>
      have hc := ht c (List.mem_cons_self _ _)
      have e : (c :: type ++ (ws1 ++ (name ++ ws2))).dropWhile isSpace
          = c :: type ++ (ws1 ++ (name ++ ws2)) := by
        rw [List.cons_append, List.dropWhile_cons, if_neg (by simp [hc])]
      rw [e]
      have := takeWhile_token (c :: type) (ws1 ++ (name ++ ws2)) ht (by
        cases ws1 with
        | nil => exact absurd rfl hne
        | cons w ws1 =>
          intro d hd
          simp only [List.cons_append, List.head?_cons, Option.some.injEq] at hd
          rw [← hd]
          exact h1 w (List.mem_cons_self _ _))
      rw [this.1, this.2]
  have hsecond := (nextToken_short ws1 name ws2 h1 hn h2).1
  unfold parseField
  simp only [hfirst, hsecond]

theorem field_line_not_ignored (ws0 type ws1 name ws2 : Str)
    (h0 : ∀ c ∈ ws0, isSpace c = true) (ht : ∀ c ∈ type, isSpace c = false)
    (htne : type ≠ []) (hhead : type.head? ≠ some '#') :
    isCommentOrEmpty (ws0 ++ type ++ ws1 ++ name ++ ws2) = false := by
  cases type with
  | nil => exact absurd rfl htne
  | cons c type =>
    have hc := ht c (List.mem_cons_self _ _)
    have hcs : c ≠ ' ' := by
      intro e; rw [e] at hc; exact absurd hc (by decide)
    have hcm : c ≠ '#' := by
      intro e; rw [e] at hhead; exact hhead rfl
    cases h : isCommentOrEmpty (ws0 ++ c :: type ++ ws1 ++ name ++ ws2) with
    | false => rfl
    | true =>
      rcases (isCommentOrEmpty_iff _).1 h with h' | h'
      · simp at h'
      · exfalso
        have := dropWhile_blank_head ws0 (type ++ ws1 ++ name ++ ws2) c
          (fun d hd => (isSpace_ne_marker d (h0 d hd)).1) hcs hcm
        apply this
        rw [← h']
        simp only [List.append_assoc, List.cons_append]

theorem field_line_not_separator (ws0 type ws1 name ws2 : Str)
    (h1 : ∀ c ∈ ws1, isSpace c = true) (hne : ws1 ≠ []) :
    isSeparator (ws0 ++ type ++ ws1 ++ name ++ ws2) = false := by
  cases ws1 with
  | nil => exact absurd rfl hne
  | cons w ws1 =>
    have hw := (isSpace_ne_marker w (h1 w (List.mem_cons_self _ _))).2
    unfold isSeparator
    rw [Bool.and_eq_false_iff]
    right
    rw [List.all_eq_false]
    exact ⟨w, by simp, by simpa using hw⟩

theorem headerName_msg (name : Str) : headerName ("MSG: ".toList ++ name) = name := by
  unfold headerName
  have h1 : ("MSG: ".toList ++ name).take 5 = "MSG: ".toList := List.take_left' rfl
  have h2 : ("MSG: ".toList ++ name).drop 5 = name := List.drop_left' rfl
  rw [h1, h2, if_pos rfl]

theorem headerName_bare (name : Str) (h : name.take 5 ≠ "MSG: ".toList) :
    headerName name = name := by
  unfold headerName
  rw [if_neg h]

theorem headerName_item (marked : Bool) (name : Str)
    (h : (SchemaItem.header marked name).wellFormed = true) :
    headerName ((if marked then "MSG: ".toList else []) ++ name) = name := by
  cases marked with
  | true => exact headerName_msg name
  | false =>
    simp only [SchemaItem.wellFormed, Bool.false_or, bne_iff_ne, ne_eq] at h
    simp only [Bool.false_eq_true, if_false, List.nil_append]
    exact headerName_bare name h

theorem separatorLine_kind :
    isCommentOrEmpty separatorLine = false ∧ isSeparator separatorLine = true := by
  decide

theorem parseLines_ignored (line : Str) (rest : List Str) (cur : Str) (m : RosTypeMap)
    (h : isCommentOrEmpty line = true) :
    parseLines (line :: rest) cur m = parseLines rest cur m := by
  conv_lhs => unfold parseLines
  rw [if_pos h]

theorem parseLines_header (header : Str) (rest : List Str) (cur : Str) (m : RosTypeMap) :
    parseLines (separatorLine :: header :: rest) cur m
      = parseLines rest (strippedTypeName (headerName header))
          (registerType (strippedTypeName (headerName header)) (headerName header) m) := by
  rw [parseLines, if_neg (by rw [separatorLine_kind.1]; decide), if_pos separatorLine_kind.2]

theorem declaredFields_ignored (line : Str) (rest : List Str) (cur key : Str)
    (h : isCommentOrEmpty line = true) :
    declaredFields (line :: rest) cur key = declaredFields rest cur key := by
  conv_lhs => unfold declaredFields
  rw [if_pos h]

theorem declaredFields_header (header : Str) (rest : List Str) (cur key : Str) :
    declaredFields (separatorLine :: header :: rest) cur key
      = declaredFields rest (strippedTypeName (headerName header)) key := by
  rw [declaredFields, if_neg (by rw [separatorLine_kind.1]; decide),
    if_pos separatorLine_kind.2]

theorem declaredFields_field_line (line : Str) (rest : List Str) (cur key : Str)
    (hnc : isCommentOrEmpty line = false) (hns : isSeparator line = false) :
    declaredFields (line :: rest) cur key
      = (if cur = key then [parseField line] else []) ++ declaredFields rest cur key := by
  conv_lhs => unfold declaredFields
  rw [if_neg (by simp [hnc]), if_neg (by simp [hns])]

theorem field_item_facts (ws0 type ws1 name ws2 : Str)
    (h : (SchemaItem.field ws0 type ws1 name ws2).wellFormed = true) :
    isCommentOrEmpty (ws0 ++ type ++ ws1 ++ name ++ ws2) = false
      ∧ isSeparator (ws0 ++ type ++ ws1 ++ name ++ ws2) = false
      ∧ parseField (ws0 ++ type ++ ws1 ++ name ++ ws2) = ⟨strippedTypeName type, name⟩ := by
  simp only [SchemaItem.wellFormed, Bool.and_eq_true, all_space_iff, all_token_iff,
    Bool.not_eq_true', List.isEmpty_eq_false, bne_iff_ne, ne_eq] at h
  obtain ⟨⟨⟨⟨⟨⟨⟨⟨h0, h1⟩, h2⟩, hne⟩, ht⟩, hn⟩, htne⟩, _⟩, hhead⟩ := h
  exact ⟨field_line_not_ignored ws0 type ws1 name ws2 h0 ht htne hhead,
    field_line_not_separator ws0 type ws1 name ws2 h1 hne,
    parseField_two_tokens ws0 type ws1 name ws2 h0 h1 h2 hne ht hn htne⟩

theorem declaredFields_schemaLines :
    ∀ (items : List SchemaItem) (cur key : Str), (∀ it ∈ items, it.wellFormed = true) →
      declaredFields (schemaLines items) cur key = sectionFields items cur key
  | [], _, _, _ => rfl
  | .ignored line :: rest, cur, key, h => by
    have hw := h _ (List.mem_cons_self _ _)
    simp only [SchemaItem.wellFormed] at hw
    simp only [schemaLines, SchemaItem.lines, List.singleton_append, sectionFields]
    rw [declaredFields_ignored _ _ _ _ hw]
    exact declaredFields_schemaLines rest cur key (fun it hit => h it (List.mem_cons_of_mem _ hit))
  | .field ws0 type ws1 name ws2 :: rest, cur, key, h => by
    obtain ⟨f1, f2, f3⟩ := field_item_facts ws0 type ws1 name ws2 (h _ (List.mem_cons_self _ _))
    simp only [schemaLines, SchemaItem.lines, List.singleton_append, sectionFields]
    rw [declaredFields_field_line _ _ _ _ f1 f2, f3,
      declaredFields_schemaLines rest cur key (fun it hit => h it (List.mem_cons_of_mem _ hit))]
  | .header marked name :: rest, cur, key, h => by
    simp only [schemaLines, SchemaItem.lines, List.cons_append, List.nil_append, sectionFields]
    rw [declaredFields_header, headerName_item marked name (h _ (List.mem_cons_self _ _)),
      declaredFields_schemaLines rest _ key (fun it hit => h it (List.mem_cons_of_mem _ hit))]

theorem parseLines_schema_names (key : Str) :
    ∀ (items : List SchemaItem) (cur : Str) (m : RosTypeMap),
      (∀ it ∈ items, it.wellFormed = true) →
      (mapFind key (parseLines (schemaLines items) cur m)).map RosType.full_name
        = match mapFind key m with
          | some t => some t.full_name
          | none => ((headerTypes items).find? (fun e => e.1 = key)).map Prod.snd
  | [], cur, m, _ => by
    simp only [schemaLines, parseLines, headerTypes, List.find?_nil, Option.map_none']
    cases mapFind key m <;> rfl
  | .ignored line :: rest, cur, m, h => by
    have hw := h _ (List.mem_cons_self _ _)
    simp only [SchemaItem.wellFormed] at hw
    simp only [schemaLines, SchemaItem.lines, List.singleton_append, headerTypes]
    rw [parseLines_ignored _ _ _ _ hw]
    exact parseLines_schema_names key rest cur m (fun it hit => h it (List.mem_cons_of_mem _ hit))
  | .field ws0 type ws1 name ws2 :: rest, cur, m, h => by
    obtain ⟨f1, f2, _⟩ := field_item_facts ws0 type ws1 name ws2 (h _ (List.mem_cons_self _ _))
    simp only [schemaLines, SchemaItem.lines, List.singleton_append, headerTypes]
    rw [parseLines_field_line _ _ _ _ f1 f2,
      parseLines_schema_names key rest cur _ (fun it hit => h it (List.mem_cons_of_mem _ hit)),
      mapFind_mapModify]
    cases hm : mapFind key m with
    | none => by_cases hk : key = cur <;> simp only [hk, if_true, if_false, Option.map_none']
    | some t => by_cases hk : key = cur <;> simp only [hk, if_true, if_false, Option.map_some']
  | .header marked name :: rest, cur, m, h => by
    simp only [schemaLines, SchemaItem.lines, List.cons_append, List.nil_append, headerTypes]
    rw [parseLines_header, headerName_item marked name (h _ (List.mem_cons_self _ _)),
      parseLines_schema_names key rest _ _ (fun it hit => h it (List.mem_cons_of_mem _ hit)),
      mapFind_registerType]
    by_cases hk : strippedTypeName name = key
    · cases hm : mapFind key m with
      | some t =>
        rw [if_neg (by rw [hk, hm]; simp)]
      | none =>
        rw [if_pos ⟨hk.symm, by rw [hk]; exact hm⟩]
        simp only [List.find?_cons, hk, decide_True, Option.map_some']
    · rw [if_neg (fun hc => hk hc.1.symm)]
      cases hm : mapFind key m with
      | some t => rfl
      | none =>
        simp only [List.find?_cons, hk, decide_False]

theorem foldl_addField_keepFirst (ds : List RosTypeField) :
    ∀ (old : List RosTypeField), ds.foldl (fun acc f => addField f acc) old
      = old ++ keepFirstByName ds (old.map RosTypeField.field_name) := by
  induction ds with
  | nil => intro old; simp [keepFirstByName]
  | cons d ds ih =>
    intro old
    simp only [List.foldl_cons, keepFirstByName]
    rw [ih]
    unfold addField
    by_cases hany : old.any (fun f => f.field_name = d.field_name) = true
    · rw [if_pos hany, if_pos ((any_name_iff _ _).1 hany)]
    · rw [if_neg hany, if_neg (fun hm => hany ((any_name_iff _ _).2 hm))]
      simp only [List.map_append, List.map_cons, List.map_nil, List.append_assoc,
        List.singleton_append]

theorem entry_of_name_fields (m : RosTypeMap) (key : Str) (x : Option (Str × Str))
    (fields : List RosTypeField)
    (hn : (mapFind key m).map RosType.full_name = x.map Prod.snd)
    (hf : fieldsOf m key = fields) :
    mapFind key m = x.map (fun e => ⟨e.2, fields⟩) := by
  unfold fieldsOf at hf
  cases hm : mapFind key m with
  | none =>
    rw [hm] at hn
    cases x with
    | none => rfl
    | some e => simp at hn
  | some t =>
    rw [hm] at hn hf
    cases x with
    | none => simp at hn
    | some e =>
      simp only [Option.map_some', Option.some.injEq] at hn hf ⊢
      rw [← hn, ← hf]

/-- C13: section attribution. For a schema text whose lines are those of well-formed
items (ignored lines, two-token field lines, separator lines each followed by a header
line, `MSG: name` or the bare `name`), parsing into the empty type map gives, under
every key, the entry whose full name is that of the first of the root type and the
headers with this stripped name, and whose fields are, in textual order and without
later duplicates of a field name, the (namespace-stripped type, name) pairs of the
field lines that follow the most recent header of that stripped name (or no header,
for the root type); a key that no header and not the root names has no entry. The
headers `MSG: ns/T` and `ns/T` both have the name `ns/T` and the stripped name `T`,
and an empty text registers just the root type. -/
theorem parseRosTypeDescription_sections (type_name text : Str) (items : List SchemaItem)
    (hwf : ∀ it ∈ items, it.wellFormed = true) (htext : getLines text = schemaLines items)
    (key : Str) :
    mapFind key (parseRosTypeDescription type_name text [])
        = ((sectionTypes type_name items).find? (fun e => e.1 = key)).map
            (fun e => ⟨e.2,
              keepFirstByName (sectionFields items (strippedTypeName type_name) key) []⟩)
      ∧ (∀ ns T : Str, '/' ∉ T →
          headerName ("MSG: ".toList ++ (ns ++ '/' :: T)) = ns ++ '/' :: T
          ∧ strippedTypeName (headerName ("MSG: ".toList ++ (ns ++ '/' :: T))) = T
          ∧ ((ns ++ '/' :: T).take 5 ≠ "MSG: ".toList →
              headerName (ns ++ '/' :: T) = ns ++ '/' :: T
              ∧ strippedTypeName (headerName (ns ++ '/' :: T)) = T))
      ∧ parseRosTypeDescription type_name [] []
        = [(strippedTypeName type_name, ⟨type_name, []⟩)] := by
  refine ⟨?_, ?_, rfl⟩
  · have hreg := registerType_registered (strippedTypeName type_name) type_name []
    have hnames := parseLines_schema_names key items (strippedTypeName type_name)
      (registerType (strippedTypeName type_name) type_name []) hwf
    have hfields := parseLines_fieldsOf (schemaLines items) (strippedTypeName type_name)
      (registerType (strippedTypeName type_name) type_name []) key hreg
    rw [declaredFields_schemaLines items _ key hwf, foldl_addField_keepFirst,
      fieldsOf_registerType] at hfields
    have hempty : fieldsOf ([] : RosTypeMap) key = [] := rfl
    rw [hempty] at hfields
    simp only [List.map_nil, List.nil_append] at hfields
    have hroot : (match mapFind key (registerType (strippedTypeName type_name) type_name [])
        with
        | some t => some t.full_name
        | none => ((headerTypes items).find? (fun e => e.1 = key)).map Prod.snd)
        = ((sectionTypes type_name items).find? (fun e => e.1 = key)).map Prod.snd := by
      rw [mapFind_registerType]
      unfold sectionTypes
      rw [List.find?_cons]
      by_cases hk : key = strippedTypeName type_name
      · rw [if_pos ⟨hk, rfl⟩]
        simp only [hk, decide_True, Option.map_some']
      · rw [if_neg (fun hc => hk hc.1)]
        have hd : decide (strippedTypeName type_name = key) = false := by
          simpa using fun e => hk e.symm
        simp only [hd, mapFind]
    rw [hroot] at hnames
    unfold parseRosTypeDescription
    rw [htext]
    exact entry_of_name_fields _ key _ _ hnames hfields
  · intro ns T hT
    rw [headerName_msg]
    refine ⟨rfl, strippedTypeName_split ns T hT, fun hb => ?_⟩
    rw [headerName_bare _ hb]
    exact ⟨rfl, strippedTypeName_split ns T hT⟩

theorem parseRosTypeDescription_sections_witness :
    (∀ it ∈ exampleSchemaItems, it.wellFormed = true)
      ∧ getLines exampleSchemaText = schemaLines exampleSchemaItems
      ∧ mapFind "JointState".toList
          (parseRosTypeDescription "pkg/Robot".toList exampleSchemaText [])
        = some ⟨"sensor_msgs/JointState".toList,
            [⟨"string".toList, "name".toList⟩, ⟨"float64".toList, "position".toList⟩]⟩
      ∧ mapFind "Robot".toList (parseRosTypeDescription "pkg/Robot".toList exampleSchemaText [])
        = some ⟨"pkg/Robot".toList,
            [⟨"JointState[]".toList, "joint".toList⟩, ⟨"uint32".toList, "id".toList⟩]⟩
      ∧ mapFind "Point".toList (parseRosTypeDescription "pkg/Robot".toList exampleSchemaText [])
        = some ⟨"geometry_msgs/Point".toList, [⟨"float64".toList, "x".toList⟩]⟩ :=
  ⟨by decide, by decide,
    (parseRosTypeDescription_sections "pkg/Robot".toList exampleSchemaText exampleSchemaItems
      (by decide) (by decide) "JointState".toList).1.trans (by decide),
    (parseRosTypeDescription_sections "pkg/Robot".toList exampleSchemaText exampleSchemaItems
      (by decide) (by decide) "Robot".toList).1.trans (by decide),
    (parseRosTypeDescription_sections "pkg/Robot".toList exampleSchemaText exampleSchemaItems
      (by decide) (by decide) "Point".toList).1.trans (by decide)⟩

/-! ## Termination of the decoder -/

theorem readBuiltin_no_fuel (toSec : Nat → Nat → Double) (type key : Str) (st : DecodeState)
    (r : Outcome DecodeState) (h : readBuiltin toSec type key st = some r) :
    r ≠ .error .fuel := by
  unfold readBuiltin at h
  have hread : ∀ n buf, ReadFromBufferAndMoveForward n buf ≠ .error .fuel := by
    intro n buf
    unfold ReadFromBufferAndMoveForward
    split <;> simp
  split at h
  · simp only [Option.some.injEq] at h
    rw [← h]
    cases hr : ReadFromBufferAndMoveForward 8 st.1 with
    | ok x => simp
    | error e =>
      have := hread 8 st.1
      rw [hr] at this
      simpa using this
  · split at h
    · simp only [Option.some.injEq] at h
      rw [← h]
      cases hr : ReadFromBufferAndMoveForward 4 st.1 with
      | ok x => simp
      | error e =>
        have := hread 4 st.1
        rw [hr] at this
        simpa using this
    · split at h
      · simp only [Option.some.injEq] at h
        rw [← h]
        cases hr : ReadFromBufferAndMoveForward 8 st.1 with
        | ok x => simp
        | error e =>
          have := hread 8 st.1
          rw [hr] at this
          simpa using this
      · split at h
        · simp only [Option.some.injEq] at h
          rw [← h]
          cases hr : ReadFromBufferAndMoveForward 4 st.1 with
          | ok x =>
            simp only []
            split
            · simp
            · split <;> simp
          | error e =>
            have := hread 4 st.1
            rw [hr] at this
            simpa using this
        · cases h

theorem forEach_no_fuel {α σ : Type} (body : α → σ → Outcome σ) :
    ∀ (l : List α) (s : σ), (∀ a ∈ l, ∀ s, body a s ≠ .error .fuel) →
      forEach body l s ≠ .error .fuel
  | [], s, _ => by simp [forEach]
  | a :: l, s, h => by
    simp only [forEach]
    cases hb : body a s with
    | ok s' =>
      exact forEach_no_fuel body l s' (fun b hb' => h b (List.mem_cons_of_mem _ hb'))
    | error e =>
      have := h a (List.mem_cons_self _ _) s
      rw [hb] at this
      simpa using this

theorem loopFrom_no_fuel {σ : Type} (body : Nat → σ → Outcome σ)
    (h : ∀ v s, body v s ≠ .error .fuel) :
    ∀ (k v : Nat) (s : σ), loopFrom body k v s ≠ .error .fuel
  | 0, _, _ => by simp [loopFrom]
  | k + 1, v, s => by
    simp only [loopFrom]
    cases hb : body v s with
    | ok s' => exact loopFrom_no_fuel body h k (v + 1) s'
    | error e =>
      have := h v s
      rw [hb] at this
      simpa using this

theorem mapFind_key_mem {V : Type} (k : Str) (m : SMap V) (h : mapFind k m ≠ none) :
    k ∈ m.map Prod.fst := by
  cases hm : mapFind k m with
  | none => exact absurd hm h
  | some v => exact List.mem_map.2 ⟨(k, v), mapFind_mem k v m hm, rfl⟩

theorem decodeElement_no_fuel (toSec : Nat → Nat → Double) (tm : RosTypeMap)
    (recurse : Str → Str → DecodeState → Outcome DecodeState) (type key : Str)
    (st : DecodeState)
    (h : isBuiltin type = false → ∀ t, mapFind type tm = some t → ∀ f ∈ t.fields,
      ∀ p s, recurse f.type_name p s ≠ .error .fuel) :
    decodeElement toSec tm recurse type key st ≠ .error .fuel := by
  unfold decodeElement
  cases hr : readBuiltin toSec type key st with
  | some r => exact readBuiltin_no_fuel toSec type key st r hr
  | none =>
    have hb : isBuiltin type = false := by
      cases hb : isBuiltin type with
      | false => rfl
      | true =>
        exfalso
        simp only [isBuiltin, Bool.or_eq_true, decide_eq_true_eq] at hb
        unfold readBuiltin at hr
        rcases hb with ((hb | hb) | hb) | hb
        · rw [if_pos hb] at hr; cases hr
        · rw [hb, if_neg builtin_ne.1, if_pos rfl] at hr; cases hr
        · rw [hb, if_neg builtin_ne.2.1, if_neg builtin_ne.2.2.1, if_pos rfl] at hr; cases hr
        · rw [hb, if_neg builtin_ne.2.2.2.1, if_neg builtin_ne.2.2.2.2.1,
            if_neg builtin_ne.2.2.2.2.2, if_pos rfl] at hr
          cases hr
    simp only []
    cases hm : mapFind type tm with
    | none => simp
    | some t =>
      simp only []
      exact forEach_no_fuel _ t.fields st (fun f hf s => h hb t hm f hf _ s)

theorem buildRosFlatType_step_no_fuel (toSec : Nat → Nat → Double) (tm : RosTypeMap)
    (fuel : Nat) (t p : Str) (st : DecodeState)
    (h : isBuiltin (elementType t) = false → ∀ ty, mapFind (elementType t) tm = some ty →
      ∀ f ∈ ty.fields, ∀ q s, buildRosFlatType toSec tm fuel f.type_name q s ≠ .error .fuel) :
    buildRosFlatType toSec tm (fuel + 1) t p st ≠ .error .fuel := by
  cases hv : ends_with t VECTOR_SYMBOL with
  | false =>
    have he : elementType t = t := by unfold elementType; rw [hv]; rfl
    rw [he] at h
    rw [buildRosFlatType_scalar toSec tm fuel t p st hv]
    exact decodeElement_no_fuel toSec tm _ t p st h
  | true =>
    have he : elementType t = remove_suffix t 2 := by unfold elementType; rw [hv]; rfl
    rw [he] at h
    rw [buildRosFlatType_vector toSec tm fuel t p st hv]
    cases hr : ReadFromBufferAndMoveForward 4 st.1 with
    | error e =>
      simp only []
      unfold ReadFromBufferAndMoveForward at hr
      split at hr
      · cases hr
      · simp only [Outcome.error.injEq] at hr
        rw [← hr]
        simp
    | ok r =>
      simp only []
      exact loopFrom_no_fuel _ (fun v s => decodeElement_no_fuel toSec tm _ _ _ s h) _ 0 _

theorem no_fuel_error (toSec : Nat → Nat → Double) (tm : RosTypeMap) (hac : Acyclic tm) :
    ∀ (fuel : Nat) (avail : List Str) (t : Str), avail.length < fuel →
      (∀ k, Relation.ReflTransGen (FieldEdge tm) (elementType t) k → isBuiltin k = false →
        mapFind k tm ≠ none → k ∈ avail) →
      ∀ p st, buildRosFlatType toSec tm fuel t p st ≠ .error .fuel
  | 0, _, _, h, _ => absurd h (Nat.not_lt_zero _)
  | fuel + 1, avail, t, hlen, hav => by
    intro p st
    apply buildRosFlatType_step_no_fuel
    intro hb ty hm f hf q s
    have hself : elementType t ∈ avail :=
      hav _ Relation.ReflTransGen.refl hb (by rw [hm]; simp)
    have hedge : FieldEdge tm (elementType t) (elementType f.type_name) :=
      ⟨hb, ty, hm, f, hf, rfl⟩
    refine no_fuel_error toSec tm hac fuel (avail.erase (elementType t)) f.type_name ?_ ?_ q s
    · rw [List.length_erase_of_mem hself]
      have : 0 < avail.length := List.length_pos_of_mem hself
      omega
    · intro k hk hkb hkm
      have hka : k ∈ avail := hav k (Relation.ReflTransGen.head hedge hk) hkb hkm
      have hne : k ≠ elementType t := by
        intro e
        rw [e] at hk
        exact hac _ (Relation.TransGen.head' hedge hk)
      exact (List.mem_erase_of_ne hne).2 hka

theorem forEach_mono {α σ : Type} (body body' : α → σ → Outcome σ)
    (h : ∀ a s r, body a s = r → r ≠ .error .fuel → body' a s = r) :
    ∀ (l : List α) (s : σ) (r : Outcome σ), forEach body l s = r → r ≠ .error .fuel →
      forEach body' l s = r
  | [], s, r, hr, _ => by simpa [forEach] using hr
  | a :: l, s, r, hr, hne => by
    simp only [forEach] at hr ⊢
    cases hb : body a s with
    | ok s' =>
      rw [hb] at hr
      rw [h a s _ hb (by simp)]
      exact forEach_mono body body' h l s' r hr hne
    | error e =>
      rw [hb] at hr
      simp only [] at hr
      rw [h a s _ hb (by rw [hr]; exact hne)]
      exact hr

theorem loopFrom_mono {σ : Type} (body body' : Nat → σ → Outcome σ)
    (h : ∀ v s r, body v s = r → r ≠ .error .fuel → body' v s = r) :
    ∀ (k v : Nat) (s : σ) (r : Outcome σ), loopFrom body k v s = r → r ≠ .error .fuel →
      loopFrom body' k v s = r
  | 0, v, s, r, hr, _ => by simpa [loopFrom] using hr
  | k + 1, v, s, r, hr, hne => by
    simp only [loopFrom] at hr ⊢
    cases hb : body v s with
    | ok s' =>
      rw [hb] at hr
      rw [h v s _ hb (by simp)]
      exact loopFrom_mono body body' h k (v + 1) s' r hr hne
    | error e =>
      rw [hb] at hr
      simp only [] at hr
      rw [h v s _ hb (by rw [hr]; exact hne)]
      exact hr

theorem decodeElement_mono (toSec : Nat → Nat → Double) (tm : RosTypeMap)
    (g g' : Str → Str → DecodeState → Outcome DecodeState)
    (h : ∀ t p s r, g t p s = r → r ≠ .error .fuel → g' t p s = r)
    (type key : Str) (st : DecodeState) (r : Outcome DecodeState)
    (hr : decodeElement toSec tm g type key st = r) (hne : r ≠ .error .fuel) :
    decodeElement toSec tm g' type key st = r := by
  unfold decodeElement at hr ⊢
  cases hb : readBuiltin toSec type key st with
  | some x => rw [hb] at hr; exact hr
  | none =>
    rw [hb] at hr
    simp only [] at hr ⊢
    cases hm : mapFind type tm with
    | none => rw [hm] at hr; exact hr
    | some t =>
      rw [hm] at hr
      simp only [] at hr ⊢
      exact forEach_mono _ _ (fun f s r' hr' hne' => h _ _ _ _ hr' hne') t.fields st r hr hne

theorem buildRosFlatType_fuel_mono (toSec : Nat → Nat → Double) (tm : RosTypeMap) :
    ∀ (fuel : Nat) (t p : Str) (st : DecodeState) (r : Outcome DecodeState),
      buildRosFlatType toSec tm fuel t p st = r → r ≠ .error .fuel →
      buildRosFlatType toSec tm (fuel + 1) t p st = r
  | 0, t, p, st, r, hr, hne => by
    simp only [buildRosFlatType] at hr
    exact absurd hr.symm hne
  | fuel + 1, t, p, st, r, hr, hne => by
    have ih := buildRosFlatType_fuel_mono toSec tm fuel
    cases hv : ends_with t VECTOR_SYMBOL with
    | false =>
      rw [buildRosFlatType_scalar toSec tm fuel t p st hv] at hr
      rw [buildRosFlatType_scalar toSec tm (fuel + 1) t p st hv]
      exact decodeElement_mono toSec tm _ _ ih t p st r hr hne
    | true =>
      rw [buildRosFlatType_vector toSec tm fuel t p st hv] at hr
      rw [buildRosFlatType_vector toSec tm (fuel + 1) t p st hv]
      cases hread : ReadFromBufferAndMoveForward 4 st.1 with
      | error e => rw [hread] at hr; exact hr
      | ok x =>
        rw [hread] at hr
        simp only [] at hr ⊢
        exact loopFrom_mono _ _
          (fun v s r' hr' hne' => decodeElement_mono toSec tm _ _ ih _ _ s r' hr' hne')
          _ 0 _ r hr hne

theorem acyclic_of_ranked (rank : Str → Nat) (tm : RosTypeMap) (h : RankedBy rank tm) :
    Acyclic tm := by
  have hedge : ∀ a b, FieldEdge tm a b → rank b < rank a := by
    intro a b ⟨_, t, hm, f, hf, he⟩
    rw [← he]
    exact h (a, t) (mapFind_mem a t tm hm) f hf
  have htrans : ∀ a b, Relation.TransGen (FieldEdge tm) a b → rank b < rank a := by
    intro a b hab
    induction hab with
    | single e => exact hedge _ _ e
    | tail _ e ih => exact Nat.lt_trans (hedge _ _ e) ih
  intro a ha
  exact Nat.lt_irrefl _ (htrans a a ha)

theorem forEach_stuck {α σ : Type} (body : α → σ → Outcome σ) (a : α) (post : List α)
    (ha : ∀ s, body a s = .error .fuel) :
    ∀ (pre : List α) (s : σ), (∀ b ∈ pre, ∀ s, body b s = .ok s ∨ body b s = .error .fuel) →
      forEach body (pre ++ a :: post) s = .error .fuel
  | [], s, _ => by simp only [List.nil_append, forEach, ha]
  | b :: pre, s, h => by
    simp only [List.cons_append, forEach]
    rcases h b (List.mem_cons_self _ _) s with hb | hb
    · rw [hb]
      exact forEach_stuck body a post ha pre s (fun c hc => h c (List.mem_cons_of_mem _ hc))
    · rw [hb]

theorem self_field_diverges (toSec : Nat → Nat → Double) (tm : RosTypeMap) (T name x : Str)
    (pre rest : List RosTypeField) (hb : isBuiltin T = false)
    (hs : ends_with T VECTOR_SYMBOL = false)
    (hm : mapFind T tm = some ⟨name, pre ++ ⟨T, x⟩ :: rest⟩)
    (hpre : ∀ f ∈ pre, ends_with f.type_name VECTOR_SYMBOL = false
      ∧ isBuiltin f.type_name = false ∧ mapFind f.type_name tm = none) :
    ∀ (fuel : Nat) (p : Str) (st : DecodeState),
      buildRosFlatType toSec tm fuel T p st = .error .fuel
  | 0, _, _ => rfl
  | fuel + 1, p, st => by
    rw [buildRosFlatType_scalar toSec tm fuel T p st hs]
    unfold decodeElement
    rw [readBuiltin_none toSec T p st hb, hm]
    refine forEach_stuck
      (fun (f : RosTypeField) s =>
        buildRosFlatType toSec tm fuel f.type_name (p ++ SEPARATOR ++ f.field_name) s)
      ⟨T, x⟩ rest
      (fun s => self_field_diverges toSec tm T name x pre rest hb hs hm hpre fuel _ s) pre st ?_
    intro f hf s
    show buildRosFlatType toSec tm fuel f.type_name _ s = .ok s
      ∨ buildRosFlatType toSec tm fuel f.type_name _ s = .error .fuel
    obtain ⟨h1, h2, h3⟩ := hpre f hf
    cases fuel with
    | zero => exact Or.inr rfl
    | succ k =>
      left
      rw [buildRosFlatType_scalar toSec tm k f.type_name _ s h1]
      exact decodeElement_unrecognized toSec tm _ f.type_name _ s h2 h3

/-- C20: termination. In a type map where no compound type reaches itself through the
element types of its fields, every call with more fuel than the map has types ends
without exhausting the fuel, and with the same result as the call with fuel
`length + 1`: the nesting of calls below the first one is bounded by the number of
types. Without acyclicity this fails: when a type `T` has a scalar field of type `T`
that is reached without reading a byte (the fields before it are scalars of unrecognized
types), the call on `T` exhausts every fuel, whatever the buffer, and the map is not
acyclic. -/
theorem buildRosFlatType_terminates (toSec : Nat → Nat → Double) (tm : RosTypeMap)
    (hac : Acyclic tm) (t p : Str) (st : DecodeState) :
    (∀ fuel, tm.length < fuel →
        buildRosFlatType toSec tm fuel t p st ≠ .error .fuel
        ∧ buildRosFlatType toSec tm fuel t p st
          = buildRosFlatType toSec tm (tm.length + 1) t p st)
      ∧ (∀ (tm' : RosTypeMap) (T name x : Str) (pre rest : List RosTypeField),
          isBuiltin T = false → ends_with T VECTOR_SYMBOL = false →
          mapFind T tm' = some ⟨name, pre ++ ⟨T, x⟩ :: rest⟩ →
          (∀ f ∈ pre, ends_with f.type_name VECTOR_SYMBOL = false
            ∧ isBuiltin f.type_name = false ∧ mapFind f.type_name tm' = none) →
          ¬ Acyclic tm'
          ∧ ∀ fuel q s, buildRosFlatType toSec tm' fuel T q s = .error .fuel) := by
  have hno : ∀ fuel, tm.length < fuel →
      buildRosFlatType toSec tm fuel t p st ≠ .error .fuel := by
    intro fuel hf
    refine no_fuel_error toSec tm hac fuel (tm.map Prod.fst) t (by simpa using hf) ?_ p st
    intro k _ _ hk
    exact mapFind_key_mem k tm hk
  refine ⟨fun fuel hf => ⟨hno fuel hf, ?_⟩, ?_⟩
  · obtain ⟨d, rfl⟩ : ∃ d, fuel = tm.length + 1 + d := ⟨fuel - (tm.length + 1), by omega⟩
    clear hf
    induction d with
    | zero => rfl
    | succ d ih =>
      rw [← ih]
      exact buildRosFlatType_fuel_mono toSec tm (tm.length + 1 + d) t p st _ rfl
        (hno _ (by omega))
  · intro tm' T name x pre rest hb hs hm hpre
    refine ⟨?_, self_field_diverges toSec tm' T name x pre rest hb hs hm hpre⟩
    intro hac'
    apply hac' T
    refine Relation.TransGen.single
      ⟨hb, _, hm, ⟨T, x⟩, List.mem_append_right _ (List.mem_cons_self _ _), ?_⟩
    unfold elementType
    rw [hs]
    rfl

theorem buildRosFlatType_terminates_witness :
    RankedBy exampleRank exampleTypeMap
      ∧ buildRosFlatType (fun _ _ => ⟨0⟩) exampleTypeMap 5 "Robot".toList []
          (exampleBuffer, emptyFlat)
        = buildRosFlatType (fun _ _ => ⟨0⟩) exampleTypeMap (exampleTypeMap.length + 1)
          "Robot".toList [] (exampleBuffer, emptyFlat)
      ∧ buildRosFlatType (fun _ _ => ⟨0⟩) exampleTypeMap exampleTypeMap.length
          "Robot".toList [] (exampleBuffer, emptyFlat) = .error .fuel
      ∧ buildRosFlatType (fun _ _ => ⟨0⟩) selfTypeMap 7 "Node".toList []
          ([1, 2, 3], emptyFlat) = .error .fuel :=
  ⟨by decide,
    ((buildRosFlatType_terminates (fun _ _ => ⟨0⟩) exampleTypeMap
      (acyclic_of_ranked exampleRank exampleTypeMap (by decide)) "Robot".toList []
      (exampleBuffer, emptyFlat)).1 5 (by decide)).2,
    by decide,
    ((buildRosFlatType_terminates (fun _ _ => ⟨0⟩) exampleTypeMap
      (acyclic_of_ranked exampleRank exampleTypeMap (by decide)) "Robot".toList []
      (exampleBuffer, emptyFlat)).2 selfTypeMap "Node".toList "Node".toList "next".toList [] []
      (by decide) (by decide) (by decide) (by decide)).2 7 [] ([1, 2, 3], emptyFlat)⟩

/-! ## Pass-through, read off the key -/

theorem cstr_cons (x : Char) (s : Str) :
    cstr (x :: s) = if x = NUL then [] else x :: cstr s := by
  unfold cstr
  rw [List.takeWhile_cons]
  by_cases hx : x = NUL
  · simp only [hx, ne_eq, not_true_eq_false, decide_False, if_true]
    rfl
  · simp only [hx, ne_eq, not_false_eq_true, decide_True, if_true, if_false]

theorem strncmpEq_mismatch : ∀ (s r : Str), ¬ cstr s <+: r →
    strncmpEq s.length r s = false
  | [], r, h => absurd List.nil_prefix h
  | x :: s, r, h => by
    rw [cstr_cons] at h
    by_cases hx : x = NUL
    · rw [if_pos hx] at h
      exact absurd List.nil_prefix h
    · rw [if_neg hx] at h
      cases r with
      | nil =>
        simp only [List.length_cons, strncmpEq, List.headD_nil, List.headD_cons, ne_eq]
        rw [if_pos (fun e => hx e.symm)]
      | cons y r =>
        simp only [List.length_cons, strncmpEq, List.headD_cons, ne_eq, List.tail_cons]
        by_cases hyx : y = x
        · subst hyx
          rw [if_neg (by simp), if_neg hx]
          apply strncmpEq_mismatch s r
          intro hp
          exact h ((List.cons_prefix_cons).2 ⟨rfl, hp⟩)
        · rw [if_pos hyx]

theorem find_none_of_absent (key needle : Str) (h : ¬ ∃ a b : Str, key = a ++ needle ++ b) :
    find key needle = none := by
  cases hf : find key needle with
  | none => rfl
  | some A =>
    exfalso
    obtain ⟨_, ⟨t, ht⟩, _⟩ := find_some key needle A hf
    apply h
    refine ⟨key.take A, t, ?_⟩
    rw [List.append_assoc, ht, List.take_append_drop]

theorem tryRule_run_to_end (rule : SubstitutionRule) (name_id : SMap Str) (P D : Str)
    (hfirst : ∀ i < P.length, ¬ rule.pattern_pre <+: (P ++ rule.pattern_pre ++ D).drop i)
    (hD : ∀ ch ∈ D, ch.isDigit = true) :
    tryRule rule name_id (P ++ rule.pattern_pre ++ D) = .ok none
      ∨ ∃ e, tryRule rule name_id (P ++ rule.pattern_pre ++ D) = .error e := by
  by_cases hne : P ++ rule.pattern_pre ++ D = []
  · rw [hne]
    exact Or.inl (tryRule_empty_key rule name_id)
  · right
    have hfind := find_first rule.pattern_pre P D hfirst hne
    have hdrop : (P ++ rule.pattern_pre ++ D).drop (P.length + rule.pattern_pre.length) = D := by
      rw [← List.length_append, List.drop_left]
    have h := (digitScan_at rule name_id (P ++ rule.pattern_pre ++ D) P.length hfind.1).2.1
    rw [hdrop] at h
    exact ⟨.outOfRange, h.2 hD⟩

theorem tryRule_at (rule : SubstitutionRule) (name_id : SMap Str) (P D : Str) (ch : Char)
    (rest : Str)
    (hfirst : ∀ i < P.length,
      ¬ rule.pattern_pre <+: (P ++ rule.pattern_pre ++ D ++ ch :: rest).drop i)
    (hD : ∀ c ∈ D, c.isDigit = true) (hch : ch.isDigit = false) :
    tryRule rule name_id (P ++ rule.pattern_pre ++ D ++ ch :: rest)
      = if strncmpEq rule.pattern_suf.length (ch :: rest) rule.pattern_suf then
          if 255 < (P ++ rule.location_pre ++ D ++ rule.location_suf).length then
            .error .overflow
          else
            match mapFind (cstr (P ++ rule.location_pre ++ D ++ rule.location_suf)) name_id with
            | some index_replacement =>
              if 255 < (P ++ rule.substitution_pre ++ index_replacement
                  ++ rule.substitution_suf
                  ++ (ch :: rest).drop rule.pattern_suf.length).length then .error .overflow
              else .ok (some (cstr (P ++ rule.substitution_pre ++ index_replacement
                  ++ rule.substitution_suf ++ (ch :: rest).drop rule.pattern_suf.length)))
            | none => .ok none
        else .ok none := by
  have hkey : P ++ rule.pattern_pre ++ D ++ ch :: rest
      = P ++ rule.pattern_pre ++ (D ++ ch :: rest) := by
    simp only [List.append_assoc]
  have hfind : find (P ++ rule.pattern_pre ++ D ++ ch :: rest) rule.pattern_pre
      = some P.length := by
    rw [hkey]
    refine (find_first rule.pattern_pre P (D ++ ch :: rest) ?_ (by simp)).1
    rw [← hkey]
    exact hfirst
  have hdrop : (P ++ rule.pattern_pre ++ D ++ ch :: rest).drop
      (P.length + rule.pattern_pre.length) = D ++ ch :: rest := by
    rw [hkey, ← List.length_append, List.drop_left]
  have htake : (P ++ rule.pattern_pre ++ D ++ ch :: rest).take P.length = P := by
    simp only [List.append_assoc, List.take_left]
  have hdropC : (P ++ rule.pattern_pre ++ D ++ ch :: rest).drop
      (P.length + rule.pattern_pre.length + D.length) = ch :: rest := by
    rw [← List.length_append, ← List.length_append, List.drop_left]
  unfold tryRule
  rw [hfind]
  simp only []
  rw [hdrop, digitRun_append D ch rest hD hch]
  simp only []
  rw [hdropC, htake]
  have hidx : (D ++ ch :: rest).take (P.length + rule.pattern_pre.length + D.length
      - (P.length + rule.pattern_pre.length)) = D := by
    rw [Nat.add_sub_cancel_left, List.take_left]
  rw [hidx]

theorem tryRule_miss (rule : SubstitutionRule) (name_id : SMap Str) (key : Str)
    (h : RuleMisses rule name_id key) :
    tryRule rule name_id key = .ok none ∨ ∃ e, tryRule rule name_id key = .error e := by
  rcases h with h | ⟨P, D, rest, hkey, hfirst, hD, hstop, hsuf⟩
    | ⟨P, D, R, hkey, hfirst, hD, hstop, hid⟩
  · left
    unfold tryRule
    rw [find_none_of_absent key rule.pattern_pre h]
  · subst hkey
    cases rest with
    | nil =>
      simp only [List.append_nil] at hfirst ⊢
      exact tryRule_run_to_end rule name_id P D hfirst hD
    | cons ch rest =>
      left
      have hch : ch.isDigit = false := hstop ch rfl
      rw [tryRule_at rule name_id P D ch rest hfirst hD hch,
        strncmpEq_mismatch rule.pattern_suf (ch :: rest) hsuf]
      rfl
  · have hkey2 : key = P ++ rule.pattern_pre ++ D ++ (rule.pattern_suf ++ R) := by
      rw [hkey]; simp only [List.append_assoc]
    rw [hkey2] at hfirst ⊢
    cases htail : rule.pattern_suf ++ R with
    | nil =>
      rw [htail] at hfirst
      simp only [List.append_nil] at hfirst ⊢
      exact tryRule_run_to_end rule name_id P D hfirst hD
    | cons ch rest =>
      rw [htail] at hfirst hstop
      have hch : ch.isDigit = false := hstop ch rfl
      rw [tryRule_at rule name_id P D ch rest hfirst hD hch, hid]
      split
      · split
        · exact Or.inr ⟨_, rfl⟩
        · exact Or.inl rfl
      · exact Or.inl rfl

theorem applyRules_miss (rules : List SubstitutionRule) (name_id : SMap Str) (key : Str)
    (h : ∀ r ∈ rules, RuleMisses r name_id key) :
    applyRules rules name_id key = .ok key ∨ ∃ e, applyRules rules name_id key = .error e := by
  induction rules with
  | nil => exact Or.inl rfl
  | cons r rules ih =>
    simp only [applyRules]
    rcases tryRule_miss r name_id key (h r (List.mem_cons_self _ _)) with h1 | ⟨e, h1⟩
    · rw [h1]
      exact ih (fun q hq => h q (List.mem_cons_of_mem _ hq))
    · rw [h1]
      exact Or.inr ⟨e, rfl⟩

/-- C4 (amended): pass-through. When the call completes, an entry `(key, v)` of `value`
to whose key no rule applies, because for each rule the pattern prefix is absent from
the key, or the pattern suffix does not follow the digit run behind the first
occurrence of the prefix, or the cross-reference key is not in `name_id`, is passed
through by the rule loop and found unchanged in the result, `value_renamed[key] = v`,
provided the keys of `value` are pairwise distinct and no other entry of `value` is
written to `key`. -/
theorem applyNameTransform_passthrough (rules : List SubstitutionRule) (c c' : RosTypeFlat)
    (key : Str) (v : Double) (hkeys : (c.value.map Prod.fst).Nodup)
    (hentry : (key, v) ∈ c.value)
    (hmiss : ∀ r ∈ rules, RuleMisses r c.name_id key)
    (hother : ∀ e ∈ c.value, e.1 ≠ key → applyRules rules c.name_id e.1 ≠ .ok key)
    (hdone : applyNameTransform rules c = .ok c') :
    applyRules rules c.name_id key = .ok key ∧ mapFind key c'.value_renamed = some v := by
  have hok := (applyNameTransform_ok rules c c' hdone).1 (key, v) hentry
  have hkeep : applyRules rules c.name_id key = .ok key := by
    rcases applyRules_miss rules c.name_id key hmiss with h | ⟨e, h⟩
    · exact h
    · simp only [] at hok
      rw [h] at hok
      cases hok
  have hnew : newKey rules c.name_id key = key := by
    unfold newKey
    rw [hkeep]
  have h := renamed_find rules c c' key v hkeys hentry (by rw [hnew]; exact hother) hdone
  rw [hnew] at h
  exact ⟨hkeep, h⟩

theorem applyNameTransform_passthrough_witness :
    applyNameTransform [exampleRule] missFlat
        = .ok ⟨missFlat.value, missFlat.name_id, missFlat.value⟩
      ∧ mapFind "count".toList missFlat.value = some double_1_5
      ∧ mapFind "a[0]x".toList missFlat.value = some double_2_5
      ∧ mapFind "b[1].y".toList missFlat.value = some ⟨0⟩ :=
  ⟨by decide,
    (applyNameTransform_passthrough [exampleRule] missFlat
      ⟨missFlat.value, missFlat.name_id, missFlat.value⟩ "count".toList double_1_5
      (by decide) (by decide)
      (fun r hr => by
        rw [List.mem_singleton.1 hr]
        refine Or.inl ?_
        rintro ⟨a, b, h⟩
        have hm : '[' ∈ a ++ exampleRule.pattern_pre ++ b :=
          List.mem_append_left _ (List.mem_append_right _ (by decide))
        rw [← h] at hm
        exact absurd hm (by decide))
      (by decide) (by decide)).2,
    (applyNameTransform_passthrough [exampleRule] missFlat
      ⟨missFlat.value, missFlat.name_id, missFlat.value⟩ "a[0]x".toList double_2_5
      (by decide) (by decide)
      (fun r hr => by
        rw [List.mem_singleton.1 hr]
        exact Or.inr (Or.inl ⟨"a".toList, "0".toList, "]x".toList, by decide, by decide,
          by decide, by decide, by decide⟩))
      (by decide) (by decide)).2,
    (applyNameTransform_passthrough [exampleRule] missFlat
      ⟨missFlat.value, missFlat.name_id, missFlat.value⟩ "b[1].y".toList ⟨0⟩
      (by decide) (by decide)
      (fun r hr => by
        rw [List.mem_singleton.1 hr]
        exact Or.inr (Or.inr ⟨"b".toList, "1".toList, "y".toList, by decide, by decide,
          by decide, by decide, by decide⟩))
      (by decide) (by decide)).2⟩

/-! ## Field names shared inside a type -/

/-- C1 (as stated, refuted): the type map with the one type `Pair` of two `float64`
fields that are both named `x` is closed and acyclic, and its field names hold none of
`.`, `[`, `]`. The value of type `Pair` with the fields 1.5 and 2.5 has two terminal
fields; decoding its reference encoding into the empty table completes at the end of
the buffer, but both fields are written to the key `p.x`: the table ends with one entry,
which holds 2.5, and 1.5 is lost. -/
theorem duplicate_field_names_one_entry :
    Closed dupTypeMap ∧ Acyclic dupTypeMap ∧ FieldNamesClean dupTypeMap
      ∧ rootHasType dupTypeMap "Pair".toList (.one dupValue) = true
      ∧ flattenRoot (fun _ _ => ⟨0⟩) "p".toList (.one dupValue)
        = [("p.x".toList, .num double_1_5), ("p.x".toList, .num double_2_5)]
      ∧ buildRosFlatType (fun _ _ => ⟨0⟩) dupTypeMap 2 "Pair".toList "p".toList
          (encodeRoot (.one dupValue), emptyFlat)
        = .ok ([], ⟨[("p.x".toList, double_2_5)], [], []⟩)
      ∧ List.length [("p.x".toList, double_2_5)]
        ≠ (flattenRoot (fun _ _ => ⟨0⟩) "p".toList (.one dupValue)).length
      ∧ ¬ NoDupFields dupTypeMap :=
  ⟨by decide, acyclic_of_ranked dupRank dupTypeMap (by decide), by decide, by decide,
    by decide, by decide, by decide, by decide⟩

end RosTypeParser
